import Mathlib

/-!
# zip cracker: a shallow embedding of the ZipCrypto engine, the validator,
# the search driver and the brute-force candidate iterator

Conventions of the embedding.

* A byte is a natural number below 256, a `std::uint32_t` a natural number
  below `2 ^ 32`; every operation that can wrap reduces explicitly.
* A `const std::byte *` is the list of the bytes that can be read starting at
  the pointer, up to the end of the underlying buffer.  Reading past the end
  of that list is the failure `Failure.out_of_bounds`.
* A C++ exception is the failure `Failure.runtime_error`.
* Mutable objects (`decrypter`, `inflater`, the captured `residual`) are
  passed in and returned explicitly.
* Addresses inside the archive are offsets from the start of the span; the
  pointer of the local-file walk, to which a 64-bit size read from the archive
  is added, wraps at `2 ^ 64`.  The host is little-endian, as the test
  `nativize` of the repository presumes.
-/

namespace zip_cracker

/-! ## Failures -/

/-- Ways in which a call does not return a value. -/
inductive Failure where
  /-- a read or write outside the underlying buffer -/
  | out_of_bounds : Failure
  /-- a thrown `std::runtime_error` carrying its message -/
  | runtime_error (msg : String) : Failure
  /-- the round bound of a loop of the embedding was hit; no run of the source
  ends this way, and the bounds are chosen so that it is returned only for a
  loop that the source never leaves -/
  | out_of_fuel : Failure
  deriving DecidableEq, Repr

/-- Structural equality test on results, used to evaluate closed statements. -/
instance instDecidableEqExcept {ε α : Type} [DecidableEq ε] [DecidableEq α] :
    DecidableEq (Except ε α)
  | .ok a, .ok b => if h : a = b then isTrue (by rw [h]) else isFalse (by intro e; cases e; exact h rfl)
  | .error a, .error b =>
      if h : a = b then isTrue (by rw [h]) else isFalse (by intro e; cases e; exact h rfl)
  | .ok _, .error _ => isFalse (by intro e; cases e)
  | .error _, .ok _ => isFalse (by intro e; cases e)

/-- Read the byte at index `i` through a pointer (`p[i]`). -/
def read (mem : List Nat) (i : Nat) : Except Failure Nat :=
  match mem.get? i with
  | some b => .ok b
  | none => .error Failure.out_of_bounds

/-- Read the `n` bytes of `std::span(p, p + n)`. -/
def read_span (mem : List Nat) (n : Nat) : Except Failure (List Nat) :=
  if n ≤ mem.length then .ok (mem.take n) else .error Failure.out_of_bounds

/-! ## CRC-32 (crc32.hpp) -/

/-- Modelled from the spec: crc32.hpp is not among the sources; the spec names
the standard IEEE polynomial.  One bit of the reflected CRC-32
(polynomial 0xEDB88320) shift register. -/
def crc32_bit (r : Nat) : Nat :=
  if r % 2 = 1 then (r >>> 1) ^^^ 0xEDB88320 else r >>> 1

/-- Modelled from the spec: crc32.hpp is not among the sources.  The spec's
`crc32_step(r, b)`: one IEEE CRC-32 update of the residual `r` with the single
byte `b`. -/
@[irreducible] def crc32_step (r b : Nat) : Nat :=
  crc32_bit (crc32_bit (crc32_bit (crc32_bit (crc32_bit (crc32_bit (crc32_bit (crc32_bit
    ((r ^^^ b) % 2 ^ 32))))))))

/-- Modelled from the spec: crc32.hpp is not among the sources.  The three
argument `crc32(buf, len, residual)`, which updates the residual in place with
the bytes of the buffer (the spec's pure `crc32(bytes, residual) -> residual`). -/
def crc32_update (buf : List Nat) (residual : Nat) : Nat :=
  buf.foldl crc32_step residual

/-- Bitwise complement of a `std::uint32_t`. -/
def not32 (x : Nat) : Nat := 0xFFFFFFFF ^^^ (x % 2 ^ 32)

/-- Modelled from the spec: crc32.hpp is not among the sources.  The two
argument `crc32(buf, len)`: the finished CRC-32 of a buffer, with
`crc32("Test", 4) == 0x784DD132`. -/
def crc32 (buf : List Nat) : Nat :=
  not32 (crc32_update buf 0xFFFFFFFF)

/-! ## The ZipCrypto key (decrypter.hpp) -/

/-- The three 32-bit key words, `std::array<std::uint32_t, 3>`. -/
structure Key where
  k0 : Nat
  k1 : Nat
  k2 : Nat
  deriving DecidableEq, Repr

/-- The constant `{305419896, 591751049, 878082192}`. -/
def initial_key : Key := ⟨305419896, 591751049, 878082192⟩

/-- The stateful engine: its only member is `key_`. -/
structure decrypter where
  key_ : Key
  deriving DecidableEq, Repr

namespace decrypter

/-- The private static `crc`: `crc32(&p, 1, residual); return residual;`. -/
def crc (residual p : Nat) : Nat := crc32_update [p] residual

/-- The key tumbler `update_key`; the returned byte `p` is the argument itself. -/
def update_key (key : Key) (p : Nat) : Key :=
  let k0 := crc key.k0 p
  let k1 := (key.k1 + (k0 &&& 0x000000ff)) % 2 ^ 32
  let k1 := (k1 * 134775813 + 1) % 2 ^ 32
  let k2 := crc key.k2 ((k1 >>> 24) % 256)
  ⟨k0, k1, k2⟩

/-- The keystream byte `next_key_stream_byte`: `i` is a `std::uint16_t`, the
product is taken in 32-bit wrapping arithmetic and the result is narrowed to a
byte. -/
def next_key_stream_byte (key : Key) : Nat :=
  let i := (key.k2 ||| 2) % 2 ^ 16
  (((i * (i ^^^ 1)) % 2 ^ 32) >>> 8) % 256

/-- The body of `std::transform(first, last, out, [this](auto c) { return
update_key(c ^ next_key_stream_byte()); })`: the bytes written to `out` and the
key afterwards. -/
def decrypt_chunk : Key → List Nat → Key × List Nat
  | key, [] => (key, [])
  | key, c :: cs =>
    let p := c ^^^ next_key_stream_byte key
    let r := decrypt_chunk (update_key key p) cs
    (r.1, p :: r.2)

/-- The loop `for (auto c : span) update_key(c ^ next_key_stream_byte());`. -/
def absorb (key : Key) (cs : List Nat) : Key :=
  cs.foldl (fun k c => update_key k (c ^^^ next_key_stream_byte k)) key

/-- The method `reset(password, header, check_bits)`: the returned flag and the
engine as the call leaves it.  The prior state of the engine is the first
argument. -/
def reset (_self : decrypter) (password : List Nat) (header : List Nat)
    (check_bits : Nat) : Except Failure (Bool × decrypter) := do
  let key := initial_key
  let key := password.foldl update_key key
  -- decrypt first 10 chars of encryption header
  let first ← read_span header 10
  let key := absorb key first
  -- decrypt 11th char of encryption header and check against check bits
  let c10 ← read header 10
  let p := c10 ^^^ next_key_stream_byte key
  if p = check_bits % 256 then
    let key := update_key key p
    -- decrypt 12th char of encryption header and check against check bits
    let c11 ← read header 11
    let p := c11 ^^^ next_key_stream_byte key
    if p = (check_bits >>> 8) % 256 then
      let key := update_key key p
      pure (true, ⟨key⟩)
    else
      pure (false, ⟨key⟩)
  else
    pure (false, ⟨key⟩)

/-- The loop of `transform`.  Every round reads `min(4096, len)` bytes at
`ciphertext` (which the source never advances), decrypts them, hands them to
the receiver and subtracts the chunk length from `len`.  The first argument
bounds the number of rounds; `len` rounds always suffice because every round
removes at least one byte. -/
def transform_loop {σ : Type} (receiver : σ → List Nat → Except Failure σ)
    (ciphertext : List Nat) : Nat → decrypter → Nat → σ → Except Failure (decrypter × σ)
  | 0, self, _, s => pure (self, s)
  | rounds + 1, self, len, s =>
    if len = 0 then pure (self, s)
    else do
      let plaintext_len := min (2 ^ 12) len
      let chunk ← read_span ciphertext plaintext_len
      let r := decrypt_chunk self.key_ chunk
      let s ← receiver s r.2
      transform_loop receiver ciphertext rounds ⟨r.1⟩ (len - plaintext_len) s

/-- The method `transform(ciphertext, len, receiver)`; `s` is the state the
receiver captures by reference. -/
def transform {σ : Type} (self : decrypter) (ciphertext : List Nat) (len : Nat)
    (receiver : σ → List Nat → Except Failure σ) (s : σ) : Except Failure (decrypter × σ) :=
  transform_loop receiver ciphertext len self len s

end decrypter

/-! ## verify_password (zip.cpp) -/

namespace verify_password

/-- The lambda `crc`. -/
def crc (residual p : Nat) : Nat := crc32_update [p] residual

/-- The lambda `update_keys`. -/
def update_keys (key : Key) (p : Nat) : Key :=
  let k0 := crc key.k0 p
  let k1 := (key.k1 + (k0 &&& 0x000000ff)) % 2 ^ 32
  let k1 := (k1 * 134775813 + 1) % 2 ^ 32
  let k2 := crc key.k2 ((k1 >>> 24) % 256)
  ⟨k0, k1, k2⟩

/-- The lambda `decrypt_byte`. -/
def decrypt_byte (key : Key) : Nat :=
  let i := (key.k2 ||| 2) % 2 ^ 16
  (((i * (i ^^^ 1)) % 2 ^ 32) >>> 8) % 256

/-- The final loop: decrypt the rest of the ciphertext, feeding each plaintext
byte to the key and to the residual. -/
def payload_loop : Key → Nat → List Nat → Nat
  | _, residual, [] => residual
  | key, residual, c :: cs =>
    let p := c ^^^ decrypt_byte key
    payload_loop (update_keys key p) (crc residual p) cs

end verify_password

/-- The function `verify_password(ciphertext, len, password, check_bits,
plaintext_crc32)`. -/
def verify_password (ciphertext : List Nat) (len : Nat) (password : List Nat)
    (check_bits : Nat) (plaintext_crc32 : Nat) : Except Failure Bool := do
  let key := initial_key
  -- initialize keys using the password
  let key := password.foldl verify_password.update_keys key
  -- decrypt first 10 chars of encryption header
  let first ← read_span ciphertext 10
  let key := first.foldl
    (fun k c => verify_password.update_keys k (c ^^^ verify_password.decrypt_byte k)) key
  let c10 ← read ciphertext 10
  let p := c10 ^^^ verify_password.decrypt_byte key
  if p = check_bits % 256 then
    let key := verify_password.update_keys key p
    let c11 ← read ciphertext 11
    let p := c11 ^^^ verify_password.decrypt_byte key
    if p = (check_bits >>> 8) % 256 then
      let key := verify_password.update_keys key p
      -- std::span(ciphertext + 12, ciphertext + len): not a range when len < 12
      if len < 12 then throw Failure.out_of_bounds
      let rest ← read_span (ciphertext.drop 12) (len - 12)
      let residual := verify_password.payload_loop key 0xffffffff rest
      pure (decide (not32 residual = plaintext_crc32))
    else
      pure false
  else
    pure false

/-! ## The cipher as the specification words it -/

namespace spec

/-- The key tumbler `update(p)` of the specification:
`k0 ← crc32_step(k0, p)`, `k1 ← (k1 + (k0 & 0xFF)) * 134775813 + 1` (wrapping),
`k2 ← crc32_step(k2, byte(k1 >> 24))`. -/
def update (key : Key) (p : Nat) : Key :=
  let k0 := crc32_step key.k0 p
  let k1 := ((key.k1 + (k0 &&& 0xFF)) * 134775813 + 1) % 2 ^ 32
  let k2 := crc32_step key.k2 ((k1 >>> 24) % 256)
  ⟨k0, k1, k2⟩

/-- The keystream byte of the specification:
`i ← (k2 | 2) as u16; return byte((i * (i ^ 1)) >> 8)`. -/
def keystream (key : Key) : Nat :=
  let i := (key.k2 ||| 2) % 2 ^ 16
  ((i * (i ^^^ 1)) >>> 8) % 256

/-- The key after the password has been absorbed. -/
def password_key (pw : List Nat) : Key := pw.foldl update initial_key

/-- ZipCrypto encryption from a given key: each plaintext byte `p` is output
as `p XOR keystream-byte`, then the key is updated with `p`. -/
def encrypt_from : Key → List Nat → List Nat
  | _, [] => []
  | key, p :: ps => (p ^^^ keystream key) :: encrypt_from (update key p) ps

/-- The encryption `enc(pw, m)`. -/
def enc (pw m : List Nat) : List Nat := encrypt_from (password_key pw) m

/-- The plaintext `p_0 .. p_{len-1}` of a ciphertext from a given key:
`p_j = ciphertext[j] XOR` the keystream byte of the key reached after
updating with `p_0 .. p_{j-1}`. -/
def decrypt_from : Key → List Nat → List Nat
  | _, [] => []
  | key, c :: cs =>
    let p := c ^^^ keystream key
    p :: decrypt_from (update key p) cs

end spec

/-! ## Receivers -/

/-- The receiver that records the delivered bytes in order; its captured state
is everything delivered so far. -/
def collect (delivered : List Nat) (buf : List Nat) : Except Failure (List Nat) :=
  pure (delivered ++ buf)

/-- A ciphertext of 4097 bytes, one byte more than a chunk: 4096 zero bytes
followed by the byte 1. -/
def ciphertext_4097 : List Nat := List.replicate 4096 0 ++ [1]

/-! ## Byte utilities (zip.hpp) -/

/-- The two byte orderings of `std::endian`. -/
inductive endian where
  | little : endian
  | big : endian
  deriving DecidableEq, Repr

/-- The ordering `std::endian::native` of the host. -/
def endian.native : endian := endian.little

/-- The function `nativize<ordering, T>(input)` for a `T` of `size` bytes: for an
ordering other than little, the loop `result <<= 8; result |= uint8_t(input >> i)`
over `i = 0, 8, ..`; otherwise the input. -/
def nativize (ordering : endian) (size : Nat) (input : Nat) : Nat :=
  if ordering ≠ endian.little then
    (List.range size).foldl
      (fun result j => ((result <<< 8) % 2 ^ (8 * size)) ||| ((input >>> (8 * j)) % 256)) 0
  else input

/-- The function `align<T>(storage)` for a `T` of `size` bytes: the `memcpy` of
`size` bytes into an unsigned integer of the little-endian host. -/
def align (size : Nat) (storage : List Nat) : Except Failure Nat := do
  let bytes ← read_span storage size
  pure (bytes.foldr (fun b acc => b + 256 * acc) 0)

/-- Read of a member of `size` bytes at byte offset `offset` of a packed structure
that lives at `self`. -/
def member (self : List Nat) (offset size : Nat) : Except Failure Nat :=
  align size (self.drop offset)

/-! ## Local file headers (zip.hpp) -/

/-- The constant `data_descriptor_magic`. -/
def data_descriptor_magic : Nat := 0x08074b50

/-- The constant `local_file_header_magic`. -/
def local_file_header_magic : Nat := 0x04034b50

/-- The size of `basic_data_descriptor<Size>`, packed: a `std::uint32_t` and two
`Size` members. -/
def sizeof_data_descriptor (size : Nat) : Nat := 4 + size + size

namespace zip64_extra_field

/-- The accessor `uncompressed_size()`: the first `std::uint64_t`. -/
def uncompressed_size (self : List Nat) : Except Failure Nat :=
  nativize endian.native 8 <$> member self 0 8

/-- The accessor `compressed_size()`: the second `std::uint64_t`. -/
def compressed_size (self : List Nat) : Except Failure Nat :=
  nativize endian.native 8 <$> member self 8 8

end zip64_extra_field

namespace extra_field

/-- The accessor `header_id()`. -/
def header_id (self : List Nat) : Except Failure Nat :=
  nativize endian.native 2 <$> member self 0 2

/-- The accessor `size()`. -/
def size (self : List Nat) : Except Failure Nat :=
  nativize endian.native 2 <$> member self 2 2

end extra_field

namespace local_file

/-- The size of the packed header, `sizeof(local_file) == 30`. -/
def sizeof : Nat := 30

def signature (self : List Nat) : Except Failure Nat :=
  nativize endian.native 4 <$> member self 0 4

def general_purpose_bit_flags (self : List Nat) : Except Failure Nat :=
  nativize endian.native 2 <$> member self 6 2

def compression_method (self : List Nat) : Except Failure Nat :=
  nativize endian.native 2 <$> member self 8 2

def file_last_mod_time (self : List Nat) : Except Failure Nat :=
  nativize endian.native 2 <$> member self 10 2

def raw_uncompressed_crc32 (self : List Nat) : Except Failure Nat :=
  nativize endian.native 4 <$> member self 14 4

def raw_compressed_size (self : List Nat) : Except Failure Nat :=
  nativize endian.native 4 <$> member self 18 4

def raw_uncompressed_size (self : List Nat) : Except Failure Nat :=
  nativize endian.native 4 <$> member self 22 4

def file_name_length (self : List Nat) : Except Failure Nat :=
  nativize endian.native 2 <$> member self 26 2

def extra_field_length (self : List Nat) : Except Failure Nat :=
  nativize endian.native 2 <$> member self 28 2

def is_encrypted (self : List Nat) : Except Failure Bool := do
  pure (decide ((← general_purpose_bit_flags self) &&& 0x01 ≠ 0))

def has_data_descriptor (self : List Nat) : Except Failure Bool := do
  pure (decide ((← general_purpose_bit_flags self) &&& 0x08 ≠ 0))

def is_zip64 (self : List Nat) : Except Failure Bool := do
  if (← raw_compressed_size self) = 0xffffffff then
    pure (decide ((← raw_uncompressed_size self) = 0xffffffff))
  else
    pure false

/-- The loop of `get_zip64_extra_field`: `i` and `e` are the offsets of the two
`extra_field_iterator`s from `self`; `result` is the offset of the data of the
last sub-record with header id 0x0001 seen so far.  A round reads the four
bytes of a sub-record header and moves `i` forward by at least four, so no run
has more rounds than `self` has bytes. -/
def get_zip64_extra_field_loop (self : List Nat) (e : Nat) :
    Nat → Nat → Option Nat → Except Failure (Option Nat)
  | 0, _, _ => throw Failure.out_of_fuel
  | rounds + 1, i, result =>
    if i = e then pure result
    else do
      -- i->visit(...)
      let header_id ← extra_field.header_id (self.drop i)
      let result := if header_id = 0x0001 then some (i + 4) else result
      -- ++i
      let size ← extra_field.size (self.drop i)
      get_zip64_extra_field_loop self e rounds (i + 4 + size) result

/-- The private `get_zip64_extra_field()`: the offset from `self` of the zip64
extra field, or the exception. -/
def get_zip64_extra_field (self : List Nat) : Except Failure Nat := do
  let first := sizeof + (← file_name_length self)
  let last := first + (← extra_field_length self)
  match ← get_zip64_extra_field_loop self last (self.length + 1) first none with
  | none => throw (Failure.runtime_error "attempt to get non-existent zip64 data")
  | some result => pure result

def compressed_size (self : List Nat) : Except Failure Nat := do
  let result ← raw_compressed_size self
  if ← is_zip64 self then
    zip64_extra_field.compressed_size (self.drop (← get_zip64_extra_field self))
  else
    pure result

/-- The accessor `compressed_data()`: the offset from `self` of the first byte
of the span, and its size. -/
def compressed_data (self : List Nat) : Except Failure (Nat × Nat) := do
  pure (sizeof + (← file_name_length self) + (← extra_field_length self), ← compressed_size self)

/-- The member `visit_data_descriptor`: the offset from `self` of the data
descriptor handed to the visitor, and the size of its `Size` members (8 for
`data_descriptor64`, 4 for `data_descriptor32`). -/
def visit_data_descriptor (self : List Nat) : Except Failure (Nat × Nat) := do
  let ptr := sizeof + (← file_name_length self) + (← extra_field_length self)
    + (← compressed_size self)
  -- skip signature if it's the magic number
  let ptr := if nativize endian.native 4 (← align 4 (self.drop ptr)) = data_descriptor_magic
    then ptr + 4 else ptr
  if ← is_zip64 self then pure (ptr, 8) else pure (ptr, 4)

def uncompressed_crc32 (self : List Nat) : Except Failure Nat := do
  let result ← raw_uncompressed_crc32 self
  if ← has_data_descriptor self then
    let d ← visit_data_descriptor self
    -- result = d.crc32
    member (self.drop d.1) 0 4
  else
    pure result

def uncompressed_size (self : List Nat) : Except Failure Nat := do
  let result ← raw_uncompressed_size self
  let result ← if ← is_zip64 self then
      zip64_extra_field.uncompressed_size (self.drop (← get_zip64_extra_field self))
    else pure result
  if ← has_data_descriptor self then
    let d ← visit_data_descriptor self
    -- result = d.uncompressed_size
    member (self.drop d.1) (4 + d.2) d.2
  else
    pure result

/-- The accessor `data_descriptor_data()`: the offset from `self` of the first
byte of the span, and its size `(&d + sizeof(d)) - ptr`. -/
def data_descriptor_data (self : List Nat) : Except Failure (Nat × Nat) := do
  let ptr := sizeof + (← file_name_length self) + (← extra_field_length self)
    + (← compressed_size self)
  let d ← visit_data_descriptor self
  pure (ptr, (d.1 + sizeof_data_descriptor d.2) - ptr)

end local_file

/-! ## The local file iterator (zip.hpp) -/

/-- The iterator `local_file_iterator<const std::byte>` over the bytes `zip` of a
span: `addr_` is the offset of the current header from the start of the span,
`none` for the null pointer; `end_` is the offset of the end of the span.  The
two pointers are compared through these offsets. -/
structure local_file_iterator where
  zip : List Nat
  addr_ : Option Nat
  end_ : Nat
  deriving DecidableEq, Repr

namespace local_file_iterator

/-- The constructor `local_file_iterator(span)`. -/
def mk_span (zip : List Nat) : local_file_iterator := ⟨zip, some 0, zip.length⟩

/-- The lambda `get_addr` of `operator==`: the address when it is not null,
before `end_`, and carries the signature of a local file header. -/
def get_addr (self : local_file_iterator) : Except Failure (Option Nat) :=
  match self.addr_ with
  | none => pure none
  | some addr =>
    if addr < self.end_ then do
      if (← local_file.signature (self.zip.drop addr)) = local_file_header_magic then
        pure (some addr)
      else pure none
    else pure none

/-- The comparison `it == local_file_iterator()` with the default constructed end
sentinel, whose `get_addr` is the null pointer. -/
def is_end (self : local_file_iterator) : Except Failure Bool := do
  pure (decide ((← get_addr self) = none))

/-- The header `*it`, as the bytes readable from its address. -/
def deref (self : local_file_iterator) : List Nat :=
  self.zip.drop (self.addr_.getD 0)

/-- The sum `p + n` of a pointer into the span and a `std::uint64_t`, both given
through the offset `sum` of the result from the start of the span: the
addition of the 64-bit machine, which wraps at 2^64.  A sum that stays within
the span or stops at its end is below 2^64 in every span that the address
space holds (there `end_` is below 2^64) and is left as it is, so that for
those spans the result is `sum % 2 ^ 64`. -/
def pointer_plus (end_ sum : Nat) : Nat := if sum ≤ end_ then sum else sum % 2 ^ 64

/-- The address that `operator++` computes for `addr_`, before the comparison
with `end_`: the end of the data descriptor when the header has one, the end of
the compressed data otherwise.  Either way the `std::uint64_t` of
`compressed_size()`, any value below 2^64, has been added to a pointer, and
that addition wraps: it gives `compressed_data().data() + size()` in one case
and the pointer `data_descriptor_data().data()` in the other, to which the
size of the descriptor, at most 24 bytes, is added.  (The descriptor itself
has been read where the sum points before it wraps, which the embedding allows
within the span only.) -/
def next_address (self : local_file_iterator) : Except Failure Nat := do
  let here := self.addr_.getD 0
  let value := deref self
  if ← local_file.has_data_descriptor value then
    let d ← local_file.data_descriptor_data value
    let d' ← local_file.data_descriptor_data value
    pure (pointer_plus self.end_ (here + d.1) + d'.2)
  else
    let c ← local_file.compressed_data value
    let c' ← local_file.compressed_data value
    pure (pointer_plus self.end_ (here + c.1 + c'.2))

/-- The increment `operator++` of an iterator whose `addr_` is not null. -/
def increment (self : local_file_iterator) : Except Failure local_file_iterator := do
  let next ← next_address self
  if next ≥ self.end_ then pure { self with addr_ := none }
  else pure { self with addr_ := some next }

end local_file_iterator

/-! ## The inflater (inflater.hpp) -/

/-- The zlib library as far as the validator depends on it.  `fresh` is the
stream that `inflateInit2(s, -15)` and `inflateReset2(s, -15)` leave.
`inflate_calls` stands for the successive calls of `::inflate` made by one run
of the loop `while (stream_->avail_in)` of `inflater::transform` on the given
input: the output chunks of the calls that returned a non-negative code, in
order, then the code of the last call and the stream it leaves.  Runs that
never leave the loop are outside the model. -/
structure zlib where
  z_stream : Type
  fresh : z_stream
  msg : z_stream → Option String
  inflate_calls : z_stream → List Nat → Bool → List (List Nat) × Int × z_stream

/-- The class `inflater`: its only member is `stream_`. -/
structure inflater (z : zlib) where
  stream_ : z.z_stream

namespace inflater

/-- The private `zlib(function, args...)` on the result of the zlib call:
`if (result < 0) throw std::runtime_error(msg ? msg : "unknown error")`. -/
def zlib_result {z : zlib} (stream : z.z_stream) (result : Int) : Except Failure Int :=
  if result < 0 then throw (Failure.runtime_error ((z.msg stream).getD "unknown error"))
  else pure result

/-- The method `reset()`: `zlib(::inflateReset2, -15)`, which returns `Z_OK`. -/
def reset {z : zlib} (_self : inflater z) : Except Failure (inflater z) := do
  let _ ← zlib_result z.fresh 0
  pure ⟨z.fresh⟩

/-- The method `transform(buf_in, len, receiver, finish)`; `s` is the state the
receiver captures by reference. -/
def transform {z : zlib} {σ : Type} (self : inflater z) (buf_in : List Nat) (len : Nat)
    (receiver : σ → List Nat → Except Failure σ) (finish : Bool) (s : σ) :
    Except Failure (inflater z × σ) := do
  let input ← read_span buf_in len
  let calls := z.inflate_calls self.stream_ input finish
  let s ← calls.1.foldlM receiver s
  let _ ← zlib_result calls.2.2 calls.2.1
  pure (⟨calls.2.2⟩, s)

end inflater

/-! ## The validator and the search driver (zip-cracker.cpp) -/

/-- The two `static thread_local` engines of `is_password_valid`. -/
structure engines (z : zlib) where
  decrypter : decrypter
  inflater : inflater z

/-- The engines as their default constructors leave them. -/
def engines.initial (z : zlib) : engines z := ⟨⟨⟨0, 0, 0⟩⟩, ⟨z.fresh⟩⟩

/-- The receiver `[&](auto buf, auto len) { zc::crc32(buf, len, residual); }`. -/
def crc32_receiver (residual : Nat) (buf : List Nat) : Except Failure Nat :=
  pure (crc32_update buf residual)

/-- The receiver of the deflated case, which captures the inflater and the
residual: `inflater.transform(buf, len, crc32_receiver, false)`. -/
def inflate_receiver {z : zlib} (s : inflater z × Nat) (buf : List Nat) :
    Except Failure (inflater z × Nat) :=
  inflater.transform s.1 buf buf.length crc32_receiver false s.2

/-- The `switch` of `is_password_valid` over the `std::uint8_t` enumeration
`compression_method`, which has the cases `stored` (0) and `deflated` (8) and no
default: the engines and the residual after it.  `len - 12` is `std::size_t`
arithmetic. -/
def is_password_valid_switch {z : zlib} (method : Nat) (dec : decrypter) (inf : inflater z)
    (buf : List Nat) (len : Nat) (residual : Nat) :
    Except Failure (decrypter × inflater z × Nat) :=
  if method = 0 then do
    let t ← decrypter.transform dec (buf.drop 12) ((len + 2 ^ 64 - 12) % 2 ^ 64)
      crc32_receiver residual
    pure (t.1, inf, t.2)
  else if method = 8 then do
    let t ← decrypter.transform dec (buf.drop 12) ((len + 2 ^ 64 - 12) % 2 ^ 64)
      inflate_receiver (inf, residual)
    pure (t.1, t.2.1, t.2.2)
  else
    pure (dec, inf, residual)

/-- The function `is_password_valid(local_file, password)`: the returned flag and
the thread-local engines as the call leaves them; `entry` is the header
`local_file`, as the bytes readable from its address.  The argument of the
switch is the compression method converted to the `std::uint8_t` enumeration. -/
def is_password_valid {z : zlib} (tl : engines z) (entry : List Nat)
    (password : List Nat) : Except Failure (Bool × engines z) := do
  if ← local_file.is_encrypted entry then
    let buf := entry.drop (← local_file.compressed_data entry).1
    let len := (← local_file.compressed_data entry).2
    let r ← decrypter.reset tl.decrypter password buf
      ((← local_file.file_last_mod_time entry) % 2 ^ 16)
    if r.1 then
      let inf ← inflater.reset tl.inflater
      let residual := 0xffffffff
      let t ← is_password_valid_switch ((← local_file.compression_method entry) % 2 ^ 8)
        r.2 inf buf len residual
      pure (decide (not32 t.2.2 = (← local_file.uncompressed_crc32 entry)), ⟨t.1, t.2.1⟩)
    else
      pure (false, ⟨r.2, tl.inflater⟩) -- check bits didn't match, don't bother decrypting
  else
    pure (false, tl)

/-- The state shared by the rounds of `crack`: the `result` slot and the
thread-local engines of the one thread that runs the loops. -/
structure crack_state (z : zlib) where
  result : Option (List Nat)
  tl : engines z

/-- The inner `std::any_of` over the passwords, run in order on one thread, with
the lambda that stores a valid password into `result`. -/
def any_of_passwords {z : zlib} (entry : List Nat) :
    List (List Nat) → crack_state z → Except Failure (Bool × crack_state z)
  | [], s => pure (false, s)
  | password :: rest, s => do
    let r ← is_password_valid s.tl entry password
    if r.1 then pure (true, ⟨some password, r.2⟩)
    else any_of_passwords entry rest ⟨s.result, r.2⟩

/-- The outer `std::any_of` from `zip_iter_t(zip_file)` to `zip_iter_t()`, run in
order on one thread.  The position after an increment depends on the position
before it only, and every position the loop visits lies within the span, so a
walk that comes to an end visits no position twice and has no more rounds than
the archive has bytes; a walk that uses up that many rounds is one that the
source never leaves (`crack_never_returns`). -/
def any_of_local_files {z : zlib} (passwords : List (List Nat)) :
    Nat → local_file_iterator → crack_state z → Except Failure (Bool × crack_state z)
  | 0, _, _ => throw Failure.out_of_fuel
  | rounds + 1, first, s => do
    if ← local_file_iterator.is_end first then pure (false, s)
    else do
      let r ← any_of_passwords (local_file_iterator.deref first) passwords s
      if r.1 then pure (true, r.2)
      else any_of_local_files passwords rounds (← local_file_iterator.increment first) r.2

/-- The function `crack(zip_file, pswds_begin, pswds_end)` on the passwords that
the range yields, with its two `std::any_of` run sequentially. -/
def crack {z : zlib} (tl : engines z) (zip_file : List Nat) (passwords : List (List Nat)) :
    Except Failure (Option (List Nat)) := do
  let r ← any_of_local_files passwords (zip_file.length + 1)
    (local_file_iterator.mk_span zip_file) ⟨none, tl⟩
  pure r.2.result

/-- The entries that the walk from `first` yields before it ends or fails, as
offsets into the archive, and the failure that stopped it, if any. -/
def local_files_from : Nat → local_file_iterator → List Nat × Option Failure
  | 0, _ => ([], some Failure.out_of_fuel)
  | rounds + 1, first =>
    match local_file_iterator.is_end first with
    | .error f => ([], some f)
    | .ok true => ([], none)
    | .ok false =>
      match local_file_iterator.increment first with
      | .error f => ([first.addr_.getD 0], some f)
      | .ok next =>
        let r := local_files_from rounds next
        (first.addr_.getD 0 :: r.1, r.2)

/-- The entries that the local-file walk over an archive yields. -/
def local_files (zip_file : List Nat) : List Nat × Option Failure :=
  local_files_from (zip_file.length + 1) (local_file_iterator.mk_span zip_file)

/-- One round of a loop that runs an iterator up to the end sentinel: the
incremented iterator, when the iterator does not compare equal to the sentinel
and the increment returns. -/
def walk_round (first : local_file_iterator) : Option local_file_iterator :=
  match local_file_iterator.is_end first with
  | .ok false => (local_file_iterator.increment first).toOption
  | _ => none

/-- The iterator after `n` rounds of the loop, when none of them leaves it. -/
def walk_rounds : Nat → local_file_iterator → Option local_file_iterator
  | 0, first => some first
  | n + 1, first => (walk_round first).bind (walk_rounds n)

/-! ## Concrete inputs -/

/-- A sample zlib for closed evaluations.  Its stream is the `msg` member.  It
implements one rule of RFC 1951, section 3.2.3: the block type 3 in bits 1 and 2
of the first byte is reserved, and `::inflate` answers `Z_DATA_ERROR` (-3) with
the message `invalid block type`.  Any other input it consumes in one call that
produces an empty chunk. -/
def zlib_block_type_check : zlib where
  z_stream := Option String
  fresh := none
  msg := fun s => s
  inflate_calls := fun s input _ =>
    match input with
    | [] => ([], 0, s)
    | b :: _ => if (b >>> 1) % 4 = 3 then ([], -3, some "invalid block type") else ([[]], 0, s)

/-- An archive of one entry: encrypted (flag bit 0), compression method 8,
last_mod_time 0x94AA, no name, no extra field, and a payload of 13 bytes that
the password `a` decrypts to a header ending in the check bytes 0xAA 0x94,
followed by the byte 0x07, a deflate block header of the reserved type 3. -/
def archive_deflated_reserved_block : List Nat :=
  [80, 75, 3, 4, 20, 0, 1, 0, 8, 0, 170, 148, 0, 0, 120, 86, 52, 18, 13, 0, 0, 0, 1, 0, 0, 0,
   0, 0, 0, 0,
   0, 0, 0, 0, 0, 0, 0, 0, 0, 0, 0, 0, 136]

/-- An archive that is one 30-byte header: encrypted (flag bit 0), compression
method 0, no name, no extra field, and an empty payload (compressed size 0). -/
def archive_empty_payload : List Nat :=
  [80, 75, 3, 4, 20, 0, 1, 0, 0, 0, 0, 0, 0, 0, 0, 0, 0, 0, 0, 0, 0, 0, 0, 0, 0, 0, 0, 0, 0, 0]

/-- A 30-byte header, encrypted (flag bit 0), compression method 0,
last_mod_time 0x94AA, no name, no extra field and an empty payload (compressed
size 0), followed by bytes `tail` that are not part of the entry. -/
def archive_empty_payload_then (tail : List Nat) : List Nat :=
  [80, 75, 3, 4, 20, 0, 1, 0, 0, 0, 170, 148, 0, 0, 0, 0, 0, 0, 0, 0, 0, 0, 0, 0, 0, 0, 0, 0, 0, 0]
    ++ tail

/-- An archive of one entry: encrypted (flag bit 0), compression method 99,
last_mod_time 0x94AA, crc32 field 0, no name, no extra field, and a payload of
the 12 zero bytes, which the password `a` decrypts to a header ending in the
check bytes 0xAA 0x94. -/
def archive_method_99 : List Nat :=
  [80, 75, 3, 4, 20, 0, 1, 0, 99, 0, 170, 148, 0, 0, 0, 0, 0, 0, 12, 0, 0, 0, 0, 0, 0, 0,
   0, 0, 0, 0,
   0, 0, 0, 0, 0, 0, 0, 0, 0, 0, 0, 0]

/-- An archive that is one 30-byte header: not encrypted, both raw sizes
0xFFFFFFFF, no name and no extra field, hence no zip64 sub-record. -/
def archive_zip64_without_extra : List Nat :=
  [80, 75, 3, 4, 20, 0, 0, 0, 0, 0, 0, 0, 0, 0, 0, 0, 0, 0, 255, 255, 255, 255, 255, 255, 255,
   255, 0, 0, 0, 0]

/-- An archive of one stored entry named `x`, encrypted with the password `a`:
last_mod_time 0x1234, the crc32 of the two bytes `hi`, and a payload of 14
bytes. -/
def archive_stored_hi : List Nat :=
  [80, 75, 3, 4, 20, 0, 1, 0, 0, 0, 52, 18, 0, 0, 172, 42, 147, 216, 14, 0, 0, 0, 2, 0, 0, 0,
   1, 0, 0, 0, 120,
   50, 134, 196, 204, 103, 136, 138, 128, 157, 86, 104, 6, 155, 196]

/-- The answer of `is_password_valid` for the entry at offset `e` of an archive
and a password, from engines as their constructors leave them. -/
def password_valid (z : zlib) (zip_file : List Nat) (e : Nat) (password : List Nat) :
    Except Failure Bool :=
  Prod.fst <$> is_password_valid (engines.initial z) (zip_file.drop e) password

/-! ## Round bounds -/

/-- A result other than the failure `out_of_fuel`. -/
def within_bounds {α : Type} (x : Except Failure α) : Prop := x ≠ Except.error Failure.out_of_fuel

/-! ## The brute-force iterator (brute.hpp) -/

/-- The class `brute_iterator`: `index_` is a `__uint128_t`, `alphabet_` the
string the shared pointer points to, `indices_` the array of 128
`std::uint8_t`, `indices_len_` a `std::uint8_t`. -/
structure brute_iterator where
  index_ : Nat
  alphabet_ : List Nat
  indices_ : List Nat
  indices_len_ : Nat
  deriving DecidableEq, Repr

/-- The element `s[i]` of a `std::string`: the terminating zero at `i == size()`,
undefined beyond. -/
def string_at (s : List Nat) (i : Nat) : Except Failure Nat :=
  if i = s.length then pure 0 else read s i

namespace brute_iterator

/-- The do-while loop of `set_index`: `*o++ = index % size; index /= size;` while
`index` is not zero.  The first argument is the number of array entries from
`o` to `indices_.end()`; a write at `indices_.end()` is out of bounds.  The
stored digit is narrowed to `std::uint8_t`.  (The alphabet is not empty: the
source would divide by zero.) -/
def set_index_loop (size : Nat) : Nat → Nat → Nat → List Nat → Except Failure (List Nat × Nat)
  | 0, _, _, _ => throw Failure.out_of_bounds
  | free + 1, index, o, indices =>
    let indices := indices.set o ((index % size) % 2 ^ 8)
    let index := index / size
    if index ≠ 0 then set_index_loop size free index (o + 1) indices
    else pure (indices, o + 1)

/-- The private `set_index(index)`. -/
def set_index (self : brute_iterator) (index : Nat) : Except Failure brute_iterator := do
  let r ← set_index_loop self.alphabet_.length 128 index 0 self.indices_
  pure { self with index_ := index, indices_ := r.1, indices_len_ := r.2 % 2 ^ 8 }

/-- The constructor `brute_iterator(index, alphabet)`: value-initialised
members, then `set_index(index)`. -/
def mk_index (index : Nat) (alphabet : List Nat) : Except Failure brute_iterator :=
  set_index ⟨0, alphabet, List.replicate 128 0, 0⟩ index

/-- The dereference `operator*`: the alphabet characters at the first
`indices_len_` entries of `indices_`. -/
def deref (self : brute_iterator) : Except Failure (List Nat) :=
  (self.indices_.take self.indices_len_).mapM (fun i => string_at self.alphabet_ i)

end brute_iterator

/-- The candidate at index `i`: `*brute_iterator(i, alphabet)`. -/
def candidate (alphabet : List Nat) (i : Nat) : Except Failure (List Nat) := do
  brute_iterator.deref (← brute_iterator.mk_index i alphabet)

/-- The base-`A` digits of `i`, least significant first, as the specification
decomposes an index: the lowest digit, then the digits of the quotient, none
for a zero quotient. -/
def spec.digits (A i : Nat) : List Nat := (i % A) :: Nat.digits A (i / A)

/-- An alphabet of 257 bytes: 256 times the letter `a`, then the letter `b`. -/
def alphabet_257 : List Nat := List.replicate 256 97 ++ [98]

/-- The array after the digits `ds` have been stored from position `o` on. -/
def write_at : List Nat → Nat → List Nat → List Nat
  | indices, _, [] => indices
  | indices, o, d :: ds => write_at (indices.set o d) (o + 1) ds

/-- The string the specification assigns to index `i` over an alphabet of `A`
bytes: `alphabet[d0] alphabet[d1] .. alphabet[d_{m-1}]` for digits `d0 .. d_{m-1}`
with every `d_j < A`, the sum of `d_j * A^j` equal to `i`, `m = 1` when `i < A`,
and `d_{m-1} != 0` when `m > 1`. -/
def spec.is_digit_string (alphabet : List Nat) (i : Nat) (s : List Nat) : Prop :=
  ∃ ds : List Nat,
    s = ds.map (fun d => alphabet.getD d 0)
    ∧ (∀ d ∈ ds, d < alphabet.length)
    ∧ Nat.ofDigits alphabet.length ds = i
    ∧ 1 ≤ ds.length
    ∧ (i < alphabet.length → ds.length = 1)
    ∧ (1 < ds.length → ds.getLast? ≠ some 0)

/-! ## Index arithmetic of the brute-force iterator (brute.hpp, zip-cracker.cpp) -/

/-- The function `pow(x, y)` of zip-cracker.cpp: `result *= x`, `y` times, in
`__uint128_t` arithmetic. -/
def pow (x : Nat) (y : Nat) : Nat :=
  (List.range y).foldl (fun result _ => (result * x) % 2 ^ 128) 1

/-- The conversion of a `__uint128_t` to the `difference_type` `__int128_t`. -/
def to_int128 (n : Nat) : Int :=
  if n % 2 ^ 128 < 2 ^ 127 then ((n % 2 ^ 128 : Nat) : Int)
  else ((n % 2 ^ 128 : Nat) : Int) - 2 ^ 128

/-- The conversion of an `__int128_t` to `__uint128_t`. -/
def to_uint128 (k : Int) : Nat := (k % 2 ^ 128).toNat

namespace brute_iterator

/-- The compound assignment `operator+=(offset)`: `set_index(index_ + offset)`,
the sum taken in `__uint128_t`. -/
def operator_plus_assign (self : brute_iterator) (offset : Int) :
    Except Failure brute_iterator :=
  set_index self ((self.index_ + to_uint128 offset) % 2 ^ 128)

/-- The sum `operator+(lhs, rhs)`: `auto result = lhs; result += rhs;`. -/
def operator_plus (lhs : brute_iterator) (rhs : Int) : Except Failure brute_iterator :=
  operator_plus_assign lhs rhs

/-- The difference `operator-(lhs, rhs)` of two iterators:
`difference_type(lhs.index_ - rhs.index_)`. -/
def operator_minus (lhs rhs : brute_iterator) : Int :=
  to_int128 ((lhs.index_ + 2 ^ 128 - rhs.index_ % 2 ^ 128) % 2 ^ 128)

end brute_iterator

/-- The brute range of `main`: `pswd_begin(0, alphabet)` and
`pswd_end(pow(alphabet->size(), max_len), alphabet)`. -/
def main_brute_range (alphabet : List Nat) (max_len : Nat) :
    Except Failure (brute_iterator × brute_iterator) := do
  let max_index := pow alphabet.length max_len
  let pswd_begin ← brute_iterator.mk_index 0 alphabet
  let pswd_end ← brute_iterator.mk_index max_index alphabet
  pure (pswd_begin, pswd_end)

/-! ## The dictionary iterator (dictionary.hpp) -/

/-- The algorithm `std::find(first, last, value)` over bytes: `rest` holds the
bytes readable at `first`; the result is the position of the first byte equal
to `value`, or `last`.  Positions are offsets from the start of the buffer. -/
def find (value : Nat) (last : Nat) : List Nat → Nat → Except Failure Nat
  | [], first => if first = last then pure last else throw Failure.out_of_bounds
  | b :: rest, first =>
    if first = last then pure last
    else if b = value then pure first
    else find value last rest (first + 1)

/-- The class `dict_iterator` over the bytes `mem` of the buffer that the span
views: `addr_` and `end_` are offsets from the start of the span, `none` for
the null pointer. -/
structure dict_iterator where
  mem : List Nat
  addr_ : Option Nat
  end_ : Option Nat
  deriving DecidableEq, Repr

namespace dict_iterator

/-- The default constructor `dict_iterator()`, the end sentinel. -/
def sentinel : dict_iterator := ⟨[], none, none⟩

/-- The constructor `dict_iterator(span)`. -/
def mk_span (span : List Nat) : dict_iterator := ⟨span, some 0, some span.length⟩

/-- The dereference `operator*`: `{addr_, std::find(addr_, end_, '\n')}`. -/
def deref (self : dict_iterator) : Except Failure (List Nat) := do
  let addr := self.addr_.getD 0
  let pos ← find 10 (self.end_.getD 0) (self.mem.drop addr) addr
  pure ((self.mem.drop addr).take (pos - addr))

/-- The increment `operator++`: `addr_ = std::find(addr_, end_, '\n') + 1`. -/
def increment (self : dict_iterator) : Except Failure dict_iterator := do
  let addr := self.addr_.getD 0
  let pos ← find 10 (self.end_.getD 0) (self.mem.drop addr) addr
  pure { self with addr_ := some (pos + 1) }

/-- The lambda `get_addr` of `operator==`: the null pointer when `addr_ == end_`,
`addr_` otherwise. -/
def get_addr (it : dict_iterator) : Option Nat :=
  if it.addr_ = it.end_ then none else it.addr_

/-- The comparison `operator==`, for two iterators over the same span or an
iterator and the sentinel. -/
def operator_eq (lhs rhs : dict_iterator) : Bool :=
  decide (get_addr lhs = get_addr rhs)

end dict_iterator

/-- The loop `for (; it != dict_iterator(); ++it) yield *it`: what it yields
before it ends or fails, and the failure that stopped it, if any.  Every round
moves `addr_` forward by at least one byte of the buffer. -/
def dict_yield_from : Nat → dict_iterator → List (List Nat) × Option Failure
  | 0, _ => ([], some Failure.out_of_fuel)
  | rounds + 1, it =>
    if dict_iterator.operator_eq it dict_iterator.sentinel then ([], none)
    else
      match dict_iterator.deref it with
      | .error f => ([], some f)
      | .ok value =>
        match dict_iterator.increment it with
        | .error f => ([value], some f)
        | .ok next =>
          let r := dict_yield_from rounds next
          (value :: r.1, r.2)

/-- The candidates that iterating from `dict_iterator(span)` to the end sentinel
yields. -/
def dict_yield (span : List Nat) : List (List Nat) × Option Failure :=
  dict_yield_from (span.length + 1) (dict_iterator.mk_span span)

/-- The span `l1 '\n' l2 '\n' .. lk '\n'` of the lines `l1 .. lk`. -/
def spec.lines_span : List (List Nat) → List Nat
  | [] => []
  | l :: ls => l ++ 10 :: spec.lines_span ls


/-! ## Local-file records as the specification lays them out -/

/-- The `w` bytes of the little-endian representation of `v`. -/
def spec.le_bytes : Nat → Nat → List Nat
  | 0, _ => []
  | w + 1, v => v % 256 :: spec.le_bytes w (v / 256)

/-- A sub-record of the extra field: `(header_id:u16, size:u16, data[size])`. -/
structure spec.sub_record where
  header_id : Nat
  data : List Nat
  deriving DecidableEq, Repr

/-- The bytes of a sub-record; its size field is the length of its data. -/
def spec.sub_record.bytes (s : spec.sub_record) : List Nat :=
  spec.le_bytes 2 s.header_id ++ (spec.le_bytes 2 s.data.length ++ s.data)

/-- A sub-record whose fields fit their 16 bits. -/
def spec.sub_record.well_formed (s : spec.sub_record) : Prop :=
  s.header_id < 2 ^ 16 ∧ s.data.length < 2 ^ 16

/-- The bytes of a chain of sub-records. -/
def spec.chain_bytes : List spec.sub_record → List Nat
  | [] => []
  | s :: ss => s.bytes ++ spec.chain_bytes ss

/-- The position that `get_zip64_extra_field` is left with after a chain that
starts at offset `i`: the data of the last sub-record with header id 0x0001,
or `result` when there is none. -/
def spec.last_zip64 : Nat → List spec.sub_record → Option Nat → Option Nat
  | _, [], result => result
  | i, s :: ss, result =>
    spec.last_zip64 (i + 4 + s.data.length) ss
      (if s.header_id = 0x0001 then some (i + 4) else result)

/-- A local-file record: the fields of the 30-byte header other than the
signature and the two lengths, then the name, the extra field and the
compressed payload. -/
structure spec.record where
  version_needed : Nat
  gp_flags : Nat
  compression_method : Nat
  last_mod_time : Nat
  last_mod_date : Nat
  crc32_raw : Nat
  compressed_size_raw : Nat
  uncompressed_size_raw : Nat
  name : List Nat
  extra : List Nat
  payload : List Nat
  deriving DecidableEq, Repr

/-- The bytes of a record: the header with signature 0x04034B50, little-endian,
followed by exactly the name, the extra field and the payload. -/
def spec.record.bytes (r : spec.record) : List Nat :=
  spec.le_bytes 4 0x04034B50 ++ (spec.le_bytes 2 r.version_needed ++ (spec.le_bytes 2 r.gp_flags
    ++ (spec.le_bytes 2 r.compression_method ++ (spec.le_bytes 2 r.last_mod_time
    ++ (spec.le_bytes 2 r.last_mod_date ++ (spec.le_bytes 4 r.crc32_raw
    ++ (spec.le_bytes 4 r.compressed_size_raw ++ (spec.le_bytes 4 r.uncompressed_size_raw
    ++ (spec.le_bytes 2 r.name.length ++ (spec.le_bytes 2 r.extra.length
    ++ (r.name ++ (r.extra ++ r.payload))))))))))))

/-- A well-formed record of the walk: every field fits its width, flag bit 3 is
clear, the raw sizes are not both 0xFFFFFFFF, and the payload has exactly
`compressed_size` bytes. -/
def spec.record.well_formed (r : spec.record) : Prop :=
  r.gp_flags < 2 ^ 16 ∧ r.gp_flags &&& 0x08 = 0
  ∧ r.compressed_size_raw < 2 ^ 32 ∧ r.uncompressed_size_raw < 2 ^ 32
  ∧ ¬ (r.compressed_size_raw = 0xffffffff ∧ r.uncompressed_size_raw = 0xffffffff)
  ∧ r.name.length < 2 ^ 16 ∧ r.extra.length < 2 ^ 16
  ∧ r.payload.length = r.compressed_size_raw

/-- The bytes of the concatenation of records. -/
def spec.records_bytes : List spec.record → List Nat
  | [] => []
  | r :: rs => r.bytes ++ spec.records_bytes rs

/-- The start offsets of the records of a concatenation that starts at `start`. -/
def spec.record_offsets : Nat → List spec.record → List Nat
  | _, [] => []
  | start, r :: rs => start :: spec.record_offsets (start + r.bytes.length) rs

namespace local_file

/-- The accessor `file_name()`: the offset from `self` of the first byte of the
span, and its size. -/
def file_name (self : List Nat) : Except Failure (Nat × Nat) := do
  pure (sizeof, ← file_name_length self)

/-- The accessor `extra_field()`: the offset from `self` of the first byte of the
span, and its size. -/
def extra_field (self : List Nat) : Except Failure (Nat × Nat) := do
  pure (sizeof + (← file_name_length self), ← extra_field_length self)

end local_file

/-- The bytes of a span of `std::byte` given by the offset of its first byte
from `self` and its size. -/
def span_bytes (self : List Nat) (span : Nat × Nat) : Except Failure (List Nat) :=
  read_span (self.drop span.1) span.2

instance (s : spec.sub_record) : Decidable s.well_formed := by
  unfold spec.sub_record.well_formed
  infer_instance

instance (r : spec.record) : Decidable r.well_formed := by
  unfold spec.record.well_formed
  infer_instance

/-- A header named `x` whose raw sizes are both 0xFFFFFFFF and whose extra field
is the one sub-record (0x5455, 3 bytes), followed by one payload byte. -/
def archive_zip64_other_sub_record : List Nat :=
  [80, 75, 3, 4, 45, 0, 0, 0, 0, 0, 0, 0, 0, 0, 0, 0, 0, 0, 255, 255, 255, 255, 255, 255, 255,
   255, 1, 0, 7, 0, 120,
   85, 84, 3, 0, 1, 2, 3,
   7]

/-- A header named `x` whose raw sizes are both 0xFFFFFFFF and whose extra field
is the chain (0x5455, 1 byte), (0x0001, 16 bytes: the u64 45 and the u64 26),
(0x7875, 0 bytes), followed by two payload bytes. -/
def archive_zip64_chain : List Nat :=
  [80, 75, 3, 4, 45, 0, 0, 0, 0, 0, 0, 0, 0, 0, 0, 0, 0, 0, 255, 255, 255, 255, 255, 255, 255,
   255, 1, 0, 29, 0, 120,
   85, 84, 1, 0, 9,
   1, 0, 16, 0, 45, 0, 0, 0, 0, 0, 0, 0, 26, 0, 0, 0, 0, 0, 0, 0,
   117, 120, 0, 0,
   7, 7]

/-- The offset `Q` of the data descriptor: `P + 4` when the u32 `m` found at the
offset `P` just after the payload is the signature 0x08074B50, `P` otherwise. -/
def spec.descriptor_offset (P m : Nat) : Nat := if m = 0x08074B50 then P + 4 else P

/-- The bytes of a data descriptor with size fields of `w` bytes: the optional
signature 0x08074B50, then `crc32, compressed_size, uncompressed_size`. -/
def spec.data_descriptor_bytes (signed : Bool) (w crc32 compressed_size uncompressed_size : Nat) :
    List Nat :=
  (if signed then spec.le_bytes 4 0x08074B50 else [])
    ++ (spec.le_bytes 4 crc32 ++ (spec.le_bytes w compressed_size
    ++ spec.le_bytes w uncompressed_size))

/-- A streamed record without name: flag bit 3 set, the crc and both sizes of
the header zero, and the two payload bytes `hi`. -/
def record_streamed_hi : spec.record :=
  { version_needed := 20, gp_flags := 0x0008, compression_method := 0, last_mod_time := 0,
    last_mod_date := 0, crc32_raw := 0, compressed_size_raw := 0, uncompressed_size_raw := 0,
    name := [], extra := [], payload := [104, 105] }

/-- The streamed record followed by its data descriptor with signature: the crc
of `hi`, compressed size 2 and uncompressed size 2. -/
def archive_streamed_hi : List Nat :=
  record_streamed_hi.bytes ++ spec.data_descriptor_bytes true 4 0xD8932AAC 2 2

/-- A record named `x` with flag bit 3 set whose header has the compressed size
2 of its payload `hi`, crc 0 and uncompressed size 0. -/
def record_descriptor32 : spec.record :=
  { version_needed := 20, gp_flags := 0x0008, compression_method := 0, last_mod_time := 0,
    last_mod_date := 0, crc32_raw := 0, compressed_size_raw := 2, uncompressed_size_raw := 0,
    name := [120], extra := [], payload := [104, 105] }

/-- The record `record_descriptor32` followed by a data descriptor with
signature: the crc of `hi`, compressed size 2 and uncompressed size 2. -/
def archive_descriptor32 : List Nat :=
  record_descriptor32.bytes ++ spec.data_descriptor_bytes true 4 0xD8932AAC 2 2

/-- A record named `x` with flag bit 3 set whose raw sizes are both 0xFFFFFFFF
and whose extra field is the one zip64 sub-record (uncompressed 0, compressed
2), with the two payload bytes 7 7. -/
def record_descriptor64 : spec.record :=
  { version_needed := 45, gp_flags := 0x0008, compression_method := 8, last_mod_time := 0,
    last_mod_date := 0, crc32_raw := 0, compressed_size_raw := 0xffffffff,
    uncompressed_size_raw := 0xffffffff, name := [120],
    extra := spec.chain_bytes [⟨0x0001, spec.le_bytes 8 0 ++ spec.le_bytes 8 2⟩],
    payload := [7, 7] }

/-- The record `record_descriptor64` followed by a data descriptor without
signature and with u64 size fields: crc 0x04030201, compressed size 2 and
uncompressed size 45. -/
def archive_descriptor64 : List Nat :=
  record_descriptor64.bytes ++ spec.data_descriptor_bytes false 8 0x04030201 2 45

/-- What may follow the last record of the walk: nothing, or at least four
bytes that do not begin with the signature 0x04034B50. -/
def spec.is_trailer (trailer : List Nat) : Prop :=
  trailer = [] ∨ (4 ≤ trailer.length ∧ (∀ b ∈ trailer.take 4, b < 256)
    ∧ trailer.take 4 ≠ spec.le_bytes 4 0x04034B50)

instance (trailer : List Nat) : Decidable (spec.is_trailer trailer) := by
  unfold spec.is_trailer
  infer_instance

/-- The bytes of the span `file_name()` of the view at offset `a` of an
archive. -/
def view_file_name (zip_file : List Nat) (a : Nat) : Except Failure (List Nat) := do
  let entry := local_file_iterator.deref ⟨zip_file, some a, zip_file.length⟩
  span_bytes entry (← local_file.file_name entry)

/-- Two records, named `a.txt` and `b`, the second with an extra field of one
sub-record and an empty payload. -/
def records_two : List spec.record :=
  [{ version_needed := 20, gp_flags := 0x0001, compression_method := 0, last_mod_time := 0x1234,
     last_mod_date := 0, crc32_raw := 7, compressed_size_raw := 3, uncompressed_size_raw := 3,
     name := [97, 46, 116, 120, 116], extra := [], payload := [1, 2, 3] },
   { version_needed := 20, gp_flags := 0, compression_method := 8, last_mod_time := 0,
     last_mod_date := 0, crc32_raw := 0, compressed_size_raw := 0, uncompressed_size_raw := 0,
     name := [98], extra := spec.chain_bytes [⟨0x5455, [9]⟩], payload := [] }]


/-! ## The basic check of an archive (zip.hpp) -/

/-- The function `is_zip(buf, len)`: `buf` is the bytes readable from the
pointer, `len` a `std::size_t`. -/
def is_zip (buf : List Nat) (len : Nat) : Except Failure Bool := do
  if len < local_file.sizeof then pure false
  else if (← local_file.signature buf) ≠ local_file_header_magic then pure false
  else pure true

/-! ## What the walk guarantees about a view -/

/-- The length of the optional data descriptor of a view as `operator++` counts
it: the size of the span `data_descriptor_data()` when the header has flag bit
3 set, nothing otherwise. -/
def spec.descriptor_length (self : List Nat) : Except Failure Nat := do
  if ← local_file.has_data_descriptor self then
    pure (← local_file.data_descriptor_data self).2
  else pure 0

/-- An archive of four bytes: the signature of a local file header and nothing
else. -/
def archive_signature_only : List Nat := [80, 75, 3, 4]

/-- An archive of 30 bytes: one header without name and extra field whose
compressed size is 100, and no payload. -/
def archive_payload_missing : List Nat :=
  [80, 75, 3, 4, 20, 0, 0, 0, 0, 0, 0, 0, 0, 0, 0, 0, 0, 0, 100, 0, 0, 0, 100, 0, 0, 0,
   0, 0, 0, 0]

/-- An archive of 50 bytes: one header without name whose raw sizes are both
0xFFFFFFFF and whose extra field of 20 bytes is the one sub-record (0x0001,
16 bytes: the u64 0 for the uncompressed size and the u64 2^64 - 50 for the
compressed size), and no payload. -/
def archive_zip64_size_wraps : List Nat :=
  [80, 75, 3, 4, 45, 0, 0, 0, 0, 0, 0, 0, 0, 0, 0, 0, 0, 0, 255, 255, 255, 255, 255, 255, 255,
   255, 0, 0, 20, 0,
   1, 0, 16, 0, 0, 0, 0, 0, 0, 0, 0, 0, 206, 255, 255, 255, 255, 255, 255, 255]

/-! ## The increment of the brute-force iterator (brute.hpp) -/

namespace brute_iterator

/-- The increment `operator++`.  `std::find_if` looks in the first
`indices_len_` entries for the first digit other than `alphabet_->size() - 1`
(a `std::size_t`); the entries before it are set to zero; when there is none,
the length grows and the entry at the old length becomes 1 (a write at
`indices_.end()` is out of bounds), otherwise the digit found is incremented as
a `std::uint8_t`; then `++index_`. -/
def operator_increment (self : brute_iterator) : Except Failure brute_iterator :=
  if self.indices_.length < self.indices_len_ then throw Failure.out_of_bounds
  else
    let last := (self.alphabet_.length + 2 ^ 64 - 1) % 2 ^ 64
    let pos := (self.indices_.take self.indices_len_).findIdx (fun c => decide (c ≠ last))
    let indices := List.replicate pos 0 ++ self.indices_.drop pos
    if pos = self.indices_len_ then
      if pos < self.indices_.length then
        pure { self with
          index_ := (self.index_ + 1) % 2 ^ 128
          indices_ := indices.set pos 1
          indices_len_ := (self.indices_len_ + 1) % 2 ^ 8 }
      else throw Failure.out_of_bounds
    else
      pure { self with
        index_ := (self.index_ + 1) % 2 ^ 128
        indices_ := indices.set pos ((indices.getD pos 0 + 1) % 2 ^ 8) }

end brute_iterator

/-- The digits after a step with carry, least significant first: the first
digit other than `last` is incremented and the digits before it become zero; a
new digit 1 is appended when every digit is `last`. -/
def spec.carry (last : Nat) : List Nat → List Nat
  | [] => [1]
  | d :: ds => if d ≠ last then (d + 1) :: ds else 0 :: spec.carry last ds

/-! ## A stored entry of more than one chunk -/

/-- The key that the password `a` and twelve zero bytes of encryption header
leave. -/
def key_stored_4097 : Key := ⟨2574163841, 454889388, 1734868582⟩

/-- The crc32 of the 4097 plaintext bytes that the ciphertext `ciphertext_4097`
decrypts to after that header (it evaluates to 1397063849). -/
def crc_stored_4097 : Nat := crc32 (spec.decrypt_from key_stored_4097 ciphertext_4097)

/-- An encrypted stored record without name: last_mod_time 0x94AA, which the
twelve zero bytes of encryption header decrypt to under the password `a`, then
the 4097 ciphertext bytes of `ciphertext_4097`, and the crc32 of their
plaintext in the header. -/
def record_stored_4097 : spec.record :=
  { version_needed := 20, gp_flags := 0x0001, compression_method := 0, last_mod_time := 0x94AA,
    last_mod_date := 0, crc32_raw := crc_stored_4097, compressed_size_raw := 4109,
    uncompressed_size_raw := 4097, name := [], extra := [],
    payload := [0, 0, 0, 0, 0, 0, 0, 0, 0, 0] ++ 0 :: 0 :: ciphertext_4097 }

/-- The archive of the one record `record_stored_4097`. -/
def archive_stored_4097 : List Nat := record_stored_4097.bytes

/-! ## The program (zip-cracker.cpp) -/

/-- What `main` takes from outside the repository.  `files` is the scoped
`::open`, `fstat` and memory map of common/io.hpp on a path: the bytes of the
span, or the exception that the acquisition ends in.  `arg_re_match` is
`std::regex_match` of the `-b` argument with `(\d+):(.*)`: the two groups.
`from_chars` is `std::from_chars` into the `std::uint8_t` `max_len`.
`regex_match_char` is `std::regex_match` of one character with the regular
expression of the second group. -/
structure environment where
  files : String → Except Failure (List Nat)
  arg_re_match : String → Option (String × String)
  from_chars : String → Nat
  regex_match_char : String → Nat → Bool

/-- One item written to a stream with `<<`. -/
inductive chunk where
  | text : String → chunk
  | bytes : List Nat → chunk
  deriving DecidableEq, Repr

/-- What a run of the program has done so far: the items written to `std::cerr`
and `std::cout` and the paths handed to `::open`, each in order. -/
structure process where
  cerr : List chunk
  cout : List chunk
  opened : List String
  deriving DecidableEq, Repr

/-- The function `make_alphabet(re)`: the characters 0 to 127 that match. -/
def make_alphabet (env : environment) (re : String) : List Nat :=
  (List.range 128).filter (fun c => env.regex_match_char re c)

/-- The lambda `error` of `main`: the message and the usage on `std::cerr`, and
the value `EXIT_FAILURE` that it returns. -/
def main.error (argv0 : String) (p : process) (message : String) : process × Nat :=
  ({ p with cerr := p.cerr ++ [chunk.text "\n", chunk.text message, chunk.text "\nusage: ",
      chunk.text argv0,
      chunk.text "-z path_to_zip_file \x7b-d path_to_dictionary | -b brute_len:brute_char_regex\x7d\n"] },
    1)

/-- The option variables of `main`: `zip_path`, `dict_path`, `brute_cfg`. -/
structure main.options where
  zip_path : String
  dict_path : Option String
  brute_cfg : Option String
  deriving DecidableEq, Repr

/-- The loop over `getopt(argc, argv, "z:d:b:")`, given the successive results
of `getopt` with their `optarg`: the option variables, or the character of the
first result that is none of `z`, `d`, `b`. -/
def main.getopt_loop : List (Char × String) → main.options → Except Char main.options
  | [], o => pure o
  | (c, optarg) :: rest, o =>
    if c = 'z' then main.getopt_loop rest { o with zip_path := optarg }
    else if c = 'd' then main.getopt_loop rest { o with dict_path := some optarg }
    else if c = 'b' then main.getopt_loop rest { o with brute_cfg := some optarg }
    else throw c

/-- The call `crack(zip_span, pswd_begin, pswd_end)` on a range of passwords
that yields `range.1` and then, when `range.2` is a failure, cannot be advanced
further: with the loops run in order, the passwords are tried on the first
entry of the archive, and the failure is met when none of them is valid. -/
def crack_range {z : zlib} (tl : engines z) (zip_file : List Nat)
    (range : List (List Nat) × Option Failure) : Except Failure (Option (List Nat)) :=
  match range.2 with
  | none => crack tl zip_file range.1
  | some f => do
    let first := local_file_iterator.mk_span zip_file
    if ← local_file_iterator.is_end first then pure none
    else
      let r ← any_of_passwords (local_file_iterator.deref first) range.1 ⟨none, tl⟩
      if r.1 then pure r.2.result else throw f

/-- The end of `main`: the report on `std::cout` and the exit status. -/
def main.report (p : process) (result : Option (List Nat)) : process × Except Failure Nat :=
  match result with
  | some password =>
    ({ p with cout := p.cout ++ [chunk.text "found password [", chunk.bytes password,
        chunk.text "]\n"] }, pure 0)
  | none => ({ p with cout := p.cout ++ [chunk.text "no password found\n"] }, pure 1)

/-- The function `main`, from after the loop over `getopt` on: what the run has
done, and its exit status or the exception that leaves `main`.  The value of
`error("invalid arguments")` is not returned.  Dereferencing the empty
`brute_cfg` is a read of a value that is not there. -/
def main.run {z : zlib} (env : environment) (argv0 : String) (o : main.options) :
    process × Except Failure Nat :=
  let p : process := ⟨[], [], []⟩
  let p := if o.zip_path.isEmpty || (o.dict_path.isSome == o.brute_cfg.isSome) then
      (main.error argv0 p "invalid arguments").1
    else p
  let p := { p with opened := p.opened ++ [o.zip_path] }
  match env.files o.zip_path with
  | .error f => (p, throw f)
  | .ok zip_span =>
    match o.dict_path with
    | some dict_path =>
      let p := { p with opened := p.opened ++ [dict_path] }
      match env.files dict_path with
      | .error f => (p, throw f)
      | .ok dict_span =>
        match crack_range (engines.initial z) zip_span (dict_yield dict_span) with
        | .error f => (p, throw f)
        | .ok result => main.report p result
    | none =>
      match o.brute_cfg with
      | none => (p, throw Failure.out_of_bounds)
      | some brute_cfg =>
        match env.arg_re_match brute_cfg with
        | none =>
          let e := main.error argv0 p "invalid -b argument"
          (e.1, pure e.2)
        | some m =>
          let max_len := env.from_chars m.1 % 2 ^ 8
          let alphabet := make_alphabet env m.2
          match main_brute_range alphabet max_len with
          | .error f => (p, throw f)
          | .ok range =>
            match (List.range range.2.index_).mapM (candidate alphabet) with
            | .error f => (p, throw f)
            | .ok passwords =>
              match crack (engines.initial z) zip_span passwords with
              | .error f => (p, throw f)
              | .ok result => main.report p result

/-- The function `main`, given the successive results of `getopt`. -/
def main {z : zlib} (env : environment) (argv0 : String) (getopt : List (Char × String)) :
    process × Except Failure Nat :=
  match main.getopt_loop getopt ⟨"", none, none⟩ with
  | .error _ =>
    let e := main.error argv0 ⟨[], [], []⟩ "unrecognised option"
    (e.1, pure e.2)
  | .ok o => main.run (z := z) env argv0 o

/-- A file system with the archive `archive_stored_hi` at `a.zip` and the
dictionary of the one line `a` at `words`; no regular expression matches. -/
def environment_stored_hi : environment where
  files := fun path =>
    if path = "a.zip" then pure archive_stored_hi
    else if path = "words" then pure [97, 10]
    else throw (Failure.runtime_error "open")
  arg_re_match := fun _ => none
  from_chars := fun _ => 0
  regex_match_char := fun _ _ => false

/-! ## The source's cipher primitives and the specification's agree -/

theorem keystream_eq_decrypt_byte (key : Key) :
    spec.keystream key = verify_password.decrypt_byte key := by
  unfold spec.keystream verify_password.decrypt_byte
  simp only
  generalize (key.k2 ||| 2) % 2 ^ 16 = i
  simp only [Nat.shiftRight_eq_div_pow]
  omega

theorem update_eq_update_keys (key : Key) (p : Nat) :
    spec.update key p = verify_password.update_keys key p := by
  unfold spec.update verify_password.update_keys verify_password.crc crc32_update
  simp only [List.foldl]
  have h : ∀ a : Nat, ((a % 2 ^ 32) * 134775813 + 1) % 2 ^ 32 = (a * 134775813 + 1) % 2 ^ 32 := by
    intro a; omega
  rw [h]

theorem keystream_eq_next_key_stream_byte (key : Key) :
    spec.keystream key = decrypter.next_key_stream_byte key :=
  keystream_eq_decrypt_byte key

theorem update_eq_update_key (key : Key) (p : Nat) :
    spec.update key p = decrypter.update_key key p :=
  update_eq_update_keys key p

theorem update_fun_eq : spec.update = verify_password.update_keys := by
  funext k p
  exact update_eq_update_keys k p

theorem password_key_eq (pw : List Nat) :
    spec.password_key pw = pw.foldl verify_password.update_keys initial_key := by
  unfold spec.password_key
  rw [update_fun_eq]

theorem xor_xor_cancel (a b : Nat) : (a ^^^ b) ^^^ b = a := by
  rw [Nat.xor_assoc, Nat.xor_self, Nat.xor_zero]

theorem and_255_eq_mod (n : Nat) : n &&& 0xFF = n % 256 :=
  Nat.and_pow_two_sub_one_eq_mod n 8

/-! ## Encryption followed by decryption -/

theorem encrypt_from_length (m : List Nat) (key : Key) :
    (spec.encrypt_from key m).length = m.length := by
  induction m generalizing key with
  | nil => rfl
  | cons p ps ih => simp only [spec.encrypt_from, List.length_cons, ih]

theorem encrypt_from_append (a b : List Nat) (key : Key) :
    spec.encrypt_from key (a ++ b)
      = spec.encrypt_from key a ++ spec.encrypt_from (a.foldl spec.update key) b := by
  induction a generalizing key with
  | nil => rfl
  | cons p ps ih =>
    simp only [List.cons_append, spec.encrypt_from, List.foldl_cons, List.cons.injEq, true_and]
    exact ih _

/-- Absorbing an encrypted prefix leaves the key where the plaintext leaves it. -/
theorem absorb_encrypt_from (a : List Nat) (key : Key) :
    (spec.encrypt_from key a).foldl
        (fun k c => verify_password.update_keys k (c ^^^ verify_password.decrypt_byte k)) key
      = a.foldl spec.update key := by
  induction a generalizing key with
  | nil => rfl
  | cons p ps ih =>
    simp only [spec.encrypt_from, List.foldl_cons, keystream_eq_decrypt_byte, xor_xor_cancel]
    rw [← update_eq_update_keys, ih]

/-- Decrypting an encrypted payload feeds the plaintext itself to the residual. -/
theorem payload_loop_encrypt_from (P : List Nat) (key : Key) (residual : Nat) :
    verify_password.payload_loop key residual (spec.encrypt_from key P)
      = crc32_update P residual := by
  induction P generalizing key residual with
  | nil => rfl
  | cons p ps ih =>
    simp only [spec.encrypt_from, verify_password.payload_loop, keystream_eq_decrypt_byte,
      xor_xor_cancel]
    rw [← update_eq_update_keys, ih]
    simp only [crc32_update, verify_password.crc, List.foldl_cons, List.foldl_nil]

/-- The function verify_password on a ciphertext laid out as ten header bytes, the
two check bytes and a payload, when both check bytes decrypt to the check bits. -/
theorem verify_password_layout (first rest : List Nat) (c10 c11 len : Nat)
    (password : List Nat) (check_bits plaintext_crc32 : Nat)
    (hfirst : first.length = 10) (hlen : len = 12 + rest.length)
    (k1 k2 k3 : Key)
    (hk1 : k1 = first.foldl
      (fun k c => verify_password.update_keys k (c ^^^ verify_password.decrypt_byte k))
      (password.foldl verify_password.update_keys initial_key))
    (hp10 : c10 ^^^ verify_password.decrypt_byte k1 = check_bits % 256)
    (hk2 : k2 = verify_password.update_keys k1 (check_bits % 256))
    (hp11 : c11 ^^^ verify_password.decrypt_byte k2 = (check_bits >>> 8) % 256)
    (hk3 : k3 = verify_password.update_keys k2 ((check_bits >>> 8) % 256)) :
    verify_password (first ++ c10 :: c11 :: rest) len password check_bits plaintext_crc32
      = Except.ok (decide (not32 (verify_password.payload_loop k3 0xffffffff rest)
          = plaintext_crc32)) := by
  have hspan : read_span (first ++ c10 :: c11 :: rest) 10 = Except.ok first := by
    unfold read_span
    rw [if_pos (by simp only [List.length_append, List.length_cons]; omega)]
    rw [← hfirst, List.take_left]
  have hr10 : read (first ++ c10 :: c11 :: rest) 10 = Except.ok c10 := by
    unfold read
    rw [← hfirst, List.get?_eq_getElem?, List.getElem?_append_right (le_refl _)]
    simp
  have hr11 : read (first ++ c10 :: c11 :: rest) 11 = Except.ok c11 := by
    unfold read
    rw [List.get?_eq_getElem?, List.getElem?_append_right (by omega)]
    simp [hfirst]
  have hdrop : (first ++ c10 :: c11 :: rest).drop 12 = rest := by
    rw [List.drop_append_eq_append_drop, List.drop_of_length_le (by omega)]
    simp [hfirst]
  have hrest : read_span rest (len - 12) = Except.ok rest := by
    unfold read_span
    rw [if_pos (by omega)]
    rw [hlen, Nat.add_sub_cancel_left, List.take_length]
  have hl : ¬ len < 12 := by omega
  unfold verify_password
  simp only [hspan, hr10, hr11, hdrop, hrest, bind, Except.bind, pure, Except.pure, ← hk1, hp10,
    ← hk2, hp11, ← hk3, if_true, hl, if_false]

/-- Claim C1. Decrypt undoes encrypt for verify_password: for every password,
every 16-bit check_bits, every 12-byte header whose bytes 10 and 11 are the low
and high byte of check_bits, and every payload P, verify_password on
enc(pw, h ++ P) with length 12 + |P|, the same password, check_bits and
crc32(P) returns true. -/
theorem C1_verify_password_accepts_encryption (pw h P : List Nat) (check_bits : Nat)
    (hcb : check_bits < 65536) (hlen : h.length = 12)
    (h10 : h.get? 10 = some (check_bits &&& 0xFF))
    (h11 : h.get? 11 = some (check_bits >>> 8)) :
    verify_password (spec.enc pw (h ++ P)) (12 + P.length) pw check_bits (crc32 P)
      = Except.ok true := by
  have e8 : (check_bits >>> 8) % 256 = check_bits >>> 8 := by
    rw [Nat.shiftRight_eq_div_pow]; omega
  rw [and_255_eq_mod] at h10
  rw [← e8] at h11
  obtain ⟨first, hfl, hh⟩ : ∃ first : List Nat, first.length = 10 ∧
      h = first ++ [check_bits % 256, (check_bits >>> 8) % 256] := by
    refine ⟨h.take 10, by simp [hlen], ?_⟩
    match h, hlen with
    | [a0, a1, a2, a3, a4, a5, a6, a7, a8, a9, a10, a11], _ =>
      simp only [List.get?, Option.some.injEq] at h10 h11
      subst h10 h11
      rfl
  subst hh
  have step : spec.enc pw ((first ++ [check_bits % 256, (check_bits >>> 8) % 256]) ++ P)
      = spec.encrypt_from (spec.password_key pw) first
        ++ ((check_bits % 256) ^^^ spec.keystream (first.foldl spec.update (spec.password_key pw)))
        :: (((check_bits >>> 8) % 256) ^^^ spec.keystream
              (spec.update (first.foldl spec.update (spec.password_key pw)) (check_bits % 256)))
        :: spec.encrypt_from
            (spec.update (spec.update (first.foldl spec.update (spec.password_key pw))
              (check_bits % 256)) ((check_bits >>> 8) % 256)) P := by
    unfold spec.enc
    rw [List.append_assoc, encrypt_from_append]
    rfl
  rw [step]
  rw [verify_password_layout (spec.encrypt_from (spec.password_key pw) first) _ _ _
    (12 + P.length) pw check_bits
    (crc32 P) (by rw [encrypt_from_length, hfl]) (by rw [encrypt_from_length])
    (first.foldl spec.update (spec.password_key pw))
    (spec.update (first.foldl spec.update (spec.password_key pw)) (check_bits % 256))
    (spec.update (spec.update (first.foldl spec.update (spec.password_key pw))
      (check_bits % 256)) ((check_bits >>> 8) % 256))
    (by rw [← password_key_eq, absorb_encrypt_from])
    (by rw [← keystream_eq_decrypt_byte, xor_xor_cancel])
    (by rw [update_eq_update_keys])
    (by rw [← keystream_eq_decrypt_byte, xor_xor_cancel])
    (by rw [update_eq_update_keys])]
  rw [payload_loop_encrypt_from]
  simp only [crc32, decide_True]

theorem C1_verify_password_accepts_encryption_witness :
    (4660 < 65536 ∧ [0, 1, 2, 3, 4, 5, 6, 7, 8, 9, 52, 18].length = 12
      ∧ [0, 1, 2, 3, 4, 5, 6, 7, 8, 9, 52, 18].get? 10 = some (4660 &&& 0xFF)
      ∧ [0, 1, 2, 3, 4, 5, 6, 7, 8, 9, 52, 18].get? 11 = some (4660 >>> 8))
    ∧ verify_password
        (spec.enc [116, 101, 115, 116] ([0, 1, 2, 3, 4, 5, 6, 7, 8, 9, 52, 18] ++ [72, 105]))
        (12 + [72, 105].length) [116, 101, 115, 116] 4660 (crc32 [72, 105]) = Except.ok true :=
  ⟨⟨by decide, by decide, by decide, by decide⟩,
    C1_verify_password_accepts_encryption [116, 101, 115, 116]
      [0, 1, 2, 3, 4, 5, 6, 7, 8, 9, 52, 18] [72, 105] 4660
      (by decide) (by decide) (by decide) (by decide)⟩

/-! ## reset -/

theorem read_span_append_left (a b : List Nat) (n : Nat) (h : a.length = n) :
    read_span (a ++ b) n = Except.ok a := by
  unfold read_span
  rw [if_pos (by rw [List.length_append]; omega), ← h, List.take_left]

theorem read_append_right (a b : List Nat) (i : Nat) :
    read (a ++ b) (a.length + i) = read b i := by
  unfold read
  rw [List.get?_eq_getElem?, List.get?_eq_getElem?,
    List.getElem?_append_right (Nat.le_add_right _ _), Nat.add_sub_cancel_left]

/-- The method reset on a buffer laid out as ten header bytes, the two check
bytes and whatever follows them. -/
theorem reset_layout (self : decrypter) (password first rest : List Nat) (c10 c11 : Nat)
    (check_bits : Nat) (hfirst : first.length = 10) (k1 k2 : Key)
    (hk1 : k1 = decrypter.absorb (password.foldl decrypter.update_key initial_key) first)
    (hk2 : k2 = decrypter.update_key k1 (c10 ^^^ decrypter.next_key_stream_byte k1)) :
    decrypter.reset self password (first ++ c10 :: c11 :: rest) check_bits
      = if c10 ^^^ decrypter.next_key_stream_byte k1 = check_bits % 256 then
          if c11 ^^^ decrypter.next_key_stream_byte k2 = (check_bits >>> 8) % 256 then
            Except.ok (true,
              ⟨decrypter.update_key k2 (c11 ^^^ decrypter.next_key_stream_byte k2)⟩)
          else Except.ok (false, ⟨k2⟩)
        else Except.ok (false, ⟨k1⟩) := by
  have hr10 : read (first ++ c10 :: c11 :: rest) 10 = Except.ok c10 := by
    have := read_append_right first (c10 :: c11 :: rest) 0
    rw [hfirst] at this
    rw [this]; rfl
  have hr11 : read (first ++ c10 :: c11 :: rest) 11 = Except.ok c11 := by
    have := read_append_right first (c10 :: c11 :: rest) 1
    rw [hfirst] at this
    rw [this]; rfl
  unfold decrypter.reset
  simp only [read_span_append_left first _ 10 hfirst, hr10, hr11, bind, Except.bind, pure,
    Except.pure, ← hk1]
  by_cases h1 : c10 ^^^ decrypter.next_key_stream_byte k1 = check_bits % 256
  · simp only [h1, if_true]
    rw [h1] at hk2
    simp only [← hk2]
  · simp only [h1, if_false]

/-- A list of at least twelve bytes splits into ten, two and the rest. -/
theorem split_header (header : List Nat) (h : 12 ≤ header.length) :
    ∃ first c10 c11 rest, first.length = 10 ∧ header = first ++ c10 :: c11 :: rest := by
  match header, h with
  | a0 :: a1 :: a2 :: a3 :: a4 :: a5 :: a6 :: a7 :: a8 :: a9 :: a10 :: a11 :: rest, _ =>
    exact ⟨[a0, a1, a2, a3, a4, a5, a6, a7, a8, a9], a10, a11, rest, rfl, rfl⟩

theorem decrypt_from_length (cs : List Nat) (key : Key) :
    (spec.decrypt_from key cs).length = cs.length := by
  induction cs generalizing key with
  | nil => rfl
  | cons c cs ih => simp only [spec.decrypt_from, List.length_cons, ih]

/-- The source's chunk decryption is the specification's plaintext, and leaves
the key updated with every plaintext byte. -/
theorem decrypt_chunk_eq (cs : List Nat) (key : Key) :
    decrypter.decrypt_chunk key cs = (decrypter.absorb key cs, spec.decrypt_from key cs) := by
  induction cs generalizing key with
  | nil => rfl
  | cons c cs ih =>
    simp only [decrypter.decrypt_chunk, decrypter.absorb, spec.decrypt_from, List.foldl_cons, ih,
      keystream_eq_next_key_stream_byte, update_eq_update_key]

theorem decrypt_from_append (a b : List Nat) (key : Key) :
    spec.decrypt_from key (a ++ b)
      = spec.decrypt_from key a ++ spec.decrypt_from (decrypter.absorb key a) b := by
  induction a generalizing key with
  | nil => rfl
  | cons c cs ih =>
    simp only [List.cons_append, spec.decrypt_from, decrypter.absorb, List.foldl_cons,
      List.cons.injEq, true_and, keystream_eq_next_key_stream_byte, update_eq_update_key]
    exact ih _

/-- Claim C2. For every password, every 12-byte header and every 16-bit
check_bits, reset returns true if and only if p10 = check_bits & 0xFF and
p11 = check_bits >> 8, where p0..p11 are the header bytes decrypted in order
starting from the initial key updated with every byte of the password. -/
theorem C2_reset_true_iff_check_bytes (self : decrypter) (password header : List Nat)
    (check_bits : Nat) (hlen : header.length = 12) (hcb : check_bits < 65536) :
    ∃ after : decrypter,
      decrypter.reset self password header check_bits
        = Except.ok (decide
            ((spec.decrypt_from (spec.password_key password) header).get? 10
                = some (check_bits &&& 0xFF)
              ∧ (spec.decrypt_from (spec.password_key password) header).get? 11
                = some (check_bits >>> 8)), after) := by
  obtain ⟨first, c10, c11, rest, hfirst, rfl⟩ := split_header header (by omega)
  have hrest : rest = [] := by
    simp only [List.length_append, List.length_cons, hfirst] at hlen
    exact List.eq_nil_of_length_eq_zero (by omega)
  subst hrest
  have e8 : (check_bits >>> 8) % 256 = check_bits >>> 8 := by
    rw [Nat.shiftRight_eq_div_pow]; omega
  have hpk : spec.password_key password = password.foldl decrypter.update_key initial_key :=
    password_key_eq password
  rw [reset_layout self password first [] c10 c11 check_bits hfirst _ _ rfl rfl]
  rw [decrypt_from_append, hpk]
  generalize password.foldl decrypter.update_key initial_key = K
  have hl : (spec.decrypt_from K first).length = 10 := by
    rw [decrypt_from_length, hfirst]
  have g10 : ∀ (l : List Nat), l.length = 10 → ∀ x y : Nat, (l ++ [x, y]).get? 10 = some x := by
    intro l hl x y
    rw [List.get?_eq_getElem?, List.getElem?_append_right (by omega), hl]; rfl
  have g11 : ∀ (l : List Nat), l.length = 10 → ∀ x y : Nat, (l ++ [x, y]).get? 11 = some y := by
    intro l hl x y
    rw [List.get?_eq_getElem?, List.getElem?_append_right (by omega), hl]; rfl
  simp only [spec.decrypt_from, g10 _ hl, g11 _ hl, Option.some.injEq, and_255_eq_mod,
    keystream_eq_next_key_stream_byte, update_eq_update_key, e8]
  split_ifs with h1 h2
  · rw [decide_eq_true (⟨h1, h2⟩ : _ ∧ _)]
    exact ⟨_, rfl⟩
  · rw [decide_eq_false (fun h => h2 h.2 : ¬ (_ ∧ _))]
    exact ⟨_, rfl⟩
  · rw [decide_eq_false (fun h => h1 h.1 : ¬ (_ ∧ _))]
    exact ⟨_, rfl⟩

theorem C2_reset_true_iff_check_bytes_witness :
    ([7, 6, 5, 4, 3, 2, 1, 0, 9, 8, 7, 6].length = 12 ∧ 4660 < 65536)
    ∧ ∃ after : decrypter,
      decrypter.reset ⟨⟨1, 2, 3⟩⟩ [116, 101, 115, 116] [7, 6, 5, 4, 3, 2, 1, 0, 9, 8, 7, 6] 4660
        = Except.ok (decide
            ((spec.decrypt_from (spec.password_key [116, 101, 115, 116])
                  [7, 6, 5, 4, 3, 2, 1, 0, 9, 8, 7, 6]).get? 10 = some (4660 &&& 0xFF)
              ∧ (spec.decrypt_from (spec.password_key [116, 101, 115, 116])
                  [7, 6, 5, 4, 3, 2, 1, 0, 9, 8, 7, 6]).get? 11 = some (4660 >>> 8)), after) :=
  ⟨⟨by decide, by decide⟩,
    C2_reset_true_iff_check_bytes ⟨⟨1, 2, 3⟩⟩ [116, 101, 115, 116]
      [7, 6, 5, 4, 3, 2, 1, 0, 9, 8, 7, 6] 4660 (by decide) (by decide)⟩

/-! ## transform -/

theorem transform_loop_len_zero {σ : Type} (receiver : σ → List Nat → Except Failure σ)
    (ciphertext : List Nat) (rounds : Nat) (self : decrypter) (s : σ) :
    decrypter.transform_loop receiver ciphertext rounds self 0 s = Except.ok (self, s) := by
  cases rounds with
  | zero => rfl
  | succ n => simp only [decrypter.transform_loop, if_true]; rfl

theorem transform_loop_round {σ : Type} (receiver : σ → List Nat → Except Failure σ)
    (ciphertext : List Nat) (rounds : Nat) (self : decrypter) (len : Nat) (s : σ)
    (hlen : len ≠ 0) (hfit : min (2 ^ 12) len ≤ ciphertext.length) :
    decrypter.transform_loop receiver ciphertext (rounds + 1) self len s
      = (receiver s (spec.decrypt_from self.key_ (ciphertext.take (min (2 ^ 12) len)))).bind
          (fun s' => decrypter.transform_loop receiver ciphertext rounds
            ⟨decrypter.absorb self.key_ (ciphertext.take (min (2 ^ 12) len))⟩
            (len - min (2 ^ 12) len) s') := by
  simp only [decrypter.transform_loop, if_neg hlen, read_span, if_pos hfit, decrypt_chunk_eq,
    bind, Except.bind]

/-- A ciphertext of one full chunk and `r` more bytes: the second round decrypts
the first `r` bytes of the ciphertext again, with the key the first round left. -/
theorem transform_collect_two_rounds (key : Key) (ciphertext : List Nat) (r : Nat)
    (hr : 0 < r) (hr2 : r ≤ 4096) (hlen : 4096 + r ≤ ciphertext.length) (delivered : List Nat) :
    decrypter.transform ⟨key⟩ ciphertext (4096 + r) collect delivered
      = Except.ok
          (⟨decrypter.absorb (decrypter.absorb key (ciphertext.take 4096)) (ciphertext.take r)⟩,
            (delivered ++ spec.decrypt_from key (ciphertext.take 4096))
              ++ spec.decrypt_from (decrypter.absorb key (ciphertext.take 4096))
                  (ciphertext.take r)) := by
  unfold decrypter.transform
  have m1 : min (2 ^ 12) (4096 + r) = 4096 := by omega
  have m2 : min (2 ^ 12) r = r := by omega
  have f1 : 4096 + r = (4095 + r) + 1 := by omega
  have f2 : 4095 + r = (4094 + r) + 1 := by omega
  rw [f1, transform_loop_round collect ciphertext (4095 + r) ⟨key⟩ (4095 + r + 1) delivered
    (by omega) (by omega)]
  rw [← f1, m1, Nat.add_sub_cancel_left]
  simp only [collect, pure, Except.pure, Except.bind]
  rw [f2, transform_loop_round collect ciphertext (4094 + r) _ r _ (by omega) (by omega)]
  rw [m2, Nat.sub_self]
  simp only [collect, pure, Except.pure, Except.bind, transform_loop_len_zero]

/-- Claim C3 fails on the code. On the 4097-byte ciphertext of 4096 zero bytes
followed by the byte 1, from the initial key, transform does not deliver the
plaintext p_0 .. p_4096 of the claim: its second chunk is the first ciphertext
byte decrypted again, because the source never advances the ciphertext
pointer between chunks. -/
theorem C3_transform_second_chunk_rereads_start :
    (decrypter.transform ⟨initial_key⟩ ciphertext_4097 4097 collect []).map Prod.snd
      ≠ Except.ok (spec.decrypt_from initial_key ciphertext_4097) := by
  have hl : ciphertext_4097.length = 4097 := by
    simp only [ciphertext_4097, List.length_append, List.length_replicate, List.length_singleton]
  have h := transform_collect_two_rounds initial_key ciphertext_4097 1 (by omega) (by omega)
    (by omega) []
  have e : (4097 : Nat) = 4096 + 1 := rfl
  rw [e, h]
  have t4096 : ciphertext_4097.take 4096 = List.replicate 4096 0 := by
    unfold ciphertext_4097
    rw [List.take_left' (List.length_replicate _ _)]
  have t1 : ciphertext_4097.take 1 = [0] := by
    unfold ciphertext_4097
    rfl
  have split : ciphertext_4097 = List.replicate 4096 0 ++ [1] := rfl
  rw [t4096, t1]
  conv => rhs; rw [split, decrypt_from_append]
  generalize List.replicate 4096 0 = zeros
  simp only [Except.map, List.nil_append, spec.decrypt_from, ne_eq, Except.ok.injEq]
  intro hEq
  have hEq := List.append_cancel_left hEq
  simp only [List.cons.injEq, and_true] at hEq
  have h01 : (0 : Nat) = 1 := by
    have := congrArg (fun x => x ^^^ spec.keystream (decrypter.absorb initial_key zeros)) hEq
    simpa only [xor_xor_cancel] using this
  omega

/-! ## The validator does not depend on what earlier attempts left behind -/

theorem reset_ignores_self (s s' : decrypter) (pw h : List Nat) (cb : Nat) :
    decrypter.reset s pw h cb = decrypter.reset s' pw h cb := rfl

theorem is_password_valid_flag {z : zlib} (tl tl' : engines z) (entry password : List Nat) :
    Prod.fst <$> is_password_valid tl entry password
      = Prod.fst <$> is_password_valid tl' entry password := by
  unfold is_password_valid
  simp only [bind, Except.bind, pure, Except.pure, Functor.map, Except.map]
  cases local_file.is_encrypted entry with
  | error f => rfl
  | ok b =>
    cases b with
    | false => rfl
    | true =>
      simp only [if_true]
      cases local_file.compressed_data entry with
      | error f => rfl
      | ok cd =>
        simp only
        cases local_file.file_last_mod_time entry with
        | error f => rfl
        | ok t =>
          simp only
          rw [reset_ignores_self tl.decrypter tl'.decrypter]
          cases decrypter.reset tl'.decrypter password (List.drop cd.1 entry) (t % 2 ^ 16) with
          | error f => rfl
          | ok r =>
            simp only
            cases r.1 with
            | false => rfl
            | true => rfl

theorem map_fst_ok {α β : Type} {x : Except Failure (α × β)} {a : α} {b : β}
    (h : x = Except.ok (a, b)) : Prod.fst <$> x = Except.ok a := by
  rw [h]; rfl

theorem map_fst_eq_ok {α β : Type} {x : Except Failure (α × β)} {a : α}
    (h : Prod.fst <$> x = Except.ok a) : ∃ b, x = Except.ok (a, b) := by
  cases x with
  | error f => cases h
  | ok r =>
    obtain ⟨a', b⟩ := r
    simp only [Functor.map, Except.map, Except.ok.injEq] at h
    exact ⟨b, by rw [← h]⟩

/-! ## The inner any_of -/

theorem any_of_passwords_true {z : zlib} (entry : List Nat) (passwords : List (List Nat))
    (s s' : crack_state z) (h : any_of_passwords entry passwords s = Except.ok (true, s')) :
    ∃ p ∈ passwords, s'.result = some p ∧
      Prod.fst <$> is_password_valid (engines.initial z) entry p = Except.ok true := by
  induction passwords generalizing s with
  | nil => simp [any_of_passwords, pure, Except.pure] at h
  | cons p rest ih =>
    simp only [any_of_passwords, bind, Except.bind] at h
    cases hv : is_password_valid s.tl entry p with
    | error f => rw [hv] at h; cases h
    | ok r =>
      rw [hv] at h
      obtain ⟨b, tl'⟩ := r
      cases b with
      | true =>
        simp only [if_true, pure, Except.pure, Except.ok.injEq, Prod.mk.injEq, true_and] at h
        refine ⟨p, List.mem_cons_self _ _, by rw [← h], ?_⟩
        rw [is_password_valid_flag (engines.initial z) s.tl]
        exact map_fst_ok hv
      | false =>
        simp only [Bool.false_eq_true, if_false] at h
        obtain ⟨q, hq, hres, hval⟩ := ih _ h
        exact ⟨q, List.mem_cons_of_mem _ hq, hres, hval⟩

theorem any_of_passwords_false {z : zlib} (entry : List Nat) (passwords : List (List Nat))
    (s s' : crack_state z) (h : any_of_passwords entry passwords s = Except.ok (false, s')) :
    s'.result = s.result ∧ ∀ c ∈ passwords,
      Prod.fst <$> is_password_valid (engines.initial z) entry c = Except.ok false := by
  induction passwords generalizing s with
  | nil =>
    simp only [any_of_passwords, pure, Except.pure, Except.ok.injEq, Prod.mk.injEq, true_and] at h
    exact ⟨by rw [h], by intro c hc; cases hc⟩
  | cons p rest ih =>
    simp only [any_of_passwords, bind, Except.bind] at h
    cases hv : is_password_valid s.tl entry p with
    | error f => rw [hv] at h; cases h
    | ok r =>
      rw [hv] at h
      obtain ⟨b, tl'⟩ := r
      cases b with
      | true => simp [pure, Except.pure] at h
      | false =>
        simp only [Bool.false_eq_true, if_false] at h
        obtain ⟨hres, hall⟩ := ih _ h
        refine ⟨hres, ?_⟩
        intro c hc
        rcases List.mem_cons.mp hc with rfl | hc
        · rw [is_password_valid_flag (engines.initial z) s.tl]
          exact map_fst_ok hv
        · exact hall c hc

theorem any_of_passwords_complete {z : zlib} (entry : List Nat) (passwords : List (List Nat))
    (s : crack_state z)
    (h : ∀ c ∈ passwords,
      Prod.fst <$> is_password_valid (engines.initial z) entry c = Except.ok false) :
    ∃ s', any_of_passwords entry passwords s = Except.ok (false, s') := by
  induction passwords generalizing s with
  | nil => exact ⟨s, rfl⟩
  | cons p rest ih =>
    have hp := h p (List.mem_cons_self _ _)
    rw [is_password_valid_flag (engines.initial z) s.tl] at hp
    obtain ⟨tl', hv⟩ := map_fst_eq_ok hp
    obtain ⟨s', hs'⟩ := ih ⟨s.result, tl'⟩ (fun c hc => h c (List.mem_cons_of_mem _ hc))
    refine ⟨s', ?_⟩
    simp only [any_of_passwords, bind, Except.bind, hv, Bool.false_eq_true, if_false]
    exact hs'

/-! ## The outer any_of and the walk -/

theorem increment_zip (first next : local_file_iterator)
    (h : local_file_iterator.increment first = Except.ok next) :
    next.zip = first.zip ∧ next.end_ = first.end_ := by
  unfold local_file_iterator.increment at h
  simp only [bind, Except.bind] at h
  cases hn : local_file_iterator.next_address first with
  | error f => rw [hn] at h; cases h
  | ok a =>
    rw [hn] at h
    simp only [pure, Except.pure] at h
    split_ifs at h <;> cases h <;> exact ⟨rfl, rfl⟩

theorem any_of_local_files_true {z : zlib} (passwords : List (List Nat)) (rounds : Nat)
    (first : local_file_iterator) (s s' : crack_state z)
    (h : any_of_local_files passwords rounds first s = Except.ok (true, s')) :
    ∃ p ∈ passwords, s'.result = some p ∧ ∃ e ∈ (local_files_from rounds first).1,
      Prod.fst <$> is_password_valid (engines.initial z) (first.zip.drop e) p
        = Except.ok true := by
  induction rounds generalizing first s with
  | zero => cases h
  | succ n ih =>
    simp only [any_of_local_files, bind, Except.bind] at h
    cases he : local_file_iterator.is_end first with
    | error f => rw [he] at h; cases h
    | ok b =>
      rw [he] at h
      cases b with
      | true => simp [pure, Except.pure] at h
      | false =>
        simp only [Bool.false_eq_true, if_false] at h
        have hmem : first.addr_.getD 0 ∈ (local_files_from (n + 1) first).1 := by
          simp only [local_files_from, he]
          cases local_file_iterator.increment first <;> simp
        cases hp : any_of_passwords (local_file_iterator.deref first) passwords s with
        | error f => rw [hp] at h; cases h
        | ok r =>
          rw [hp] at h
          obtain ⟨b, s1⟩ := r
          cases b with
          | true =>
            simp only [if_true, pure, Except.pure, Except.ok.injEq, Prod.mk.injEq, true_and] at h
            subst h
            obtain ⟨p, hpm, hres, hval⟩ := any_of_passwords_true _ _ _ _ hp
            exact ⟨p, hpm, hres, _, hmem, hval⟩
          | false =>
            simp only [Bool.false_eq_true, if_false] at h
            cases hi : local_file_iterator.increment first with
            | error f => rw [hi] at h; cases h
            | ok next =>
              rw [hi] at h
              obtain ⟨p, hpm, hres, e, hem, hval⟩ := ih next s1 h
              rw [(increment_zip first next hi).1] at hval
              refine ⟨p, hpm, hres, e, ?_, hval⟩
              simp only [local_files_from, he, hi, List.mem_cons]
              exact Or.inr hem

theorem any_of_local_files_false {z : zlib} (passwords : List (List Nat)) (rounds : Nat)
    (first : local_file_iterator) (s s' : crack_state z)
    (h : any_of_local_files passwords rounds first s = Except.ok (false, s')) :
    s'.result = s.result ∧ (local_files_from rounds first).2 = none ∧
      ∀ e ∈ (local_files_from rounds first).1, ∀ c ∈ passwords,
        Prod.fst <$> is_password_valid (engines.initial z) (first.zip.drop e) c
          = Except.ok false := by
  induction rounds generalizing first s with
  | zero => cases h
  | succ n ih =>
    simp only [any_of_local_files, bind, Except.bind] at h
    cases he : local_file_iterator.is_end first with
    | error f => rw [he] at h; cases h
    | ok b =>
      rw [he] at h
      cases b with
      | true =>
        simp only [if_true, pure, Except.pure, Except.ok.injEq, Prod.mk.injEq, true_and] at h
        subst h
        have e1 : local_files_from (n + 1) first = ([], none) := by
          simp only [local_files_from, he]
        rw [e1]
        exact ⟨rfl, rfl, by intro e hx; cases hx⟩
      | false =>
        simp only [Bool.false_eq_true, if_false] at h
        cases hp : any_of_passwords (local_file_iterator.deref first) passwords s with
        | error f => rw [hp] at h; cases h
        | ok r =>
          rw [hp] at h
          obtain ⟨b, s1⟩ := r
          cases b with
          | true => simp [pure, Except.pure] at h
          | false =>
            simp only [Bool.false_eq_true, if_false] at h
            obtain ⟨hres1, hall1⟩ := any_of_passwords_false _ _ _ _ hp
            cases hi : local_file_iterator.increment first with
            | error f => rw [hi] at h; cases h
            | ok next =>
              rw [hi] at h
              obtain ⟨hres, hnone, hall⟩ := ih next s1 h
              rw [(increment_zip first next hi).1] at hall
              simp only [local_files_from, he, hi]
              refine ⟨by rw [hres, hres1], hnone, ?_⟩
              intro e hx c hc
              rcases List.mem_cons.mp hx with rfl | hx
              · exact hall1 c hc
              · exact hall e hx c hc

theorem any_of_local_files_complete {z : zlib} (passwords : List (List Nat)) (rounds : Nat)
    (first : local_file_iterator) (s : crack_state z)
    (hnone : (local_files_from rounds first).2 = none)
    (hall : ∀ e ∈ (local_files_from rounds first).1, ∀ c ∈ passwords,
        Prod.fst <$> is_password_valid (engines.initial z) (first.zip.drop e) c
          = Except.ok false) :
    ∃ s', any_of_local_files passwords rounds first s = Except.ok (false, s') := by
  induction rounds generalizing first s with
  | zero => simp [local_files_from] at hnone
  | succ n ih =>
    simp only [any_of_local_files, bind, Except.bind]
    cases he : local_file_iterator.is_end first with
    | error f => simp [local_files_from, he] at hnone
    | ok b =>
      cases b with
      | true => exact ⟨s, rfl⟩
      | false =>
        simp only [Bool.false_eq_true, if_false]
        cases hi : local_file_iterator.increment first with
        | error f => simp [local_files_from, he, hi] at hnone
        | ok next =>
          simp only [local_files_from, he, hi] at hnone hall
          obtain ⟨s1, hs1⟩ := any_of_passwords_complete (local_file_iterator.deref first)
            passwords s (fun c hc => hall _ (List.mem_cons_self _ _) c hc)
          rw [hs1]
          simp only [Bool.false_eq_true, if_false]
          have hz := (increment_zip first next hi).1
          exact ih next s1 hnone (fun e hx c hc => by
            rw [hz]; exact hall e (List.mem_cons_of_mem _ hx) c hc)

/-! ## The round bounds of the embedding

No call other than the walk itself hits a round bound. -/

theorem within_bounds_pure {α : Type} (a : α) : within_bounds (pure a : Except Failure α) := by
  intro h; cases h

theorem within_bounds_ok {α : Type} (a : α) : within_bounds (Except.ok a : Except Failure α) := by
  intro h; cases h

theorem within_bounds_bind {α β : Type} {x : Except Failure α} {f : α → Except Failure β}
    (hx : within_bounds x) (hf : ∀ a, x = Except.ok a → within_bounds (f a)) :
    within_bounds (x >>= f) := by
  cases x with
  | error e => intro h; apply hx; cases h; rfl
  | ok a => exact hf a rfl

theorem within_bounds_map {α β : Type} {x : Except Failure α} (f : α → β)
    (hx : within_bounds x) : within_bounds (f <$> x) := by
  cases x with
  | error e => intro h; apply hx; cases h; rfl
  | ok a => intro h; cases h

theorem read_span_ok {mem : List Nat} {n : Nat} {bytes : List Nat}
    (h : read_span mem n = Except.ok bytes) : n ≤ mem.length := by
  unfold read_span at h
  split_ifs at h with hn
  exact hn

theorem within_bounds_read_span (mem : List Nat) (n : Nat) : within_bounds (read_span mem n) := by
  unfold read_span
  split_ifs <;> intro h <;> cases h

theorem within_bounds_align (size : Nat) (storage : List Nat) :
    within_bounds (align size storage) := by
  unfold align
  exact within_bounds_bind (within_bounds_read_span _ _) (fun _ _ => within_bounds_pure _)

theorem within_bounds_member (self : List Nat) (offset size : Nat) :
    within_bounds (member self offset size) :=
  within_bounds_align _ _

theorem member_ok {self : List Nat} {offset size v : Nat} (hs : 0 < size)
    (h : member self offset size = Except.ok v) : offset + size ≤ self.length := by
  unfold member align at h
  simp only [bind, Except.bind] at h
  cases hr : read_span (List.drop offset self) size with
  | error f => rw [hr] at h; cases h
  | ok bytes =>
    have := read_span_ok hr
    rw [List.length_drop] at this
    omega

theorem map_ok {α β : Type} {x : Except Failure α} {f : α → β} {b : β}
    (h : f <$> x = Except.ok b) : ∃ a, x = Except.ok a ∧ f a = b := by
  cases x with
  | error e => cases h
  | ok a => exact ⟨a, rfl, by simpa [Functor.map, Except.map] using h⟩

theorem get_zip64_extra_field_loop_within_bounds (self : List Nat) (e : Nat) (rounds i : Nat)
    (result : Option Nat) (h1 : 1 ≤ rounds) (h2 : self.length + 2 ≤ rounds + i) :
    within_bounds (local_file.get_zip64_extra_field_loop self e rounds i result) := by
  induction rounds generalizing i result with
  | zero => omega
  | succ n ih =>
    unfold local_file.get_zip64_extra_field_loop
    split_ifs with hie
    · exact within_bounds_pure _
    · refine within_bounds_bind (within_bounds_map _ (within_bounds_member _ _ _)) (fun id _ => ?_)
      refine within_bounds_bind (within_bounds_map _ (within_bounds_member _ _ _)) (fun sz hsz => ?_)
      obtain ⟨v, hv, _⟩ := map_ok hsz
      have hb := member_ok (by omega) hv
      rw [List.length_drop] at hb
      exact ih _ _ (by omega) (by omega)

theorem within_bounds_get_zip64_extra_field (self : List Nat) :
    within_bounds (local_file.get_zip64_extra_field self) := by
  unfold local_file.get_zip64_extra_field
  refine within_bounds_bind (within_bounds_map _ (within_bounds_member _ _ _)) (fun fnl _ => ?_)
  refine within_bounds_bind (within_bounds_map _ (within_bounds_member _ _ _)) (fun efl _ => ?_)
  refine within_bounds_bind
    (get_zip64_extra_field_loop_within_bounds self _ _ _ _ (by omega)
      (by simp only [local_file.sizeof]; omega)) (fun r _ => ?_)
  cases r with
  | none => intro h; cases h
  | some v => exact within_bounds_pure _

theorem within_bounds_field (size : Nat) (self : List Nat) (offset : Nat) :
    within_bounds (nativize endian.native size <$> member self offset size) :=
  within_bounds_map _ (within_bounds_member _ _ _)

theorem within_bounds_is_zip64 (self : List Nat) : within_bounds (local_file.is_zip64 self) := by
  unfold local_file.is_zip64
  refine within_bounds_bind (within_bounds_field _ _ _) (fun c _ => ?_)
  split_ifs
  · exact within_bounds_bind (within_bounds_field _ _ _) (fun _ _ => within_bounds_pure _)
  · exact within_bounds_pure _

theorem within_bounds_has_data_descriptor (self : List Nat) :
    within_bounds (local_file.has_data_descriptor self) := by
  unfold local_file.has_data_descriptor
  exact within_bounds_bind (within_bounds_field _ _ _) (fun _ _ => within_bounds_pure _)

theorem within_bounds_is_encrypted (self : List Nat) :
    within_bounds (local_file.is_encrypted self) := by
  unfold local_file.is_encrypted
  exact within_bounds_bind (within_bounds_field _ _ _) (fun _ _ => within_bounds_pure _)

theorem within_bounds_compressed_size (self : List Nat) :
    within_bounds (local_file.compressed_size self) := by
  unfold local_file.compressed_size
  refine within_bounds_bind (within_bounds_field _ _ _) (fun c _ => ?_)
  refine within_bounds_bind (within_bounds_is_zip64 _) (fun b _ => ?_)
  split_ifs
  · exact within_bounds_bind (within_bounds_get_zip64_extra_field _)
      (fun _ _ => within_bounds_field _ _ _)
  · exact within_bounds_pure _

theorem within_bounds_compressed_data (self : List Nat) :
    within_bounds (local_file.compressed_data self) := by
  unfold local_file.compressed_data
  refine within_bounds_bind (within_bounds_field _ _ _) (fun _ _ => ?_)
  refine within_bounds_bind (within_bounds_field _ _ _) (fun _ _ => ?_)
  exact within_bounds_bind (within_bounds_compressed_size _) (fun _ _ => within_bounds_pure _)

theorem within_bounds_visit_data_descriptor (self : List Nat) :
    within_bounds (local_file.visit_data_descriptor self) := by
  unfold local_file.visit_data_descriptor
  refine within_bounds_bind (within_bounds_field _ _ _) (fun _ _ => ?_)
  refine within_bounds_bind (within_bounds_field _ _ _) (fun _ _ => ?_)
  refine within_bounds_bind (within_bounds_compressed_size _) (fun _ _ => ?_)
  refine within_bounds_bind (within_bounds_align _ _) (fun _ _ => ?_)
  refine within_bounds_bind (within_bounds_is_zip64 _) (fun _ _ => ?_)
  split_ifs <;> exact within_bounds_pure _

theorem within_bounds_data_descriptor_data (self : List Nat) :
    within_bounds (local_file.data_descriptor_data self) := by
  unfold local_file.data_descriptor_data
  refine within_bounds_bind (within_bounds_field _ _ _) (fun _ _ => ?_)
  refine within_bounds_bind (within_bounds_field _ _ _) (fun _ _ => ?_)
  refine within_bounds_bind (within_bounds_compressed_size _) (fun _ _ => ?_)
  exact within_bounds_bind (within_bounds_visit_data_descriptor _)
    (fun _ _ => within_bounds_pure _)

theorem within_bounds_uncompressed_crc32 (self : List Nat) :
    within_bounds (local_file.uncompressed_crc32 self) := by
  unfold local_file.uncompressed_crc32
  refine within_bounds_bind (within_bounds_field _ _ _) (fun _ _ => ?_)
  refine within_bounds_bind (within_bounds_has_data_descriptor _) (fun _ _ => ?_)
  split_ifs
  · exact within_bounds_bind (within_bounds_visit_data_descriptor _)
      (fun _ _ => within_bounds_member _ _ _)
  · exact within_bounds_pure _

theorem within_bounds_next_address (it : local_file_iterator) :
    within_bounds (local_file_iterator.next_address it) := by
  unfold local_file_iterator.next_address
  refine within_bounds_bind (within_bounds_has_data_descriptor _) (fun _ _ => ?_)
  split_ifs
  · refine within_bounds_bind (within_bounds_data_descriptor_data _) (fun _ _ => ?_)
    exact within_bounds_bind (within_bounds_data_descriptor_data _)
      (fun _ _ => within_bounds_pure _)
  · refine within_bounds_bind (within_bounds_compressed_data _) (fun _ _ => ?_)
    exact within_bounds_bind (within_bounds_compressed_data _) (fun _ _ => within_bounds_pure _)

theorem within_bounds_increment (it : local_file_iterator) :
    within_bounds (local_file_iterator.increment it) := by
  unfold local_file_iterator.increment
  refine within_bounds_bind (within_bounds_next_address _) (fun _ _ => ?_)
  split_ifs <;> exact within_bounds_pure _

theorem within_bounds_is_end (it : local_file_iterator) :
    within_bounds (local_file_iterator.is_end it) := by
  unfold local_file_iterator.is_end
  refine within_bounds_bind ?_ (fun _ _ => within_bounds_pure _)
  unfold local_file_iterator.get_addr
  split
  · exact within_bounds_pure _
  · split_ifs
    · refine within_bounds_bind (within_bounds_field _ _ _) (fun _ _ => ?_)
      split_ifs <;> exact within_bounds_pure _
    · exact within_bounds_pure _

theorem bind_ok {α β : Type} {x : Except Failure α} {f : α → Except Failure β} {b : β}
    (h : x >>= f = Except.ok b) : ∃ a, x = Except.ok a ∧ f a = Except.ok b := by
  cases x with
  | error e => cases h
  | ok a => exact ⟨a, rfl, h⟩

theorem compressed_data_fst_ge (self : List Nat) (c : Nat × Nat)
    (h : local_file.compressed_data self = Except.ok c) : 30 ≤ c.1 := by
  unfold local_file.compressed_data at h
  obtain ⟨fnl, _, h⟩ := bind_ok h
  obtain ⟨efl, _, h⟩ := bind_ok h
  obtain ⟨cs, _, h⟩ := bind_ok h
  simp only [pure, Except.pure, Except.ok.injEq] at h
  subst h
  simp only [local_file.sizeof]
  omega

theorem data_descriptor_data_fst_ge (self : List Nat) (d : Nat × Nat)
    (h : local_file.data_descriptor_data self = Except.ok d) : 30 ≤ d.1 := by
  unfold local_file.data_descriptor_data at h
  obtain ⟨fnl, _, h⟩ := bind_ok h
  obtain ⟨efl, _, h⟩ := bind_ok h
  obtain ⟨cs, _, h⟩ := bind_ok h
  obtain ⟨v, _, h⟩ := bind_ok h
  simp only [pure, Except.pure, Except.ok.injEq] at h
  subst h
  simp only [local_file.sizeof]
  omega

theorem is_end_of_addr_ge (it : local_file_iterator)
    (h : ∀ a, it.addr_ = some a → it.end_ ≤ a) :
    local_file_iterator.is_end it = Except.ok true := by
  unfold local_file_iterator.is_end local_file_iterator.get_addr
  cases ha : it.addr_ with
  | none => rfl
  | some a =>
    have := h a ha
    simp only [if_neg (Nat.not_lt.mpr this)]
    rfl

theorem within_bounds_read (mem : List Nat) (i : Nat) : within_bounds (read mem i) := by
  unfold read
  split <;> intro h <;> cases h

theorem within_bounds_reset (self : decrypter) (password header : List Nat) (check_bits : Nat) :
    within_bounds (decrypter.reset self password header check_bits) := by
  unfold decrypter.reset
  refine within_bounds_bind (within_bounds_read_span _ _) (fun _ _ => ?_)
  refine within_bounds_bind (within_bounds_read _ _) (fun _ _ => ?_)
  simp only
  split_ifs
  · refine within_bounds_bind (within_bounds_read _ _) (fun _ _ => ?_)
    split_ifs <;> exact within_bounds_pure _
  · exact within_bounds_pure _

theorem within_bounds_transform_loop {σ : Type} (receiver : σ → List Nat → Except Failure σ)
    (hr : ∀ s buf, within_bounds (receiver s buf)) (ciphertext : List Nat) (rounds : Nat)
    (self : decrypter) (len : Nat) (s : σ) :
    within_bounds (decrypter.transform_loop receiver ciphertext rounds self len s) := by
  induction rounds generalizing self len s with
  | zero => exact within_bounds_pure _
  | succ n ih =>
    unfold decrypter.transform_loop
    split_ifs
    · exact within_bounds_pure _
    · refine within_bounds_bind (within_bounds_read_span _ _) (fun _ _ => ?_)
      exact within_bounds_bind (hr _ _) (fun _ _ => ih _ _ _)

theorem within_bounds_crc32_receiver (residual : Nat) (buf : List Nat) :
    within_bounds (crc32_receiver residual buf) :=
  within_bounds_pure _

theorem within_bounds_foldlM {σ : Type} (receiver : σ → List Nat → Except Failure σ)
    (hr : ∀ s buf, within_bounds (receiver s buf)) (chunks : List (List Nat)) (s : σ) :
    within_bounds (chunks.foldlM receiver s) := by
  induction chunks generalizing s with
  | nil => exact within_bounds_pure _
  | cons c cs ih =>
    rw [List.foldlM_cons]
    exact within_bounds_bind (hr _ _) (fun _ _ => ih _)

theorem within_bounds_inflater_transform {z : zlib} {σ : Type} (self : inflater z)
    (buf_in : List Nat) (len : Nat) (receiver : σ → List Nat → Except Failure σ)
    (hr : ∀ s buf, within_bounds (receiver s buf)) (finish : Bool) (s : σ) :
    within_bounds (inflater.transform self buf_in len receiver finish s) := by
  unfold inflater.transform
  refine within_bounds_bind (within_bounds_read_span _ _) (fun _ _ => ?_)
  refine within_bounds_bind (within_bounds_foldlM _ hr _ _) (fun _ _ => ?_)
  refine within_bounds_bind ?_ (fun _ _ => within_bounds_pure _)
  unfold inflater.zlib_result
  split_ifs
  · intro h; cases h
  · exact within_bounds_pure _

theorem within_bounds_switch {z : zlib} (method : Nat) (dec : decrypter) (inf : inflater z)
    (buf : List Nat) (len residual : Nat) :
    within_bounds (is_password_valid_switch method dec inf buf len residual) := by
  unfold is_password_valid_switch
  split_ifs
  · exact within_bounds_bind
      (within_bounds_transform_loop _ within_bounds_crc32_receiver _ _ _ _ _)
      (fun _ _ => within_bounds_pure _)
  · exact within_bounds_bind
      (within_bounds_transform_loop _
        (fun s buf => within_bounds_inflater_transform _ _ _ _ within_bounds_crc32_receiver _ _)
        _ _ _ _ _)
      (fun _ _ => within_bounds_pure _)
  · exact within_bounds_pure _

theorem within_bounds_is_password_valid {z : zlib} (tl : engines z) (entry password : List Nat) :
    within_bounds (is_password_valid tl entry password) := by
  unfold is_password_valid
  refine within_bounds_bind (within_bounds_is_encrypted _) (fun _ _ => ?_)
  split_ifs
  · refine within_bounds_bind (within_bounds_compressed_data _) (fun _ _ => ?_)
    refine within_bounds_bind (within_bounds_compressed_data _) (fun _ _ => ?_)
    refine within_bounds_bind (within_bounds_field _ _ _) (fun _ _ => ?_)
    refine within_bounds_bind (within_bounds_reset _ _ _ _) (fun _ _ => ?_)
    split_ifs
    · refine within_bounds_bind ?_ (fun _ _ => ?_)
      · unfold inflater.reset inflater.zlib_result
        simp only [Int.lt_irrefl, if_false]
        exact within_bounds_bind (within_bounds_pure _) (fun _ _ => within_bounds_pure _)
      refine within_bounds_bind (within_bounds_field _ _ _) (fun _ _ => ?_)
      refine within_bounds_bind (within_bounds_switch _ _ _ _ _ _) (fun _ _ => ?_)
      exact within_bounds_bind (within_bounds_uncompressed_crc32 _)
        (fun _ _ => within_bounds_pure _)
    · exact within_bounds_pure _
  · exact within_bounds_pure _

theorem within_bounds_any_of_passwords {z : zlib} (entry : List Nat)
    (passwords : List (List Nat)) (s : crack_state z) :
    within_bounds (any_of_passwords entry passwords s) := by
  induction passwords generalizing s with
  | nil => exact within_bounds_pure _
  | cons p rest ih =>
    unfold any_of_passwords
    refine within_bounds_bind (within_bounds_is_password_valid _ _ _) (fun _ _ => ?_)
    split_ifs
    · exact within_bounds_pure _
    · exact ih _

/-- The rounds of `transform` beyond `len` are never run: any bound of at least
`len` rounds gives the same result. -/
theorem transform_loop_rounds_irrelevant {σ : Type}
    (receiver : σ → List Nat → Except Failure σ) (ciphertext : List Nat) (rounds rounds' : Nat)
    (self : decrypter) (len : Nat) (s : σ) (h : len ≤ rounds) (h' : len ≤ rounds') :
    decrypter.transform_loop receiver ciphertext rounds self len s
      = decrypter.transform_loop receiver ciphertext rounds' self len s := by
  induction rounds generalizing rounds' self len s with
  | zero =>
    have : len = 0 := by omega
    subst this
    rw [transform_loop_len_zero, transform_loop_len_zero]
  | succ n ih =>
    cases rounds' with
    | zero =>
      have : len = 0 := by omega
      subst this
      rw [transform_loop_len_zero, transform_loop_len_zero]
    | succ m =>
      unfold decrypter.transform_loop
      split_ifs with h0
      · rfl
      · have hmin : 1 ≤ min (2 ^ 12) len := by
          have : 0 < len := Nat.pos_of_ne_zero h0
          simp only [Nat.le_min]
          omega
        simp only [bind, Except.bind]
        cases read_span ciphertext (min (2 ^ 12) len) with
        | error f => rfl
        | ok chunk =>
          simp only
          cases receiver s (decrypter.decrypt_chunk self.key_ chunk).2 with
          | error f => rfl
          | ok s1 => exact ih m _ _ s1 (by omega) (by omega)

/-! ## Claims about the validator and the search -/

/-- Whatever the zlib, a negative code of `::inflate` leaves `inflater::transform`
as a thrown runtime_error, after the chunks produced before it were delivered. -/
theorem inflater_transform_throws {z : zlib} {σ : Type} (self : inflater z) (buf : List Nat)
    (receiver : σ → List Nat → Except Failure σ) (finish : Bool) (s s' : σ)
    (hdel : (z.inflate_calls self.stream_ buf finish).1.foldlM receiver s = Except.ok s')
    (hneg : (z.inflate_calls self.stream_ buf finish).2.1 < 0) :
    inflater.transform self buf buf.length receiver finish s
      = Except.error (Failure.runtime_error
          ((z.msg (z.inflate_calls self.stream_ buf finish).2.2).getD "unknown error")) := by
  unfold inflater.transform read_span inflater.zlib_result
  simp only [le_refl, if_true, List.take_length, bind, Except.bind, hdel, hneg]

/-- Whatever the entry, a compression method other than stored and deflated
leaves the residual of `is_password_valid` at its initial value. -/
theorem switch_without_case {z : zlib} (method : Nat) (dec : decrypter) (inf : inflater z)
    (buf : List Nat) (len residual : Nat) (h0 : method ≠ 0) (h8 : method ≠ 8) :
    is_password_valid_switch method dec inf buf len residual = Except.ok (dec, inf, residual) := by
  unfold is_password_valid_switch
  rw [if_neg h0, if_neg h8]
  rfl

/-- Claim C4 fails on the code. The entry of archive_deflated_reserved_block is
encrypted and deflated, the password `a` passes the check-bits test, and the
inflater reports the bitstream error `invalid block type` on the decrypted
payload; is_password_valid does not return false: the error leaves the
validator as the thrown runtime_error, and the search over this archive ends
with the same error. -/
theorem C4_inflate_error_leaves_validator :
    local_file.is_encrypted archive_deflated_reserved_block = Except.ok true
    ∧ local_file.compression_method archive_deflated_reserved_block = Except.ok 8
    ∧ Prod.fst <$> decrypter.reset ⟨initial_key⟩ [97]
        (archive_deflated_reserved_block.drop 30) 0x94AA = Except.ok true
    ∧ Prod.fst <$> is_password_valid (engines.initial zlib_block_type_check)
        archive_deflated_reserved_block [97]
        = Except.error (Failure.runtime_error "invalid block type")
    ∧ crack (engines.initial zlib_block_type_check) archive_deflated_reserved_block
        [[98], [97], [99]]
        = Except.error (Failure.runtime_error "invalid block type") := by
  decide!

/-- Claim C5 fails on the code. The entry of archive_empty_payload is encrypted
and its compressed payload has 0 bytes, fewer than 12; is_password_valid does
not return false: reset reads the 12 header bytes at the start of the payload
without comparing the length with 12, which here is a read past the end of the
archive. When other bytes follow the empty payload they are read as the header:
the answer changes with them, and when they pass the check-bits test the
decryption of `len - 12` bytes runs past the end of the archive. -/
theorem C5_short_payload_is_read_past_its_end :
    local_file.is_encrypted archive_empty_payload = Except.ok true
    ∧ local_file.compressed_data archive_empty_payload = Except.ok (30, 0)
    ∧ archive_empty_payload.length = 30
    ∧ Prod.fst <$> is_password_valid (engines.initial zlib_block_type_check)
        archive_empty_payload [97] = Except.error Failure.out_of_bounds
    ∧ local_file.compressed_data (archive_empty_payload_then (List.replicate 12 0))
        = Except.ok (30, 0)
    ∧ local_file.compressed_data (archive_empty_payload_then (List.replicate 12 1))
        = Except.ok (30, 0)
    ∧ Prod.fst <$> is_password_valid (engines.initial zlib_block_type_check)
        (archive_empty_payload_then (List.replicate 12 0)) [97]
        = Except.error Failure.out_of_bounds
    ∧ Prod.fst <$> is_password_valid (engines.initial zlib_block_type_check)
        (archive_empty_payload_then (List.replicate 12 1)) [97] = Except.ok false := by
  decide!

/-- Claim C6 fails on the code. The entry of archive_method_99 is encrypted, its
compression method is 99, neither 0 nor 8, and its crc32 field is 0; with the
password `a`, which passes the check-bits test, is_password_valid returns
true: the switch has no default, the residual keeps its initial value
0xffffffff, and its complement 0 equals the crc32 field. -/
theorem C6_unknown_method_is_accepted :
    local_file.is_encrypted archive_method_99 = Except.ok true
    ∧ local_file.compression_method archive_method_99 = Except.ok 99
    ∧ local_file.uncompressed_crc32 archive_method_99 = Except.ok 0
    ∧ Prod.fst <$> is_password_valid (engines.initial zlib_block_type_check)
        archive_method_99 [97] = Except.ok true := by
  decide!

/-- Claim C7 as stated fails. On archive_zip64_without_extra the walk yields the
entry at offset 0, is_password_valid is false for it and the candidate `a`
(the entry is not encrypted), and yet crack does not return no result: the
increment of the walk throws, because the header asks for zip64 sizes and has no
zip64 sub-record. -/
theorem C7_counterexample_walk_throws :
    ¬ (crack (engines.initial zlib_block_type_check) archive_zip64_without_extra [[97]]
          = Except.ok none
        ↔ ∀ e ∈ (local_files archive_zip64_without_extra).1, ∀ c ∈ [[97]],
            password_valid zlib_block_type_check archive_zip64_without_extra e c
              = Except.ok false) := by
  decide!

/-- Claim C7, amended. With the two any_of loops run sequentially: crack
returns a password p only if p is one of the candidates and is_password_valid
holds for p and some entry the local-file walk yields; and crack returns no
result if and only if the walk runs to its end without failing and
is_password_valid is false for every yielded entry and every candidate. -/
theorem C7_crack_any_match {z : zlib} (tl : engines z) (zip_file : List Nat)
    (passwords : List (List Nat)) :
    (∀ p, crack tl zip_file passwords = Except.ok (some p) →
        p ∈ passwords ∧ ∃ e ∈ (local_files zip_file).1,
          password_valid z zip_file e p = Except.ok true)
    ∧ (crack tl zip_file passwords = Except.ok none ↔
        (local_files zip_file).2 = none ∧
          ∀ e ∈ (local_files zip_file).1, ∀ c ∈ passwords,
            password_valid z zip_file e c = Except.ok false) := by
  have key : ∀ r : Bool × crack_state z,
      any_of_local_files passwords (zip_file.length + 1)
        (local_file_iterator.mk_span zip_file) ⟨none, tl⟩ = Except.ok r →
      crack tl zip_file passwords = Except.ok r.2.result := by
    intro r hr
    unfold crack
    rw [hr]
    rfl
  have split : ∀ o, crack tl zip_file passwords = Except.ok o →
      ∃ r : Bool × crack_state z,
        any_of_local_files passwords (zip_file.length + 1)
          (local_file_iterator.mk_span zip_file) ⟨none, tl⟩ = Except.ok r ∧ r.2.result = o := by
    intro o ho
    unfold crack at ho
    obtain ⟨r, hr, h⟩ := bind_ok ho
    simp only [pure, Except.pure, Except.ok.injEq] at h
    exact ⟨r, hr, h⟩
  refine ⟨?_, ?_, ?_⟩
  · intro p hp
    obtain ⟨⟨b, s'⟩, hr, hres⟩ := split _ hp
    cases b with
    | true =>
      obtain ⟨q, hq, hq', e, he, hval⟩ := any_of_local_files_true _ _ _ _ _ hr
      simp only at hres
      rw [hres] at hq'
      cases hq'
      exact ⟨hq, e, he, hval⟩
    | false =>
      have := (any_of_local_files_false _ _ _ _ _ hr).1
      simp only at hres this
      rw [this] at hres
      cases hres
  · intro hn
    obtain ⟨⟨b, s'⟩, hr, hres⟩ := split _ hn
    cases b with
    | true =>
      obtain ⟨q, hq, hq', _⟩ := any_of_local_files_true _ _ _ _ _ hr
      simp only at hres
      rw [hres] at hq'
      cases hq'
    | false =>
      obtain ⟨_, hnone, hall⟩ := any_of_local_files_false _ _ _ _ _ hr
      exact ⟨hnone, hall⟩
  · rintro ⟨hnone, hall⟩
    obtain ⟨s', hs'⟩ := any_of_local_files_complete passwords (zip_file.length + 1)
      (local_file_iterator.mk_span zip_file) (⟨none, tl⟩ : crack_state z) hnone hall
    have h1 := (any_of_local_files_false _ _ _ _ _ hs').1
    rw [key _ hs']
    simp only at h1 ⊢
    rw [h1]

/-! ## The brute-force iterator -/

theorem spec_digits_of_pos (A i : Nat) (hA : 2 ≤ A) (hi : 0 < i) :
    spec.digits A i = Nat.digits A i := by
  unfold spec.digits
  rw [Nat.digits_def' (by omega) hi]

theorem spec_digits_zero (A : Nat) : spec.digits A 0 = [0] := by
  simp [spec.digits]

theorem spec_digits_step (A i : Nat) (hA : 2 ≤ A) (h : i / A ≠ 0) :
    spec.digits A i = (i % A) :: spec.digits A (i / A) := by
  rw [spec_digits_of_pos A (i / A) hA (Nat.pos_of_ne_zero h)]
  rfl

theorem spec_digits_last (A i : Nat) (h : i / A = 0) : spec.digits A i = [i % A] := by
  simp [spec.digits, h]

theorem set_index_loop_eq (A : Nat) (hA : 2 ≤ A) (free index o : Nat) (indices : List Nat)
    (h : (spec.digits A index).length ≤ free) :
    brute_iterator.set_index_loop A free index o indices
      = Except.ok (write_at indices o ((spec.digits A index).map (· % 2 ^ 8)),
          o + (spec.digits A index).length) := by
  induction free generalizing index o indices with
  | zero => simp [spec.digits] at h
  | succ n ih =>
    unfold brute_iterator.set_index_loop
    by_cases hq : index / A = 0
    · rw [spec_digits_last A index hq]
      simp only [hq, ne_eq, not_true_eq_false, if_false, List.map_cons, List.map_nil, write_at,
        List.length_singleton]
      rfl
    · rw [spec_digits_step A index hA hq] at h ⊢
      simp only [List.length_cons] at h
      simp only [ne_eq, hq, not_false_eq_true, if_true, List.map_cons, write_at,
        List.length_cons]
      rw [ih (index / A) (o + 1) _ (by omega)]
      congr 2
      omega

theorem take_set_succ (l : List Nat) (o d : Nat) (h : o < l.length) :
    (l.set o d).take (o + 1) = l.take o ++ [d] := by
  induction l generalizing o with
  | nil => simp at h
  | cons x xs ih =>
    cases o with
    | zero => simp
    | succ k =>
      simp only [List.length_cons] at h
      simp only [List.set_cons_succ, List.take_succ_cons, List.cons_append]
      rw [ih k (by omega)]

theorem write_at_length (indices : List Nat) (o : Nat) (ds : List Nat) :
    (write_at indices o ds).length = indices.length := by
  induction ds generalizing indices o with
  | nil => rfl
  | cons d ds ih => simp only [write_at, ih, List.length_set]

theorem take_write_at (indices : List Nat) (o : Nat) (ds : List Nat)
    (h : o + ds.length ≤ indices.length) :
    (write_at indices o ds).take (o + ds.length) = indices.take o ++ ds := by
  induction ds generalizing indices o with
  | nil => simp [write_at]
  | cons d ds ih =>
    simp only [List.length_cons] at h
    simp only [write_at, List.length_cons]
    have := ih (indices.set o d) (o + 1) (by rw [List.length_set]; omega)
    rw [show o + (ds.length + 1) = o + 1 + ds.length by omega, this,
      take_set_succ indices o d (by omega)]
    simp

theorem mapM_ok {α β : Type} (f : α → Except Failure β) (g : α → β) (l : List α)
    (h : ∀ x ∈ l, f x = Except.ok (g x)) : l.mapM f = Except.ok (l.map g) := by
  induction l with
  | nil => rfl
  | cons x xs ih =>
    rw [List.mapM_cons, h x (List.mem_cons_self _ _),
      ih (fun y hy => h y (List.mem_cons_of_mem _ hy))]
    rfl

theorem string_at_of_lt (s : List Nat) (i : Nat) (h : i < s.length) :
    string_at s i = Except.ok (s.getD i 0) := by
  unfold string_at read
  rw [if_neg (by omega), List.get?_eq_getElem?, List.getD_eq_getElem?_getD,
    List.getElem?_eq_getElem h]
  rfl

theorem spec_digits_lt (A i : Nat) (hA : 2 ≤ A) : ∀ d ∈ spec.digits A i, d < A := by
  intro d hd
  unfold spec.digits at hd
  rcases List.mem_cons.mp hd with rfl | hd
  · exact Nat.mod_lt _ (by omega)
  · exact Nat.digits_lt_base (by omega) hd

theorem spec_digits_length_le (A i L : Nat) (hA : 2 ≤ A) (hL : 1 ≤ L) (hi : i < A ^ L) :
    (spec.digits A i).length ≤ L := by
  unfold spec.digits
  simp only [List.length_cons]
  obtain ⟨k, rfl⟩ : ∃ k, L = k + 1 := ⟨L - 1, by omega⟩
  have : i / A < A ^ k := by
    rw [Nat.div_lt_iff_lt_mul (by omega)]
    rw [pow_succ] at hi
    exact hi
  have hk : (Nat.digits A (i / A)).length ≤ k := by
    by_cases h0 : i / A = 0
    · rw [h0]; simp
    · have h1 := Nat.base_pow_length_digits_le A (i / A) (by omega) h0
      have h2 : A ^ (Nat.digits A (i / A)).length < A ^ (k + 1) := by
        rw [pow_succ, Nat.mul_comm]
        exact lt_of_le_of_lt h1 (Nat.mul_lt_mul_of_pos_left this (by omega))
      have := (Nat.pow_lt_pow_iff_right (by omega : 1 < A)).mp h2
      omega
  omega

/-- The candidate at an index below 2^128: the alphabet characters at the
base-A digits of the index, each narrowed to a byte. -/
theorem candidate_eq (alphabet : List Nat) (i : Nat) (hA : 2 ≤ alphabet.length)
    (hi : i < 2 ^ 128) :
    candidate alphabet i
      = Except.ok ((spec.digits alphabet.length i).map (fun d => alphabet.getD (d % 2 ^ 8) 0)) := by
  have hlen : (spec.digits alphabet.length i).length ≤ 128 :=
    spec_digits_length_le _ _ 128 hA (by omega)
      (lt_of_lt_of_le hi (Nat.pow_le_pow_left hA 128))
  have hpos : 1 ≤ (spec.digits alphabet.length i).length := by simp [spec.digits]
  unfold candidate brute_iterator.mk_index brute_iterator.set_index
  rw [set_index_loop_eq _ hA 128 i 0 _ hlen]
  simp only [bind, Except.bind, pure, Except.pure, brute_iterator.deref, Nat.zero_add]
  rw [Nat.mod_eq_of_lt (by omega)]
  have := take_write_at (List.replicate 128 0) 0
    ((spec.digits alphabet.length i).map (· % 2 ^ 8)) (by simp; omega)
  simp only [Nat.zero_add, List.length_map, List.take_zero, List.nil_append] at this
  rw [this]
  rw [mapM_ok _ (fun d => alphabet.getD d 0)]
  · rw [List.map_map]; rfl
  · intro x hx
    obtain ⟨d, hd, rfl⟩ := List.mem_map.mp hx
    apply string_at_of_lt
    have := spec_digits_lt _ i hA d hd
    exact lt_of_le_of_lt (Nat.mod_le _ _) this

theorem ofDigits_spec_digits (A i : Nat) : Nat.ofDigits A (spec.digits A i) = i := by
  unfold spec.digits
  rw [Nat.ofDigits_cons, Nat.ofDigits_digits]
  exact Nat.mod_add_div i A

theorem spec_digits_injective (A i j : Nat) (h : spec.digits A i = spec.digits A j) : i = j := by
  rw [← ofDigits_spec_digits A i, ← ofDigits_spec_digits A j, h]

theorem spec_digits_getLast (A i : Nat) (hA : 2 ≤ A) (h : 1 < (spec.digits A i).length) :
    (spec.digits A i).getLast? ≠ some 0 := by
  have hi : i ≠ 0 := by
    rintro rfl
    rw [spec_digits_zero] at h
    simp at h
  rw [spec_digits_of_pos A i hA (Nat.pos_of_ne_zero hi)]
  have hne : Nat.digits A i ≠ [] := Nat.digits_ne_nil_iff_ne_zero.mpr hi
  rw [List.getLast?_eq_getLast _ hne]
  intro hc
  exact Nat.getLast_digit_ne_zero A hi (Option.some.inj hc)

/-- A string of distinct bytes has at most 256 of them. -/
theorem length_le_256_of_nodup (alphabet : List Nat) (hd : alphabet.Nodup)
    (hb : ∀ b ∈ alphabet, b < 256) : alphabet.length ≤ 256 := by
  have hsub : alphabet ⊆ List.range 256 := fun b hbm => List.mem_range.mpr (hb b hbm)
  have := (List.subperm_of_subset hd hsub).length_le
  simpa using this

theorem map_getD_injective (alphabet : List Nat) (hd : alphabet.Nodup) (ds es : List Nat)
    (hds : ∀ d ∈ ds, d < alphabet.length) (hes : ∀ d ∈ es, d < alphabet.length)
    (h : ds.map (fun d => alphabet.getD d 0) = es.map (fun d => alphabet.getD d 0)) :
    ds = es := by
  induction ds generalizing es with
  | nil =>
    cases es with
    | nil => rfl
    | cons e es => simp at h
  | cons d ds ih =>
    cases es with
    | nil => simp at h
    | cons e es =>
      simp only [List.map_cons, List.cons.injEq] at h
      have hd1 := hds d (List.mem_cons_self _ _)
      have he1 := hes e (List.mem_cons_self _ _)
      have hde : d = e := by
        have h1 := h.1
        rw [List.getD_eq_getElem _ _ hd1, List.getD_eq_getElem _ _ he1] at h1
        exact (List.Nodup.getElem_inj_iff hd).mp h1
      rw [hde, ih es (fun x hx => hds x (List.mem_cons_of_mem _ hx))
        (fun x hx => hes x (List.mem_cons_of_mem _ hx)) h.2]

/-- For an alphabet of at most 256 bytes no digit is narrowed. -/
theorem candidate_eq_of_le_256 (alphabet : List Nat) (i : Nat) (hA : 2 ≤ alphabet.length)
    (hA' : alphabet.length ≤ 256) (hi : i < 2 ^ 128) :
    candidate alphabet i
      = Except.ok ((spec.digits alphabet.length i).map (fun d => alphabet.getD d 0)) := by
  rw [candidate_eq alphabet i hA hi]
  congr 1
  apply List.map_congr_left
  intro d hd
  have := spec_digits_lt _ i hA d hd
  rw [Nat.mod_eq_of_lt (by omega)]

/-- Candidates at two different indices, over distinct bytes, differ. -/
theorem candidates_ne (alphabet : List Nat) (i j : Nat)
    (hA : 2 ≤ alphabet.length) (hd : alphabet.Nodup) (hb : ∀ b ∈ alphabet, b < 256)
    (hi : i < 2 ^ 128) (hj : j < 2 ^ 128) (hij : i ≠ j) :
    ∃ s t, candidate alphabet i = Except.ok s ∧ candidate alphabet j = Except.ok t ∧ s ≠ t := by
  have hA' := length_le_256_of_nodup alphabet hd hb
  refine ⟨_, _, candidate_eq_of_le_256 alphabet i hA hA' hi,
    candidate_eq_of_le_256 alphabet j hA hA' hj, ?_⟩
  intro h
  exact hij (spec_digits_injective _ _ _
    (map_getD_injective alphabet hd _ _ (spec_digits_lt _ i hA) (spec_digits_lt _ j hA) h))

/-- Claim C8. For every alphabet of A >= 2 pairwise distinct bytes and every L
with A^L <= 2^128, the candidates at two different indices i != j in [0, A^L)
are different byte strings, so the range yields A^L distinct strings. -/
theorem C8_candidates_distinct (alphabet : List Nat) (L : Nat)
    (hA : 2 ≤ alphabet.length) (hd : alphabet.Nodup) (hb : ∀ b ∈ alphabet, b < 256)
    (hL : alphabet.length ^ L ≤ 2 ^ 128) :
    (∀ i j, i < alphabet.length ^ L → j < alphabet.length ^ L → i ≠ j →
      ∃ s t, candidate alphabet i = Except.ok s ∧ candidate alphabet j = Except.ok t ∧ s ≠ t)
    ∧ ((List.range (alphabet.length ^ L)).map (candidate alphabet)).Nodup
    ∧ ((List.range (alphabet.length ^ L)).map (candidate alphabet)).length
        = alphabet.length ^ L := by
  have pair : ∀ i j, i < alphabet.length ^ L → j < alphabet.length ^ L → i ≠ j →
      ∃ s t, candidate alphabet i = Except.ok s ∧ candidate alphabet j = Except.ok t ∧ s ≠ t :=
    fun i j hi hj hij => candidates_ne alphabet i j hA hd hb (by omega) (by omega) hij
  refine ⟨pair, ?_, by rw [List.length_map, List.length_range]⟩
  apply List.Nodup.map_on _ (List.nodup_range _)
  intro i hi j hj hEq
  by_contra hij
  obtain ⟨s, t, hs, ht, hst⟩ := pair i j (List.mem_range.mp hi) (List.mem_range.mp hj) hij
  rw [hs, ht] at hEq
  exact hst (Except.ok.inj hEq)

theorem C8_candidates_distinct_witness :
    (2 ≤ [48, 49].length ∧ [48, 49].Nodup ∧ (∀ b ∈ [48, 49], b < 256)
      ∧ [48, 49].length ^ 5 ≤ 2 ^ 128)
    ∧ (∀ i j, i < [48, 49].length ^ 5 → j < [48, 49].length ^ 5 → i ≠ j →
        ∃ s t, candidate [48, 49] i = Except.ok s ∧ candidate [48, 49] j = Except.ok t ∧ s ≠ t)
    ∧ ((List.range ([48, 49].length ^ 5)).map (candidate [48, 49])).Nodup
    ∧ ((List.range ([48, 49].length ^ 5)).map (candidate [48, 49])).length
        = [48, 49].length ^ 5 :=
  ⟨⟨by decide, by decide, by decide, by decide⟩,
    C8_candidates_distinct [48, 49] 5 (by decide) (by decide) (by decide) (by decide)⟩

/-- Claim C9. For every alphabet of A >= 2 bytes, every L >= 1 and every index
i in [0, A^L) (an index is a 128-bit unsigned integer), the candidate at index
i has length at least 1 and at most L. -/
theorem C9_candidate_length (alphabet : List Nat) (L i : Nat)
    (hA : 2 ≤ alphabet.length) (hL : 1 ≤ L) (hi : i < alphabet.length ^ L)
    (h128 : i < 2 ^ 128) :
    ∃ s, candidate alphabet i = Except.ok s ∧ 1 ≤ s.length ∧ s.length ≤ L := by
  refine ⟨_, candidate_eq alphabet i hA h128, ?_, ?_⟩
  · simp [spec.digits]
  · rw [List.length_map]
    exact spec_digits_length_le _ _ L hA hL hi

theorem C9_candidate_length_witness :
    (2 ≤ [48, 49, 50].length ∧ 1 ≤ 3 ∧ 26 < [48, 49, 50].length ^ 3 ∧ 26 < 2 ^ 128)
    ∧ ∃ s, candidate [48, 49, 50] 26 = Except.ok s ∧ 1 ≤ s.length ∧ s.length ≤ 3 :=
  ⟨⟨by decide, by decide, by decide, by decide⟩,
    C9_candidate_length [48, 49, 50] 3 26 (by decide) (by decide) (by decide) (by decide)⟩

/-- Claim C10 as stated fails. Over the alphabet of 257 bytes (256 times `a`,
then `b`) the index 256 is below A, so the claim asks for the one-byte string
alphabet[256] = `b`; the code stores the digit 256 in a std::uint8_t, as 0, and
yields alphabet[0] = `a`. -/
theorem C10_counterexample_alphabet_257 :
    2 ≤ alphabet_257.length ∧ 256 < 2 ^ 128
    ∧ ¬ ∃ s, candidate alphabet_257 256 = Except.ok s
        ∧ spec.is_digit_string alphabet_257 256 s := by
  have hlen : alphabet_257.length = 257 := by
    simp only [alphabet_257, List.length_append, List.length_replicate, List.length_singleton]
  refine ⟨by rw [hlen]; omega, by omega, ?_⟩
  rintro ⟨s, hs, ds, hmap, _, hsum, _, hone, _⟩
  have hc : candidate alphabet_257 256 = Except.ok [97] := by decide!
  rw [hc] at hs
  cases hs
  rw [hlen] at hone hsum
  have h1 := hone (by omega)
  match ds, h1 with
  | [d], _ =>
    simp only [Nat.ofDigits_singleton] at hsum
    subst hsum
    revert hmap
    decide!

/-- Claim C10, amended to alphabets of at most 256 bytes. For every alphabet of
2 <= A <= 256 bytes and every index i < 2^128, dereferencing
brute_iterator(i, alphabet) gives alphabet[d0] .. alphabet[d_{m-1}] where
d0 .. d_{m-1} are the base-A digits of i, least significant first: every
d_j < A, the sum of d_j * A^j equals i, m = 1 when i < A, and d_{m-1} != 0
when m > 1. -/
theorem C10_candidate_is_digit_string (alphabet : List Nat) (i : Nat)
    (hA : 2 ≤ alphabet.length) (hA' : alphabet.length ≤ 256) (hi : i < 2 ^ 128) :
    ∃ s, candidate alphabet i = Except.ok s ∧ spec.is_digit_string alphabet i s := by
  refine ⟨_, candidate_eq_of_le_256 alphabet i hA hA' hi, spec.digits alphabet.length i, rfl,
    spec_digits_lt _ i hA, ofDigits_spec_digits _ i, by simp [spec.digits], ?_,
    spec_digits_getLast _ i hA⟩
  intro hlt
  rw [spec_digits_last _ i (Nat.div_eq_of_lt hlt)]
  rfl

theorem C10_candidate_is_digit_string_witness :
    (2 ≤ [48, 49].length ∧ [48, 49].length ≤ 256 ∧ 31 < 2 ^ 128)
    ∧ ∃ s, candidate [48, 49] 31 = Except.ok s ∧ spec.is_digit_string [48, 49] 31 s :=
  ⟨⟨by decide, by decide, by decide⟩,
    C10_candidate_is_digit_string [48, 49] 31 (by decide) (by decide) (by decide)⟩

/-! ## The range of the brute-force iterator and its index arithmetic -/

/-- The digits that `set_index` leaves and `operator*` reads do not depend on
what the array held before. -/
theorem deref_set_index (self : brute_iterator) (i : Nat) (hA : 2 ≤ self.alphabet_.length)
    (harr : self.indices_.length = 128) (hi : i < 2 ^ 128) :
    ∃ it, brute_iterator.set_index self i = Except.ok it
      ∧ it.index_ = i ∧ it.alphabet_ = self.alphabet_ ∧ it.indices_.length = 128
      ∧ brute_iterator.deref it
        = Except.ok ((spec.digits self.alphabet_.length i).map
            (fun d => self.alphabet_.getD (d % 2 ^ 8) 0)) := by
  have hlen : (spec.digits self.alphabet_.length i).length ≤ 128 :=
    spec_digits_length_le _ _ 128 hA (by omega)
      (lt_of_lt_of_le hi (Nat.pow_le_pow_left hA 128))
  have hpos : 1 ≤ (spec.digits self.alphabet_.length i).length := by simp [spec.digits]
  unfold brute_iterator.set_index
  rw [set_index_loop_eq _ hA 128 i 0 _ hlen]
  refine ⟨_, rfl, rfl, rfl, ?_, ?_⟩
  · simp only [write_at_length, harr]
  · simp only [brute_iterator.deref, Nat.zero_add]
    rw [Nat.mod_eq_of_lt (by omega)]
    have := take_write_at self.indices_ 0
      ((spec.digits self.alphabet_.length i).map (· % 2 ^ 8)) (by simp; omega)
    simp only [Nat.zero_add, List.length_map, List.take_zero, List.nil_append] at this
    rw [this]
    rw [mapM_ok _ (fun d => self.alphabet_.getD d 0)]
    · rw [List.map_map]; rfl
    · intro x hx
      obtain ⟨d, hd, rfl⟩ := List.mem_map.mp hx
      apply string_at_of_lt
      have := spec_digits_lt _ i hA d hd
      exact lt_of_le_of_lt (Nat.mod_le _ _) this

theorem mk_index_ok (alphabet : List Nat) (i : Nat) (hA : 2 ≤ alphabet.length)
    (hi : i < 2 ^ 128) :
    ∃ it, brute_iterator.mk_index i alphabet = Except.ok it ∧ it.index_ = i
      ∧ it.alphabet_ = alphabet ∧ it.indices_.length = 128 := by
  obtain ⟨it, h1, h2, h3, h4, _⟩ :=
    deref_set_index ⟨0, alphabet, List.replicate 128 0, 0⟩ i hA (by simp) hi
  exact ⟨it, h1, h2, h3, h4⟩

/-- No candidate of more than one byte ends in the first letter of the
alphabet: the last digit of an index is not zero. -/
theorem candidate_last_ne_first_letter (alphabet : List Nat) (i : Nat) (s : List Nat)
    (hA : 2 ≤ alphabet.length) (hd : alphabet.Nodup) (hb : ∀ b ∈ alphabet, b < 256)
    (hi : i < 2 ^ 128) (hs : candidate alphabet i = Except.ok s) (hlen : 1 < s.length) :
    s.getLast? ≠ some (alphabet.getD 0 0) := by
  have hA' := length_le_256_of_nodup alphabet hd hb
  rw [candidate_eq_of_le_256 alphabet i hA hA' hi] at hs
  cases hs
  rw [List.length_map] at hlen
  have hlast := spec_digits_getLast _ i hA hlen
  rw [List.getLast?_map]
  intro hc
  cases hl : (spec.digits alphabet.length i).getLast? with
  | none => rw [hl] at hc; cases hc
  | some d =>
    rw [hl] at hc hlast
    simp only [Option.map_some', Option.some.injEq] at hc
    have hdlt : d < alphabet.length :=
      spec_digits_lt _ i hA d (List.mem_of_getLast?_eq_some hl)
    rw [List.getD_eq_getElem _ _ hdlt, List.getD_eq_getElem _ _ (by omega : 0 < alphabet.length)]
      at hc
    have := (List.Nodup.getElem_inj_iff hd).mp hc
    exact hlast (by rw [this])

/-- Claim C11 fails on the code. Over the alphabet `01` with maximum length 2 the
string `00` is a non-empty string of at most 2 alphabet bytes, and no index
whatever (in particular none below A^L = 4) has it as its candidate: the digits
of an index never end in the digit zero, so a password of two or more bytes
that ends in the first letter of the alphabet is never tried. -/
theorem C11_password_ending_in_first_letter_is_skipped :
    (2 ≤ [48, 49].length ∧ [48, 49].Nodup ∧ [48, 49].length ^ 2 ≤ 2 ^ 128
      ∧ 1 ≤ [48, 48].length ∧ [48, 48].length ≤ 2 ∧ ∀ b ∈ [48, 48], b ∈ [48, 49])
    ∧ ¬ ∃ i, i < 2 ^ 128 ∧ candidate [48, 49] i = Except.ok [48, 48] := by
  refine ⟨by decide, ?_⟩
  rintro ⟨i, hi, hs⟩
  exact candidate_last_ne_first_letter [48, 49] i [48, 48] (by decide) (by decide) (by decide)
    hi hs (by decide) rfl

theorem pow_eq (x y : Nat) : pow x y = x ^ y % 2 ^ 128 := by
  unfold pow
  induction y with
  | zero => rfl
  | succ n ih =>
    rw [List.range_succ, List.foldl_append, ih]
    show (x ^ n % 2 ^ 128 * x) % 2 ^ 128 = x ^ (n + 1) % 2 ^ 128
    rw [Nat.mod_mul_mod, show x ^ (n + 1) = x ^ n * x from Nat.pow_succ x n]

/-- Claim C12 as stated fails. For the alphabet `01` (A = 2) and the maximum
length 128, which fits a u8, pow(2, 128) wraps to 0 in 128-bit arithmetic: begin
and end are both the iterator of index 0 and end - begin is 0, not 2^128. -/
theorem C12_counterexample_pow_wraps :
    (1 ≤ [48, 49].length ∧ [48, 49].length ≤ 128 ∧ 128 ≤ 255)
    ∧ (fun r => brute_iterator.operator_minus r.2 r.1) <$> main_brute_range [48, 49] 128
        = Except.ok 0
    ∧ (fun r => brute_iterator.operator_minus r.2 r.1) <$> main_brute_range [48, 49] 128
        ≠ Except.ok ((([48, 49].length ^ 128 : Nat) : Int)) := by
  decide!

/-- Claim C12, amended to alphabets of at least two bytes and ranges below 2^127.
For every alphabet of A >= 2 bytes and every maximum length L with A^L < 2^127,
with begin = brute_iterator(0, alphabet) and end = brute_iterator(pow(A, L),
alphabet) as main builds them, the iterator difference end - begin equals A^L. -/
theorem C12_range_difference (alphabet : List Nat) (L : Nat) (hA : 2 ≤ alphabet.length)
    (hL : alphabet.length ^ L < 2 ^ 127) :
    ∃ r, main_brute_range alphabet L = Except.ok r
      ∧ brute_iterator.operator_minus r.2 r.1 = ((alphabet.length ^ L : Nat) : Int) := by
  have hp : pow alphabet.length L = alphabet.length ^ L := by
    rw [pow_eq, Nat.mod_eq_of_lt (by omega)]
  obtain ⟨b, hb, hbi, _⟩ := mk_index_ok alphabet 0 hA (by omega)
  obtain ⟨e, he, hei, _⟩ := mk_index_ok alphabet (alphabet.length ^ L) hA (by omega)
  refine ⟨(b, e), ?_, ?_⟩
  · simp only [main_brute_range, hp, hb, he]
    rfl
  · simp only [brute_iterator.operator_minus, hbi, hei, to_int128]
    generalize alphabet.length ^ L = n at hL
    have h1 : (n + 2 ^ 128 - 0 % 2 ^ 128) % 2 ^ 128 % 2 ^ 128 = n := by omega
    rw [h1, if_pos hL]

theorem C12_range_difference_witness :
    (2 ≤ [48, 49, 50].length ∧ [48, 49, 50].length ^ 3 < 2 ^ 127)
    ∧ ∃ r, main_brute_range [48, 49, 50] 3 = Except.ok r
      ∧ brute_iterator.operator_minus r.2 r.1 = (([48, 49, 50].length ^ 3 : Nat) : Int) :=
  ⟨⟨by decide, by decide⟩, C12_range_difference [48, 49, 50] 3 (by decide) (by decide)⟩

/-- Claim C13. For every alphabet of A >= 2 bytes, every brute_iterator it (an
index below 2^128 and an array of 128 digits) and every signed 128-bit offset
k, with index arithmetic wrapping modulo 2^128: (it + k) - it == k, and it + k
dereferences to the same string as brute_iterator((index(it) + k) mod 2^128,
alphabet). -/
theorem C13_plus_then_minus (it : brute_iterator) (k : Int)
    (hA : 2 ≤ it.alphabet_.length) (hidx : it.index_ < 2 ^ 128)
    (harr : it.indices_.length = 128) (hk1 : -(2 ^ 127) ≤ k) (hk2 : k < 2 ^ 127) :
    ∃ sum, brute_iterator.operator_plus it k = Except.ok sum
      ∧ brute_iterator.operator_minus sum it = k
      ∧ brute_iterator.deref sum
        = candidate it.alphabet_ ((((it.index_ : Int) + k) % 2 ^ 128).toNat) := by
  have hidx' : (it.index_ + to_uint128 k) % 2 ^ 128 < 2 ^ 128 := Nat.mod_lt _ (by omega)
  obtain ⟨sum, hs, hsi, hsa, _, hsd⟩ :=
    deref_set_index it ((it.index_ + to_uint128 k) % 2 ^ 128) hA harr hidx'
  have hsame : (((it.index_ : Int) + k) % 2 ^ 128).toNat
      = (it.index_ + to_uint128 k) % 2 ^ 128 := by
    unfold to_uint128
    set_option maxRecDepth 100000 in omega
  refine ⟨sum, hs, ?_, ?_⟩
  · simp only [brute_iterator.operator_minus, hsi, to_int128, to_uint128]
    set_option maxRecDepth 100000 in split_ifs <;> omega
  · rw [hsd, hsame, candidate_eq it.alphabet_ _ hA hidx']

theorem C13_plus_then_minus_witness :
    (2 ≤ (brute_iterator.mk 5 [48, 49] (List.replicate 128 7) 3).alphabet_.length
      ∧ (brute_iterator.mk 5 [48, 49] (List.replicate 128 7) 3).index_ < 2 ^ 128
      ∧ (brute_iterator.mk 5 [48, 49] (List.replicate 128 7) 3).indices_.length = 128
      ∧ -(2 ^ 127) ≤ (-9 : Int) ∧ (-9 : Int) < 2 ^ 127)
    ∧ ∃ sum, brute_iterator.operator_plus
          (brute_iterator.mk 5 [48, 49] (List.replicate 128 7) 3) (-9) = Except.ok sum
      ∧ brute_iterator.operator_minus sum
          (brute_iterator.mk 5 [48, 49] (List.replicate 128 7) 3) = -9
      ∧ brute_iterator.deref sum
        = candidate (brute_iterator.mk 5 [48, 49] (List.replicate 128 7) 3).alphabet_
            (((((brute_iterator.mk 5 [48, 49] (List.replicate 128 7) 3).index_ : Int)
              + (-9)) % 2 ^ 128).toNat) :=
  ⟨⟨by decide, by decide, by simp, by norm_num, by norm_num⟩,
    C13_plus_then_minus (brute_iterator.mk 5 [48, 49] (List.replicate 128 7) 3) (-9)
      (by decide) (by decide) (by simp) (by norm_num) (by norm_num)⟩

/-! ## The dictionary iterator -/

theorem find_line (l rest : List Nat) (first last : Nat) (hl : 10 ∉ l)
    (hlast : first + l.length < last) :
    find 10 last (l ++ 10 :: rest) first = Except.ok (first + l.length) := by
  induction l generalizing first with
  | nil =>
    have h0 : first ≠ last := by simp only [List.length_nil] at hlast; omega
    simp only [List.nil_append, find, List.length_nil, Nat.add_zero, if_neg h0, if_true]
    rfl
  | cons b bs ih =>
    simp only [List.length_cons] at hlast
    have hb : b ≠ 10 := fun h => hl (by rw [h]; exact List.mem_cons_self _ _)
    have hbs : 10 ∉ bs := fun h => hl (List.mem_cons_of_mem _ h)
    have h0 : first ≠ last := by omega
    have ih' := ih (first + 1) hbs (by omega)
    simp only [List.cons_append, find, List.length_cons, if_neg h0, if_neg hb]
    show find 10 last (bs ++ 10 :: rest) (first + 1) = _
    rw [ih']
    congr 1
    omega

theorem lines_span_length_ge (lines : List (List Nat)) :
    lines.length ≤ (spec.lines_span lines).length := by
  induction lines with
  | nil => simp [spec.lines_span]
  | cons l ls ih =>
    simp only [spec.lines_span, List.length_cons, List.length_append]
    omega

/-- The loop over a buffer that holds complete lines from the current position
on. -/
theorem dict_yield_from_lines (pre : List Nat) (lines : List (List Nat)) (rounds : Nat)
    (hl : ∀ l ∈ lines, 10 ∉ l) (hr : lines.length + 1 ≤ rounds) :
    dict_yield_from rounds
        ⟨pre ++ spec.lines_span lines, some pre.length,
          some (pre ++ spec.lines_span lines).length⟩
      = (lines, none) := by
  induction lines generalizing pre rounds with
  | nil =>
    obtain ⟨n, rfl⟩ : ∃ n, rounds = n + 1 := ⟨rounds - 1, by simp at hr; omega⟩
    simp [dict_yield_from, dict_iterator.operator_eq, dict_iterator.get_addr,
      dict_iterator.sentinel, spec.lines_span]
  | cons l ls ih =>
    obtain ⟨n, rfl⟩ : ∃ n, rounds = n + 1 := ⟨rounds - 1, by simp at hr; omega⟩
    have hl1 : 10 ∉ l := hl l (List.mem_cons_self _ _)
    have hne : ¬ (pre.length = (pre ++ spec.lines_span (l :: ls)).length) := by
      simp only [spec.lines_span, List.length_append, List.length_cons]
      omega
    have hfind : find 10 (pre ++ spec.lines_span (l :: ls)).length
        ((pre ++ spec.lines_span (l :: ls)).drop pre.length) pre.length
        = Except.ok (pre.length + l.length) := by
      rw [List.drop_left]
      exact find_line l _ _ _ hl1 (by
        simp only [spec.lines_span, List.length_append, List.length_cons]; omega)
    have hnext : pre ++ spec.lines_span (l :: ls) = (pre ++ l ++ [10]) ++ spec.lines_span ls := by
      simp [spec.lines_span]
    have hderef : dict_iterator.deref ⟨pre ++ spec.lines_span (l :: ls), some pre.length,
          some (pre ++ spec.lines_span (l :: ls)).length⟩ = Except.ok l := by
      simp only [dict_iterator.deref, Option.getD_some, hfind, bind, Except.bind, pure,
        Except.pure, Except.ok.injEq]
      rw [List.drop_left, Nat.add_sub_cancel_left]
      simp [spec.lines_span]
    have hinc : dict_iterator.increment ⟨pre ++ spec.lines_span (l :: ls), some pre.length,
          some (pre ++ spec.lines_span (l :: ls)).length⟩
        = Except.ok ⟨(pre ++ l ++ [10]) ++ spec.lines_span ls, some (pre ++ l ++ [10]).length,
            some ((pre ++ l ++ [10]) ++ spec.lines_span ls).length⟩ := by
      simp only [dict_iterator.increment, Option.getD_some, hfind, bind, Except.bind, pure,
        Except.pure, Except.ok.injEq]
      rw [← hnext]
      simp only [List.length_append, List.length_singleton, true_and, Option.some.injEq]
    have heq : dict_iterator.operator_eq ⟨pre ++ spec.lines_span (l :: ls), some pre.length,
          some (pre ++ spec.lines_span (l :: ls)).length⟩ dict_iterator.sentinel = false := by
      simp only [dict_iterator.operator_eq, dict_iterator.get_addr, dict_iterator.sentinel,
        Option.some.injEq, hne, if_false, if_true, decide_eq_false_iff_not]
      intro h; cases h
    rw [dict_yield_from, heq]
    simp only [Bool.false_eq_true, if_false, hderef, hinc]
    rw [ih (pre ++ l ++ [10]) n (fun x hx => hl x (List.mem_cons_of_mem _ hx))
      (by simp only [List.length_cons] at hr; omega)]

/-- Claim C14. For every byte span that is empty or ends with '\n', i.e. span =
l1 '\n' l2 '\n' ... lk '\n' with k >= 0 and no li containing '\n' (li may be
empty), iterating from dict_iterator(span) to the end sentinel dict_iterator()
yields exactly [l1, ..., lk] in order; an empty line yields an empty candidate,
and the empty span yields nothing. -/
theorem C14_dict_yields_lines (lines : List (List Nat)) (hl : ∀ l ∈ lines, 10 ∉ l) :
    dict_yield (spec.lines_span lines) = (lines, none) := by
  have := dict_yield_from_lines [] lines ((spec.lines_span lines).length + 1) hl
    (by have := lines_span_length_ge lines; omega)
  simpa [dict_yield, dict_iterator.mk_span] using this

theorem C14_dict_yields_lines_witness :
    (∀ l ∈ [[104, 105], [], [111, 107]], 10 ∉ l)
    ∧ dict_yield (spec.lines_span [[104, 105], [], [111, 107]])
        = ([[104, 105], [], [111, 107]], none) :=
  ⟨by decide, C14_dict_yields_lines [[104, 105], [], [111, 107]] (by decide)⟩

/-- Claim C15 fails on the code. On the span `a '\n' b c`, whose last byte is
not '\n', the iteration yields `a` and the final piece `b c`, and then the
increment leaves the position one past the span end (5, the end is 4): the
iterator does not compare equal to the end sentinel, the iteration goes on,
and the next dereference searches from beyond the span end. -/
theorem C15_unterminated_last_line_overruns :
    dict_yield [97, 10, 98, 99] = ([[97], [98, 99]], some Failure.out_of_bounds)
    ∧ dict_iterator.increment ⟨[97, 10, 98, 99], some 2, some 4⟩
        = Except.ok ⟨[97, 10, 98, 99], some 5, some 4⟩
    ∧ dict_iterator.operator_eq ⟨[97, 10, 98, 99], some 5, some 4⟩ dict_iterator.sentinel
        = false
    ∧ dict_iterator.deref ⟨[97, 10, 98, 99], some 5, some 4⟩
        = Except.error Failure.out_of_bounds := by
  decide


/-! ## Reading little-endian fields back -/

theorem le_bytes_length (w v : Nat) : (spec.le_bytes w v).length = w := by
  induction w generalizing v with
  | zero => rfl
  | succ n ih => simp only [spec.le_bytes, List.length_cons, ih]

theorem foldr_le_bytes (w v : Nat) :
    (spec.le_bytes w v).foldr (fun b acc => b + 256 * acc) 0 = v % 256 ^ w := by
  induction w generalizing v with
  | zero => simp [spec.le_bytes, Nat.mod_one]
  | succ n ih =>
    simp only [spec.le_bytes, List.foldr_cons, ih]
    rw [Nat.pow_succ, Nat.mul_comm (256 ^ n) 256, Nat.mod_mul]

theorem nativize_native (size input : Nat) : nativize endian.native size input = input := by
  simp [nativize, endian.native]

theorem align_le_bytes (w v : Nat) (rest : List Nat) (hv : v < 256 ^ w) :
    align w (spec.le_bytes w v ++ rest) = Except.ok v := by
  unfold align
  rw [read_span_append_left _ _ w (le_bytes_length w v)]
  simp only [bind, Except.bind, pure, Except.pure, foldr_le_bytes, Nat.mod_eq_of_lt hv]

theorem member_skip (a b : List Nat) (offset size : Nat) :
    member (a ++ b) (a.length + offset) size = member b offset size := by
  unfold member
  rw [← List.drop_drop, List.drop_left]

theorem member_skip_le (w v : Nat) (b : List Nat) (offset size : Nat) :
    member (spec.le_bytes w v ++ b) (w + offset) size = member b offset size := by
  have := member_skip (spec.le_bytes w v) b offset size
  rw [le_bytes_length] at this
  exact this

theorem member_le_bytes (w v : Nat) (rest : List Nat) (hv : v < 256 ^ w) :
    member (spec.le_bytes w v ++ rest) 0 w = Except.ok v := by
  unfold member
  rw [List.drop_zero]
  exact align_le_bytes w v rest hv

theorem field_le_bytes (w v : Nat) (rest : List Nat) (hv : v < 256 ^ w) :
    nativize endian.native w <$> member (spec.le_bytes w v ++ rest) 0 w = Except.ok v := by
  rw [member_le_bytes w v rest hv]
  simp only [Functor.map, Except.map, nativize_native]

/-! ## The extra-field chain -/

theorem sub_record_bytes_length (s : spec.sub_record) : s.bytes.length = 4 + s.data.length := by
  simp only [spec.sub_record.bytes, List.length_append, le_bytes_length]
  omega

theorem chain_bytes_length_ge (subs : List spec.sub_record) :
    subs.length ≤ (spec.chain_bytes subs).length := by
  induction subs with
  | nil => simp [spec.chain_bytes]
  | cons s ss ih =>
    simp only [spec.chain_bytes, List.length_cons, List.length_append, sub_record_bytes_length]
    omega

/-- The loop of `get_zip64_extra_field` over a well-formed chain that starts at
`i` and ends exactly at `e`. -/
theorem get_zip64_extra_field_loop_chain (self : List Nat) (subs : List spec.sub_record)
    (post : List Nat) (i rounds : Nat) (result : Option Nat)
    (hdrop : self.drop i = spec.chain_bytes subs ++ post)
    (hwf : ∀ s ∈ subs, s.well_formed) (hr : subs.length + 1 ≤ rounds) :
    local_file.get_zip64_extra_field_loop self (i + (spec.chain_bytes subs).length) rounds i result
      = Except.ok (spec.last_zip64 i subs result) := by
  induction subs generalizing i rounds result with
  | nil =>
    obtain ⟨n, rfl⟩ : ∃ n, rounds = n + 1 := ⟨rounds - 1, by simp at hr; omega⟩
    simp only [spec.chain_bytes, List.length_nil, Nat.add_zero,
      local_file.get_zip64_extra_field_loop, if_true, spec.last_zip64]
    rfl
  | cons s ss ih =>
    obtain ⟨n, rfl⟩ : ∃ n, rounds = n + 1 :=
      ⟨rounds - 1, by simp only [List.length_cons] at hr; omega⟩
    have hs := hwf s (List.mem_cons_self _ _)
    have hne : ¬ (i = i + (spec.chain_bytes (s :: ss)).length) := by
      simp only [spec.chain_bytes, List.length_append, sub_record_bytes_length]
      omega
    have hdrop2 : self.drop i = spec.le_bytes 2 s.header_id ++ (spec.le_bytes 2 s.data.length
        ++ (s.data ++ (spec.chain_bytes ss ++ post))) := by
      rw [hdrop]
      simp only [spec.chain_bytes, spec.sub_record.bytes, List.append_assoc]
    have hid : extra_field.header_id (self.drop i) = Except.ok s.header_id := by
      rw [hdrop2]
      exact field_le_bytes 2 _ _ hs.1
    have hsize : extra_field.size (self.drop i) = Except.ok s.data.length := by
      rw [hdrop2]
      unfold extra_field.size
      rw [show (2 : Nat) = 2 + 0 from rfl, member_skip_le]
      exact field_le_bytes 2 _ _ hs.2
    have hnext : self.drop (i + 4 + s.data.length) = spec.chain_bytes ss ++ post := by
      rw [Nat.add_assoc, ← List.drop_drop, hdrop]
      simp only [spec.chain_bytes, List.append_assoc]
      rw [← sub_record_bytes_length, List.drop_left]
    have he : i + (spec.chain_bytes (s :: ss)).length
        = (i + 4 + s.data.length) + (spec.chain_bytes ss).length := by
      simp only [spec.chain_bytes, List.length_append, sub_record_bytes_length]; omega
    have ih2 := ih (i + 4 + s.data.length) n
      (if s.header_id = 0x0001 then some (i + 4) else result) hnext
      (fun x hx => hwf x (List.mem_cons_of_mem _ hx))
      (by simp only [List.length_cons] at hr; omega)
    rw [local_file.get_zip64_extra_field_loop, if_neg hne]
    simp only [hid, hsize, bind, Except.bind, pure, Except.pure]
    rw [he, ih2]
    rfl

theorem last_zip64_none (i : Nat) (subs : List spec.sub_record) (result : Option Nat)
    (h : ∀ s ∈ subs, s.header_id ≠ 0x0001) : spec.last_zip64 i subs result = result := by
  induction subs generalizing i result with
  | nil => rfl
  | cons s ss ih =>
    rw [spec.last_zip64, if_neg (h s (List.mem_cons_self _ _)),
      ih _ _ (fun x hx => h x (List.mem_cons_of_mem _ hx))]

theorem last_zip64_one (i : Nat) (before after : List spec.sub_record) (z : spec.sub_record)
    (result : Option Nat) (hz : z.header_id = 0x0001)
    (hafter : ∀ s ∈ after, s.header_id ≠ 0x0001) :
    spec.last_zip64 i (before ++ z :: after) result
      = some (i + (spec.chain_bytes before).length + 4) := by
  induction before generalizing i result with
  | nil =>
    rw [List.nil_append, spec.last_zip64, if_pos hz, last_zip64_none _ _ _ hafter]
    rfl
  | cons s ss ih =>
    rw [List.cons_append, spec.last_zip64, ih]
    simp only [spec.chain_bytes, List.length_append, sub_record_bytes_length]
    congr 1
    omega

theorem chain_bytes_append (a b : List spec.sub_record) :
    spec.chain_bytes (a ++ b) = spec.chain_bytes a ++ spec.chain_bytes b := by
  induction a with
  | nil => rfl
  | cons s ss ih =>
    show spec.chain_bytes (s :: (ss ++ b)) = _
    simp only [spec.chain_bytes, ih, List.append_assoc]

/-- The private `get_zip64_extra_field()` of a header whose extra field is a
well-formed chain. -/
theorem get_zip64_extra_field_chain (self : List Nat) (fnl : Nat) (subs : List spec.sub_record)
    (rest : List Nat)
    (hfnl : local_file.file_name_length self = Except.ok fnl)
    (hefl : local_file.extra_field_length self = Except.ok (spec.chain_bytes subs).length)
    (hdrop : self.drop (30 + fnl) = spec.chain_bytes subs ++ rest)
    (hwf : ∀ s ∈ subs, s.well_formed) :
    local_file.get_zip64_extra_field self
      = match spec.last_zip64 (30 + fnl) subs none with
        | none => Except.error (Failure.runtime_error "attempt to get non-existent zip64 data")
        | some result => Except.ok result := by
  have hlen : subs.length + 1 ≤ self.length + 1 := by
    have h1 := chain_bytes_length_ge subs
    have h2 : (self.drop (30 + fnl)).length = (spec.chain_bytes subs).length + rest.length := by
      rw [hdrop, List.length_append]
    rw [List.length_drop] at h2
    omega
  unfold local_file.get_zip64_extra_field
  simp only [hfnl, hefl, bind, Except.bind, local_file.sizeof]
  rw [get_zip64_extra_field_loop_chain self subs rest (30 + fnl) _ none hdrop hwf hlen]
  cases spec.last_zip64 (30 + fnl) subs none <;> rfl

theorem is_zip64_of_raw (self : List Nat) (cr ur : Nat)
    (hc : local_file.raw_compressed_size self = Except.ok cr)
    (hu : local_file.raw_uncompressed_size self = Except.ok ur) :
    local_file.is_zip64 self = Except.ok (decide (cr = 0xffffffff ∧ ur = 0xffffffff)) := by
  unfold local_file.is_zip64
  simp only [hc, hu, bind, Except.bind, pure, Except.pure]
  by_cases h1 : cr = 0xffffffff
  · simp [h1]
  · simp [h1]

/-- The accessor `compressed_size()` when the raw sizes are not both the
sentinel. -/
theorem compressed_size_of_raw (self : List Nat) (cr ur : Nat)
    (hc : local_file.raw_compressed_size self = Except.ok cr)
    (hu : local_file.raw_uncompressed_size self = Except.ok ur)
    (hn : ¬ (cr = 0xffffffff ∧ ur = 0xffffffff)) :
    local_file.compressed_size self = Except.ok cr := by
  unfold local_file.compressed_size
  simp only [hc, is_zip64_of_raw self cr ur hc hu, bind, Except.bind, hn, decide_False]
  rfl

/-- The accessor `compressed_size()` when the raw sizes are both the sentinel. -/
theorem compressed_size_of_sentinel (self : List Nat)
    (hc : local_file.raw_compressed_size self = Except.ok 0xffffffff)
    (hu : local_file.raw_uncompressed_size self = Except.ok 0xffffffff) :
    local_file.compressed_size self
      = local_file.get_zip64_extra_field self >>= fun g =>
          zip64_extra_field.compressed_size (self.drop g) := by
  unfold local_file.compressed_size
  simp only [hc, is_zip64_of_raw self _ _ hc hu, bind, Except.bind, and_self, decide_True]
  rfl

/-- The first part of `uncompressed_size()`, before the data descriptor is
looked at, when the raw sizes are both the sentinel. -/
theorem uncompressed_size_of_sentinel_error (self : List Nat) (f : Failure)
    (hc : local_file.raw_compressed_size self = Except.ok 0xffffffff)
    (hu : local_file.raw_uncompressed_size self = Except.ok 0xffffffff)
    (hg : local_file.get_zip64_extra_field self = Except.error f) :
    local_file.uncompressed_size self = Except.error f := by
  unfold local_file.uncompressed_size
  simp only [hu, is_zip64_of_raw self _ _ hc hu, hg, bind, Except.bind, and_self, decide_True]
  rfl

/-- The private `get_zip64_extra_field()` throws on a well-formed chain without
a sub-record of header id 0x0001. -/
theorem get_zip64_extra_field_throws (self : List Nat) (fnl : Nat) (subs : List spec.sub_record)
    (rest : List Nat)
    (hfnl : local_file.file_name_length self = Except.ok fnl)
    (hefl : local_file.extra_field_length self = Except.ok (spec.chain_bytes subs).length)
    (hdrop : self.drop (30 + fnl) = spec.chain_bytes subs ++ rest)
    (hwf : ∀ s ∈ subs, s.well_formed) (hno : ∀ s ∈ subs, s.header_id ≠ 0x0001) :
    local_file.get_zip64_extra_field self
      = Except.error (Failure.runtime_error "attempt to get non-existent zip64 data") := by
  rw [get_zip64_extra_field_chain self fnl subs rest hfnl hefl hdrop hwf,
    last_zip64_none _ _ _ hno]

/-- The private `get_zip64_extra_field()` on a well-formed chain whose last
sub-record of header id 0x0001 is `z`: the offset of the data of `z`. -/
theorem get_zip64_extra_field_finds (self : List Nat) (fnl : Nat)
    (before after : List spec.sub_record) (z : spec.sub_record) (rest : List Nat)
    (hfnl : local_file.file_name_length self = Except.ok fnl)
    (hefl : local_file.extra_field_length self
      = Except.ok (spec.chain_bytes (before ++ z :: after)).length)
    (hdrop : self.drop (30 + fnl) = spec.chain_bytes (before ++ z :: after) ++ rest)
    (hwf : ∀ s ∈ before ++ z :: after, s.well_formed) (hz : z.header_id = 0x0001)
    (hafter : ∀ s ∈ after, s.header_id ≠ 0x0001) :
    local_file.get_zip64_extra_field self
      = Except.ok (30 + fnl + (spec.chain_bytes before).length + 4)
    ∧ self.drop (30 + fnl + (spec.chain_bytes before).length + 4)
      = z.data ++ (spec.chain_bytes after ++ rest) := by
  constructor
  · rw [get_zip64_extra_field_chain self fnl _ rest hfnl hefl hdrop hwf,
      last_zip64_one _ _ _ _ _ hz hafter]
  · rw [Nat.add_assoc (30 + fnl), ← List.drop_drop, hdrop, chain_bytes_append,
      List.append_assoc, ← List.drop_drop, List.drop_left]
    simp only [spec.chain_bytes, spec.sub_record.bytes, List.append_assoc]
    rw [show (4 : Nat) = 2 + 2 from rfl, ← List.drop_drop]
    have h2 (v : Nat) (l : List Nat) : (spec.le_bytes 2 v ++ l).drop 2 = l := by
      have := List.drop_left (spec.le_bytes 2 v) l
      rwa [le_bytes_length] at this
    rw [h2, h2]

/-- The two fields of a zip64 extra field read back. -/
theorem zip64_extra_field_le_bytes (u c : Nat) (more : List Nat) (hu : u < 2 ^ 64)
    (hc : c < 2 ^ 64) :
    zip64_extra_field.uncompressed_size (spec.le_bytes 8 u ++ (spec.le_bytes 8 c ++ more))
      = Except.ok u
    ∧ zip64_extra_field.compressed_size (spec.le_bytes 8 u ++ (spec.le_bytes 8 c ++ more))
      = Except.ok c := by
  constructor
  · exact field_le_bytes 8 u _ (by norm_num; exact hu)
  · unfold zip64_extra_field.compressed_size
    rw [show (8 : Nat) = 8 + 0 from rfl, member_skip_le]
    exact field_le_bytes 8 c _ (by norm_num; exact hc)

/-- The accessor `uncompressed_size()` of a header without data descriptor. -/
theorem uncompressed_size_without_descriptor (self : List Nat) (cr ur : Nat)
    (hc : local_file.raw_compressed_size self = Except.ok cr)
    (hu : local_file.raw_uncompressed_size self = Except.ok ur)
    (hd : local_file.has_data_descriptor self = Except.ok false) :
    local_file.uncompressed_size self
      = if cr = 0xffffffff ∧ ur = 0xffffffff then
          local_file.get_zip64_extra_field self >>= fun g =>
            zip64_extra_field.uncompressed_size (self.drop g)
        else Except.ok ur := by
  unfold local_file.uncompressed_size
  simp only [hu, is_zip64_of_raw self cr ur hc hu, hd, bind, Except.bind, pure, Except.pure]
  by_cases h : cr = 0xffffffff ∧ ur = 0xffffffff
  · simp only [h, and_self, decide_True, if_true]
    cases local_file.get_zip64_extra_field self with
    | error f => rfl
    | ok g =>
      simp only []
      cases zip64_extra_field.uncompressed_size (List.drop g self) <;> rfl
  · simp only [h, decide_False, if_false]
    rfl

/-- Claim C20. For every local-file header whose raw compressed and uncompressed
sizes are both 0xFFFFFFFF and whose extra field is a well-formed, possibly
empty, chain of sub-records that ends exactly at the extra-field end and has no
sub-record of header id 0x0001, `compressed_size()` and `uncompressed_size()`
both throw the runtime error of `get_zip64_extra_field` instead of returning a
value, whatever the flags are. -/
theorem C20_sentinel_sizes_without_zip64_sub_record_throw (self : List Nat) (fnl : Nat)
    (subs : List spec.sub_record) (rest : List Nat)
    (hc : local_file.raw_compressed_size self = Except.ok 0xffffffff)
    (hu : local_file.raw_uncompressed_size self = Except.ok 0xffffffff)
    (hfnl : local_file.file_name_length self = Except.ok fnl)
    (hefl : local_file.extra_field_length self = Except.ok (spec.chain_bytes subs).length)
    (hdrop : self.drop (30 + fnl) = spec.chain_bytes subs ++ rest)
    (hwf : ∀ s ∈ subs, s.well_formed) (hno : ∀ s ∈ subs, s.header_id ≠ 0x0001) :
    local_file.compressed_size self
      = Except.error (Failure.runtime_error "attempt to get non-existent zip64 data")
    ∧ local_file.uncompressed_size self
      = Except.error (Failure.runtime_error "attempt to get non-existent zip64 data") := by
  have hg := get_zip64_extra_field_throws self fnl subs rest hfnl hefl hdrop hwf hno
  constructor
  · rw [compressed_size_of_sentinel self hc hu, hg]
    rfl
  · exact uncompressed_size_of_sentinel_error self _ hc hu hg

theorem C20_sentinel_sizes_without_zip64_sub_record_throw_witness :
    (local_file.raw_compressed_size archive_zip64_other_sub_record = Except.ok 0xffffffff
      ∧ local_file.raw_uncompressed_size archive_zip64_other_sub_record = Except.ok 0xffffffff
      ∧ local_file.file_name_length archive_zip64_other_sub_record = Except.ok 1
      ∧ local_file.extra_field_length archive_zip64_other_sub_record
        = Except.ok (spec.chain_bytes [⟨0x5455, [1, 2, 3]⟩]).length
      ∧ archive_zip64_other_sub_record.drop (30 + 1)
        = spec.chain_bytes [⟨0x5455, [1, 2, 3]⟩] ++ [7]
      ∧ (∀ s ∈ [(⟨0x5455, [1, 2, 3]⟩ : spec.sub_record)], s.well_formed)
      ∧ (∀ s ∈ [(⟨0x5455, [1, 2, 3]⟩ : spec.sub_record)], s.header_id ≠ 0x0001))
    ∧ local_file.compressed_size archive_zip64_other_sub_record
      = Except.error (Failure.runtime_error "attempt to get non-existent zip64 data")
    ∧ local_file.uncompressed_size archive_zip64_other_sub_record
      = Except.error (Failure.runtime_error "attempt to get non-existent zip64 data") :=
  ⟨⟨by decide, by decide, by decide, by decide, by decide, by decide, by decide⟩,
    C20_sentinel_sizes_without_zip64_sub_record_throw archive_zip64_other_sub_record 1
      [⟨0x5455, [1, 2, 3]⟩] [7] (by decide) (by decide) (by decide) (by decide) (by decide)
      (by decide) (by decide)⟩

/-- Claim C17. For every local-file header: when the raw compressed and
uncompressed sizes are not both 0xFFFFFFFF, `compressed_size()` returns the raw
compressed size and, with flag bit 3 clear, `uncompressed_size()` returns the
raw uncompressed size, whatever the extra field holds. When both are
0xFFFFFFFF and the extra field is a well-formed chain of sub-records that ends
exactly at the extra-field end and has exactly one sub-record of header id
0x0001, at any position, whose data starts with the little-endian u64 `u` and
then the little-endian u64 `c`, `compressed_size()` returns `c` and, with flag
bit 3 clear, `uncompressed_size()` returns `u`. -/
theorem C17_effective_sizes (self : List Nat) (cr ur : Nat)
    (hc : local_file.raw_compressed_size self = Except.ok cr)
    (hu : local_file.raw_uncompressed_size self = Except.ok ur) :
    (¬ (cr = 0xffffffff ∧ ur = 0xffffffff) →
      local_file.compressed_size self = Except.ok cr
      ∧ (local_file.has_data_descriptor self = Except.ok false →
          local_file.uncompressed_size self = Except.ok ur))
    ∧ (cr = 0xffffffff ∧ ur = 0xffffffff →
      ∀ (fnl : Nat) (before after : List spec.sub_record) (z : spec.sub_record)
        (u c : Nat) (more rest : List Nat),
        local_file.file_name_length self = Except.ok fnl →
        local_file.extra_field_length self
          = Except.ok (spec.chain_bytes (before ++ z :: after)).length →
        self.drop (30 + fnl) = spec.chain_bytes (before ++ z :: after) ++ rest →
        (∀ s ∈ before ++ z :: after, s.well_formed) →
        z.header_id = 0x0001 → (∀ s ∈ before ++ after, s.header_id ≠ 0x0001) →
        z.data = spec.le_bytes 8 u ++ (spec.le_bytes 8 c ++ more) → u < 2 ^ 64 → c < 2 ^ 64 →
        local_file.compressed_size self = Except.ok c
        ∧ (local_file.has_data_descriptor self = Except.ok false →
            local_file.uncompressed_size self = Except.ok u)) := by
  constructor
  · intro hn
    refine ⟨compressed_size_of_raw self cr ur hc hu hn, fun hd => ?_⟩
    rw [uncompressed_size_without_descriptor self cr ur hc hu hd, if_neg hn]
  · rintro ⟨rfl, rfl⟩ fnl before after z u c more rest hfnl hefl hdrop hwf hz hno hdata hu64
      hc64
    obtain ⟨hg, hgd⟩ := get_zip64_extra_field_finds self fnl before after z rest hfnl hefl
      hdrop hwf hz (fun s hs => hno s (List.mem_append_right _ hs))
    rw [hdata, List.append_assoc, List.append_assoc] at hgd
    obtain ⟨hzu, hzc⟩ := zip64_extra_field_le_bytes u c (more ++ (spec.chain_bytes after ++ rest))
      hu64 hc64
    refine ⟨?_, fun hd => ?_⟩
    · rw [compressed_size_of_sentinel self hc hu, hg]
      show zip64_extra_field.compressed_size _ = _
      rw [hgd, hzc]
    · rw [uncompressed_size_without_descriptor self _ _ hc hu hd, if_pos ⟨rfl, rfl⟩, hg]
      show zip64_extra_field.uncompressed_size _ = _
      rw [hgd, hzu]

theorem C17_effective_sizes_witness :
    ((local_file.raw_compressed_size archive_stored_hi = Except.ok 14
        ∧ local_file.raw_uncompressed_size archive_stored_hi = Except.ok 2)
      ∧ (local_file.raw_compressed_size archive_zip64_chain = Except.ok 0xffffffff
        ∧ local_file.raw_uncompressed_size archive_zip64_chain = Except.ok 0xffffffff))
    ∧ (local_file.compressed_size archive_stored_hi = Except.ok 14
      ∧ local_file.uncompressed_size archive_stored_hi = Except.ok 2)
    ∧ (local_file.compressed_size archive_zip64_chain = Except.ok 26
      ∧ local_file.uncompressed_size archive_zip64_chain = Except.ok 45) :=
  ⟨⟨⟨by decide, by decide⟩, ⟨by decide, by decide⟩⟩,
    ⟨((C17_effective_sizes archive_stored_hi 14 2 (by decide) (by decide)).1 (by decide)).1,
      ((C17_effective_sizes archive_stored_hi 14 2 (by decide) (by decide)).1 (by decide)).2
        (by decide)⟩,
    ⟨((C17_effective_sizes archive_zip64_chain 0xffffffff 0xffffffff (by decide) (by decide)).2
        ⟨rfl, rfl⟩ 1 [⟨0x5455, [9]⟩] [⟨0x7875, []⟩] ⟨0x0001, spec.le_bytes 8 45 ++ spec.le_bytes 8 26⟩
        45 26 [] [7, 7] (by decide) (by decide) (by decide) (by decide) (by decide) (by decide)
        (by decide) (by decide) (by decide)).1,
      ((C17_effective_sizes archive_zip64_chain 0xffffffff 0xffffffff (by decide) (by decide)).2
        ⟨rfl, rfl⟩ 1 [⟨0x5455, [9]⟩] [⟨0x7875, []⟩] ⟨0x0001, spec.le_bytes 8 45 ++ spec.le_bytes 8 26⟩
        45 26 [] [7, 7] (by decide) (by decide) (by decide) (by decide) (by decide) (by decide)
        (by decide) (by decide) (by decide)).2 (by decide)⟩⟩

/-! ## The data descriptor -/

theorem member_of_le (self : List Nat) (offset size : Nat) (h : offset + size ≤ self.length) :
    ∃ v, member self offset size = Except.ok v := by
  unfold member align read_span
  rw [if_pos (by rw [List.length_drop]; omega)]
  exact ⟨_, rfl⟩

theorem field_of_le (self : List Nat) (offset size : Nat) (h : offset + size ≤ self.length) :
    ∃ v, nativize endian.native size <$> member self offset size = Except.ok v := by
  obtain ⟨v, hv⟩ := member_of_le self offset size h
  exact ⟨_, by rw [hv]; rfl⟩

theorem field_ok {self : List Nat} {offset size v : Nat} (hs : 0 < size)
    (h : nativize endian.native size <$> member self offset size = Except.ok v) :
    offset + size ≤ self.length := by
  obtain ⟨a, ha, _⟩ := map_ok h
  exact member_ok hs ha

/-- The member `visit_data_descriptor`: where the descriptor is and how wide its
size members are. -/
theorem visit_data_descriptor_eq (self : List Nat) (fnl efl cs m cr ur : Nat)
    (hfnl : local_file.file_name_length self = Except.ok fnl)
    (hefl : local_file.extra_field_length self = Except.ok efl)
    (hcs : local_file.compressed_size self = Except.ok cs)
    (hc : local_file.raw_compressed_size self = Except.ok cr)
    (hu : local_file.raw_uncompressed_size self = Except.ok ur)
    (hm : align 4 (self.drop (30 + fnl + efl + cs)) = Except.ok m) :
    local_file.visit_data_descriptor self
      = Except.ok (spec.descriptor_offset (30 + fnl + efl + cs) m,
          if cr = 0xffffffff ∧ ur = 0xffffffff then 8 else 4) := by
  unfold local_file.visit_data_descriptor
  simp only [hfnl, hefl, hcs, hm, is_zip64_of_raw self cr ur hc hu, bind, Except.bind, pure,
    Except.pure, local_file.sizeof, nativize_native, spec.descriptor_offset,
    data_descriptor_magic]
  by_cases h : cr = 0xffffffff ∧ ur = 0xffffffff
  · simp only [h, and_self, decide_True, if_true]
  · simp only [h, decide_False, if_false]
    rfl

/-- Claim C18. For every local-file record with flag bit 3 set, let
`P = 30 + file_name_length + extra_field_length + compressed_size()` be the
offset just after the payload, `m` the little-endian u32 at `P`, and `Q = P + 4`
if `m` is 0x08074B50, otherwise `Q = P`. Then `uncompressed_crc32()` is the u32
at `Q`, not the crc field of the header, and `uncompressed_size()` is the u32 at
`Q + 8` when the raw sizes are not both 0xFFFFFFFF and the u64 at `Q + 12` when
they are. -/
theorem C18_data_descriptor_fields (self : List Nat) (fnl efl cs m cr ur : Nat)
    (hd : local_file.has_data_descriptor self = Except.ok true)
    (hfnl : local_file.file_name_length self = Except.ok fnl)
    (hefl : local_file.extra_field_length self = Except.ok efl)
    (hcs : local_file.compressed_size self = Except.ok cs)
    (hc : local_file.raw_compressed_size self = Except.ok cr)
    (hu : local_file.raw_uncompressed_size self = Except.ok ur)
    (hm : align 4 (self.drop (30 + fnl + efl + cs)) = Except.ok m) :
    local_file.uncompressed_crc32 self
      = align 4 (self.drop (spec.descriptor_offset (30 + fnl + efl + cs) m))
    ∧ local_file.uncompressed_size self
      = if cr = 0xffffffff ∧ ur = 0xffffffff then
          align 8 (self.drop (spec.descriptor_offset (30 + fnl + efl + cs) m + 12))
        else align 4 (self.drop (spec.descriptor_offset (30 + fnl + efl + cs) m + 8)) := by
  have hv := visit_data_descriptor_eq self fnl efl cs m cr ur hfnl hefl hcs hc hu hm
  have hlen : 28 ≤ self.length := field_ok (by decide) hfnl
  constructor
  · obtain ⟨crc, hcrc⟩ := field_of_le self 14 4 (by omega)
    unfold local_file.uncompressed_crc32
    rw [show local_file.raw_uncompressed_crc32 self = Except.ok crc from hcrc]
    simp only [hd, hv, bind, Except.bind, if_true]
    unfold member
    rw [List.drop_zero]
  · unfold local_file.uncompressed_size
    by_cases h : cr = 0xffffffff ∧ ur = 0xffffffff
    · obtain ⟨rfl, rfl⟩ := h
      rw [compressed_size_of_sentinel self hc hu] at hcs
      obtain ⟨g, hg, hzc⟩ := bind_ok hcs
      have hglen : 8 + 8 ≤ (self.drop g).length := field_ok (by decide) hzc
      obtain ⟨zu, hzu⟩ := field_of_le (self.drop g) 0 8 (by omega)
      have hzu2 : zip64_extra_field.uncompressed_size (self.drop g) = Except.ok zu := hzu
      simp only [hu, is_zip64_of_raw self _ _ hc hu, hg, hzu2, hd, hv, bind, Except.bind,
        and_self, decide_True, if_true]
      unfold member
      rw [List.drop_drop]
    · simp only [hu, is_zip64_of_raw self _ _ hc hu, hd, hv, bind, Except.bind, h,
        decide_False, if_false, pure, Except.pure, Bool.false_eq_true, if_true]
      unfold member
      rw [List.drop_drop]

theorem C18_data_descriptor_fields_witness :
    ((local_file.has_data_descriptor archive_descriptor32 = Except.ok true
        ∧ local_file.file_name_length archive_descriptor32 = Except.ok 1
        ∧ local_file.extra_field_length archive_descriptor32 = Except.ok 0
        ∧ local_file.compressed_size archive_descriptor32 = Except.ok 2
        ∧ local_file.raw_compressed_size archive_descriptor32 = Except.ok 2
        ∧ local_file.raw_uncompressed_size archive_descriptor32 = Except.ok 0
        ∧ align 4 (archive_descriptor32.drop (30 + 1 + 0 + 2)) = Except.ok 0x08074B50)
      ∧ (local_file.has_data_descriptor archive_descriptor64 = Except.ok true
        ∧ local_file.file_name_length archive_descriptor64 = Except.ok 1
        ∧ local_file.extra_field_length archive_descriptor64 = Except.ok 20
        ∧ local_file.compressed_size archive_descriptor64 = Except.ok 2
        ∧ local_file.raw_compressed_size archive_descriptor64 = Except.ok 0xffffffff
        ∧ local_file.raw_uncompressed_size archive_descriptor64 = Except.ok 0xffffffff
        ∧ align 4 (archive_descriptor64.drop (30 + 1 + 20 + 2)) = Except.ok 0x04030201))
    ∧ (local_file.uncompressed_crc32 archive_descriptor32
        = align 4 (archive_descriptor32.drop (spec.descriptor_offset (30 + 1 + 0 + 2) 0x08074B50))
      ∧ local_file.uncompressed_size archive_descriptor32
        = if (2 : Nat) = 0xffffffff ∧ (0 : Nat) = 0xffffffff then
            align 8 (archive_descriptor32.drop
              (spec.descriptor_offset (30 + 1 + 0 + 2) 0x08074B50 + 12))
          else align 4 (archive_descriptor32.drop
              (spec.descriptor_offset (30 + 1 + 0 + 2) 0x08074B50 + 8)))
    ∧ (local_file.uncompressed_crc32 archive_descriptor64
        = align 4 (archive_descriptor64.drop (spec.descriptor_offset (30 + 1 + 20 + 2) 0x04030201))
      ∧ local_file.uncompressed_size archive_descriptor64
        = if (0xffffffff : Nat) = 0xffffffff ∧ (0xffffffff : Nat) = 0xffffffff then
            align 8 (archive_descriptor64.drop
              (spec.descriptor_offset (30 + 1 + 20 + 2) 0x04030201 + 12))
          else align 4 (archive_descriptor64.drop
              (spec.descriptor_offset (30 + 1 + 20 + 2) 0x04030201 + 8))) :=
  ⟨⟨⟨by decide, by decide, by decide, by decide, by decide, by decide, by decide⟩,
      ⟨by decide, by decide, by decide, by decide, by decide, by decide, by decide⟩⟩,
    C18_data_descriptor_fields archive_descriptor32 1 0 2 0x08074B50 2 0 (by decide) (by decide)
      (by decide) (by decide) (by decide) (by decide) (by decide),
    C18_data_descriptor_fields archive_descriptor64 1 20 2 0x04030201 0xffffffff 0xffffffff
      (by decide) (by decide) (by decide) (by decide) (by decide) (by decide) (by decide)⟩

/-! ## Records read back through the accessors -/

theorem drop_le_bytes (w v k : Nat) (l : List Nat) :
    (spec.le_bytes w v ++ l).drop (w + k) = l.drop k := by
  rw [← List.drop_drop]
  have := List.drop_left (spec.le_bytes w v) l
  rw [le_bytes_length] at this
  rw [this]

theorem record_signature (r : spec.record) (tail : List Nat) :
    local_file.signature (r.bytes ++ tail) = Except.ok local_file_header_magic := by
  unfold local_file.signature
  simp only [spec.record.bytes, List.append_assoc]
  exact field_le_bytes 4 _ _ (by norm_num)

theorem record_flags (r : spec.record) (tail : List Nat) (h : r.gp_flags < 2 ^ 16) :
    local_file.general_purpose_bit_flags (r.bytes ++ tail) = Except.ok r.gp_flags := by
  unfold local_file.general_purpose_bit_flags
  simp only [spec.record.bytes, List.append_assoc]
  rw [show (6 : Nat) = 4 + (2 + 0) from rfl, member_skip_le, member_skip_le]
  exact field_le_bytes 2 _ _ h

theorem record_raw_compressed_size (r : spec.record) (tail : List Nat)
    (h : r.compressed_size_raw < 2 ^ 32) :
    local_file.raw_compressed_size (r.bytes ++ tail) = Except.ok r.compressed_size_raw := by
  unfold local_file.raw_compressed_size
  simp only [spec.record.bytes, List.append_assoc]
  rw [show (18 : Nat) = 4 + (2 + (2 + (2 + (2 + (2 + (4 + 0)))))) from rfl]
  iterate 7 rw [member_skip_le]
  exact field_le_bytes 4 _ _ h

theorem record_raw_uncompressed_size (r : spec.record) (tail : List Nat)
    (h : r.uncompressed_size_raw < 2 ^ 32) :
    local_file.raw_uncompressed_size (r.bytes ++ tail) = Except.ok r.uncompressed_size_raw := by
  unfold local_file.raw_uncompressed_size
  simp only [spec.record.bytes, List.append_assoc]
  rw [show (22 : Nat) = 4 + (2 + (2 + (2 + (2 + (2 + (4 + (4 + 0))))))) from rfl]
  iterate 8 rw [member_skip_le]
  exact field_le_bytes 4 _ _ h

theorem record_file_name_length (r : spec.record) (tail : List Nat)
    (h : r.name.length < 2 ^ 16) :
    local_file.file_name_length (r.bytes ++ tail) = Except.ok r.name.length := by
  unfold local_file.file_name_length
  simp only [spec.record.bytes, List.append_assoc]
  rw [show (26 : Nat) = 4 + (2 + (2 + (2 + (2 + (2 + (4 + (4 + (4 + 0)))))))) from rfl]
  iterate 9 rw [member_skip_le]
  exact field_le_bytes 2 _ _ h

theorem record_extra_field_length (r : spec.record) (tail : List Nat)
    (h : r.extra.length < 2 ^ 16) :
    local_file.extra_field_length (r.bytes ++ tail) = Except.ok r.extra.length := by
  unfold local_file.extra_field_length
  simp only [spec.record.bytes, List.append_assoc]
  rw [show (28 : Nat) = 4 + (2 + (2 + (2 + (2 + (2 + (4 + (4 + (4 + (2 + 0))))))))) from rfl]
  iterate 10 rw [member_skip_le]
  exact field_le_bytes 2 _ _ h

theorem record_drop_header (r : spec.record) (tail : List Nat) :
    (r.bytes ++ tail).drop 30 = r.name ++ (r.extra ++ (r.payload ++ tail)) := by
  simp only [spec.record.bytes, List.append_assoc]
  rw [show (30 : Nat) = 4 + (2 + (2 + (2 + (2 + (2 + (4 + (4 + (4 + (2 + (2 + 0))))))))))
    from rfl]
  iterate 11 rw [drop_le_bytes]
  rfl

theorem record_bytes_length (r : spec.record) :
    r.bytes.length = 30 + r.name.length + r.extra.length + r.payload.length := by
  simp only [spec.record.bytes, List.length_append, le_bytes_length]
  omega

/-- Claim C19 does not hold as stated. The streamed record `hi` has flag bit 3
set, a zero compressed size in its header, two payload bytes and then a data
descriptor whose compressed_size field is 2: `compressed_size()` returns the 0
of the header, not the 2 of the trailing descriptor. The descriptor that
`visit_data_descriptor` itself locates from that size (offset 30, no signature
there) has a compressed_size member different from 0 as well. -/
theorem C19_counterexample_streamed_record :
    archive_streamed_hi
      = [80, 75, 3, 4, 20, 0, 8, 0, 0, 0, 0, 0, 0, 0, 0, 0, 0, 0, 0, 0, 0, 0, 0, 0, 0, 0, 0, 0,
         0, 0, 104, 105, 80, 75, 7, 8, 172, 42, 147, 216, 2, 0, 0, 0, 2, 0, 0, 0]
    ∧ local_file.has_data_descriptor archive_streamed_hi = Except.ok true
    ∧ local_file.compressed_size archive_streamed_hi = Except.ok 0
    ∧ archive_streamed_hi.drop (30 + 2)
      = spec.le_bytes 4 0x08074B50 ++ (spec.le_bytes 4 0xD8932AAC ++ (spec.le_bytes 4 2
          ++ spec.le_bytes 4 2))
    ∧ local_file.compressed_size archive_streamed_hi ≠ Except.ok 2
    ∧ local_file.visit_data_descriptor archive_streamed_hi = Except.ok (30, 4)
    ∧ member (archive_streamed_hi.drop 30) 4 4 = Except.ok 715917319 := by
  decide

/-- Claim C19, amended. For every local-file record with flag bit 3 set,
whatever payload, data descriptor and further bytes follow its extra field,
`compressed_size()` is the compressed size of the header when the raw sizes are
not both 0xFFFFFFFF, and otherwise the second little-endian u64 of the one
sub-record of header id 0x0001 of a well-formed extra-field chain: the trailing
data descriptor is not consulted. -/
theorem C19_compressed_size_ignores_descriptor (r : spec.record) (tail : List Nat)
    (hflags : r.gp_flags < 2 ^ 16) (hbit : r.gp_flags &&& 0x08 ≠ 0)
    (hcr : r.compressed_size_raw < 2 ^ 32) (hur : r.uncompressed_size_raw < 2 ^ 32)
    (hname : r.name.length < 2 ^ 16) (hextra : r.extra.length < 2 ^ 16) :
    local_file.has_data_descriptor (r.bytes ++ tail) = Except.ok true
    ∧ (¬ (r.compressed_size_raw = 0xffffffff ∧ r.uncompressed_size_raw = 0xffffffff) →
        local_file.compressed_size (r.bytes ++ tail) = Except.ok r.compressed_size_raw)
    ∧ (r.compressed_size_raw = 0xffffffff ∧ r.uncompressed_size_raw = 0xffffffff →
        ∀ (before after : List spec.sub_record) (z : spec.sub_record) (u c : Nat)
          (more : List Nat),
          r.extra = spec.chain_bytes (before ++ z :: after) →
          (∀ s ∈ before ++ z :: after, s.well_formed) →
          z.header_id = 0x0001 → (∀ s ∈ before ++ after, s.header_id ≠ 0x0001) →
          z.data = spec.le_bytes 8 u ++ (spec.le_bytes 8 c ++ more) → u < 2 ^ 64 → c < 2 ^ 64 →
          local_file.compressed_size (r.bytes ++ tail) = Except.ok c) := by
  have hc := record_raw_compressed_size r tail hcr
  have hu := record_raw_uncompressed_size r tail hur
  refine ⟨?_, fun hn => compressed_size_of_raw _ _ _ hc hu hn, ?_⟩
  · unfold local_file.has_data_descriptor
    simp only [record_flags r tail hflags, bind, Except.bind, pure, Except.pure, hbit, ne_eq,
      not_false_eq_true, decide_True]
  · rintro ⟨h1, h2⟩ before after z u c more hchain hwf hz hno hdata hu64 hc64
    rw [h1] at hc
    rw [h2] at hu
    have hdrop : (r.bytes ++ tail).drop (30 + r.name.length)
        = spec.chain_bytes (before ++ z :: after) ++ (r.payload ++ tail) := by
      rw [← List.drop_drop, record_drop_header, List.drop_left, hchain]
    obtain ⟨hg, hgd⟩ := get_zip64_extra_field_finds (r.bytes ++ tail) r.name.length before after
      z (r.payload ++ tail) (record_file_name_length r tail hname)
      (by rw [record_extra_field_length r tail hextra, hchain]) hdrop hwf hz
      (fun s hs => hno s (List.mem_append_right _ hs))
    rw [hdata, List.append_assoc, List.append_assoc] at hgd
    rw [compressed_size_of_sentinel _ hc hu, hg]
    show zip64_extra_field.compressed_size _ = _
    rw [hgd]
    exact (zip64_extra_field_le_bytes u c _ hu64 hc64).2

theorem C19_compressed_size_ignores_descriptor_witness :
    ((record_streamed_hi.gp_flags < 2 ^ 16 ∧ record_streamed_hi.gp_flags &&& 0x08 ≠ 0
        ∧ record_streamed_hi.compressed_size_raw < 2 ^ 32
        ∧ record_streamed_hi.uncompressed_size_raw < 2 ^ 32
        ∧ record_streamed_hi.name.length < 2 ^ 16 ∧ record_streamed_hi.extra.length < 2 ^ 16)
      ∧ (record_descriptor64.gp_flags < 2 ^ 16 ∧ record_descriptor64.gp_flags &&& 0x08 ≠ 0
        ∧ record_descriptor64.compressed_size_raw < 2 ^ 32
        ∧ record_descriptor64.uncompressed_size_raw < 2 ^ 32
        ∧ record_descriptor64.name.length < 2 ^ 16
        ∧ record_descriptor64.extra.length < 2 ^ 16))
    ∧ local_file.compressed_size
        (record_streamed_hi.bytes ++ spec.data_descriptor_bytes true 4 0xD8932AAC 2 2)
      = Except.ok 0
    ∧ local_file.compressed_size
        (record_descriptor64.bytes ++ spec.data_descriptor_bytes false 8 0x04030201 7 45)
      = Except.ok 2 :=
  ⟨⟨⟨by decide, by decide, by decide, by decide, by decide, by decide⟩,
      ⟨by decide, by decide, by decide, by decide, by decide, by decide⟩⟩,
    (C19_compressed_size_ignores_descriptor record_streamed_hi
      (spec.data_descriptor_bytes true 4 0xD8932AAC 2 2) (by decide) (by decide) (by decide)
      (by decide) (by decide) (by decide)).2.1 (by decide),
    (C19_compressed_size_ignores_descriptor record_descriptor64
      (spec.data_descriptor_bytes false 8 0x04030201 7 45) (by decide) (by decide) (by decide)
      (by decide) (by decide) (by decide)).2.2 ⟨rfl, rfl⟩ [] []
      ⟨0x0001, spec.le_bytes 8 0 ++ spec.le_bytes 8 2⟩ 0 2 [] (by decide) (by decide)
      (by decide) (by decide) (by decide) (by decide) (by decide)⟩

/-! ## The walk over a concatenation of records -/

theorem records_bytes_length_ge (rs : List spec.record) :
    30 * rs.length ≤ (spec.records_bytes rs).length := by
  induction rs with
  | nil => simp [spec.records_bytes]
  | cons r rs ih =>
    simp only [spec.records_bytes, List.length_append, List.length_cons, record_bytes_length]
    omega

theorem length_of_drop (zip : List Nat) (a : Nat) (l : List Nat) (h : zip.drop a = l)
    (hl : 0 < l.length) : zip.length = a + l.length := by
  rw [← h, List.length_drop] at hl ⊢
  omega

theorem trailer_signature (trailer : List Nat)
    (h : 4 ≤ trailer.length ∧ (∀ b ∈ trailer.take 4, b < 256)
      ∧ trailer.take 4 ≠ spec.le_bytes 4 0x04034B50) :
    ∃ v, local_file.signature trailer = Except.ok v ∧ v ≠ local_file_header_magic := by
  obtain ⟨hlen, hb, hne⟩ := h
  match trailer, hlen with
  | a :: b :: c :: d :: rest, _ =>
    refine ⟨a + 256 * (b + 256 * (c + 256 * (d + 256 * 0))), ?_, ?_⟩
    · simp [local_file.signature, member, align, read_span, nativize_native, bind, Except.bind,
        pure, Except.pure, Functor.map, Except.map]
    · intro hv
      apply hne
      have ha := hb a (by simp)
      have hb2 := hb b (by simp)
      have hc := hb c (by simp)
      have hd := hb d (by simp)
      simp only [local_file_header_magic] at hv
      have : a = 80 ∧ b = 75 ∧ c = 3 ∧ d = 4 := by omega
      obtain ⟨rfl, rfl, rfl, rfl⟩ := this
      rfl

/-- The comparison with the end sentinel at the start of a record. -/
theorem walk_is_end (zip : List Nat) (a : Nat) (r : spec.record) (rest : List Nat)
    (h : zip.drop a = r.bytes ++ rest) :
    local_file_iterator.is_end ⟨zip, some a, zip.length⟩ = Except.ok false := by
  have hlen := length_of_drop zip a _ h
    (by rw [List.length_append, record_bytes_length]; omega)
  have hlt : a < zip.length := by
    rw [hlen, List.length_append, record_bytes_length]; omega
  unfold local_file_iterator.is_end local_file_iterator.get_addr
  simp only [hlt, if_true, h, record_signature, bind, Except.bind, pure, Except.pure]
  rfl

/-- The comparison with the end sentinel after the last record. -/
theorem walk_is_end_trailer (zip : List Nat) (a : Nat) (trailer : List Nat)
    (h : zip.drop a = trailer) (ht : spec.is_trailer trailer) :
    local_file_iterator.is_end ⟨zip, some a, zip.length⟩ = Except.ok true := by
  unfold local_file_iterator.is_end local_file_iterator.get_addr
  rcases ht with rfl | ht
  · have : ¬ a < zip.length := by
      have := congrArg List.length h
      rw [List.length_drop, List.length_nil] at this
      omega
    simp only [this, if_false, bind, Except.bind, pure, Except.pure]
    rfl
  · obtain ⟨v, hv, hne⟩ := trailer_signature trailer ht
    by_cases hlt : a < zip.length
    · simp only [hlt, if_true, h, hv, hne, if_false, bind, Except.bind, pure, Except.pure]
      rfl
    · simp only [hlt, if_false, bind, Except.bind, pure, Except.pure]
      rfl

/-- The address that `operator++` computes at the start of a well-formed
record: the start of what follows the record. -/
theorem walk_next_address (zip : List Nat) (a : Nat) (r : spec.record) (rest : List Nat)
    (h : zip.drop a = r.bytes ++ rest) (hwf : r.well_formed) :
    local_file_iterator.next_address ⟨zip, some a, zip.length⟩
      = Except.ok (a + r.bytes.length) := by
  obtain ⟨hflags, hbit, hcr, hur, hn, hname, hextra, hpay⟩ := hwf
  have hcs := compressed_size_of_raw _ _ _ (record_raw_compressed_size r rest hcr)
    (record_raw_uncompressed_size r rest hur) hn
  have hlen := length_of_drop zip a _ h
    (by rw [List.length_append, record_bytes_length]; omega)
  rw [List.length_append, record_bytes_length, hpay] at hlen
  unfold local_file_iterator.next_address local_file_iterator.deref
    local_file.has_data_descriptor local_file.compressed_data
  simp only [Option.getD_some, h, record_flags r rest hflags, record_file_name_length r rest hname,
    record_extra_field_length r rest hextra, hcs, hbit, bind, Except.bind, pure, Except.pure,
    local_file.sizeof, ne_eq, not_true_eq_false, decide_False, Bool.false_eq_true, if_false]
  rw [record_bytes_length, hpay, local_file_iterator.pointer_plus, if_pos (by omega)]
  congr 1
  omega

theorem walk_drop_next (zip : List Nat) (a : Nat) (r : spec.record) (rest : List Nat)
    (h : zip.drop a = r.bytes ++ rest) : zip.drop (a + r.bytes.length) = rest := by
  rw [← List.drop_drop, h, List.drop_left]

/-- The walk from the start of a well-formed record to the end sentinel. -/
theorem local_files_from_records (zip : List Nat) (r : spec.record) (rs : List spec.record)
    (trailer : List Nat) (a rounds : Nat)
    (h : zip.drop a = spec.records_bytes (r :: rs) ++ trailer)
    (hwf : ∀ x ∈ r :: rs, x.well_formed) (ht : spec.is_trailer trailer)
    (hr : rs.length + 2 ≤ rounds) :
    local_files_from rounds ⟨zip, some a, zip.length⟩
      = (spec.record_offsets a (r :: rs), none) := by
  induction rs generalizing a r rounds with
  | nil =>
    obtain ⟨n, rfl⟩ : ∃ n, rounds = n + 2 := ⟨rounds - 2, by simp at hr; omega⟩
    have h2 : zip.drop a = r.bytes ++ trailer := by
      simpa [spec.records_bytes] using h
    have hlen := length_of_drop zip a _ h2
      (by rw [List.length_append, record_bytes_length]; omega)
    rw [List.length_append] at hlen
    have hnext := walk_next_address zip a r trailer h2 (hwf r (List.mem_cons_self _ _))
    have hdrop := walk_drop_next zip a r trailer h2
    rw [local_files_from, walk_is_end zip a r trailer h2]
    simp only [local_file_iterator.increment, hnext, bind, Except.bind, pure, Except.pure]
    by_cases hge : a + r.bytes.length ≥ zip.length
    · simp only [hge, if_true, local_files_from, local_file_iterator.is_end,
        local_file_iterator.get_addr, bind, Except.bind, pure, Except.pure, Option.getD_some,
        decide_True, spec.record_offsets]
    · simp only [hge, if_false, Option.getD_some]
      rw [local_files_from, walk_is_end_trailer zip _ trailer hdrop ht]
      rfl
  | cons r2 rs ih =>
    obtain ⟨n, rfl⟩ : ∃ n, rounds = n + 1 :=
      ⟨rounds - 1, by simp only [List.length_cons] at hr; omega⟩
    have h2 : zip.drop a = r.bytes ++ (spec.records_bytes (r2 :: rs) ++ trailer) := by
      rw [h]
      simp only [spec.records_bytes, List.append_assoc]
    have hlen := length_of_drop zip a _ h2
      (by rw [List.length_append, record_bytes_length]; omega)
    have hrest : 30 ≤ (spec.records_bytes (r2 :: rs) ++ trailer).length := by
      have := records_bytes_length_ge (r2 :: rs)
      rw [List.length_append]
      simp only [List.length_cons] at this
      omega
    rw [List.length_append] at hlen
    have hnext := walk_next_address zip a r _ h2 (hwf r (List.mem_cons_self _ _))
    have hdrop := walk_drop_next zip a r _ h2
    have hlt : ¬ (a + r.bytes.length ≥ zip.length) := by omega
    rw [local_files_from, walk_is_end zip a r _ h2]
    simp only [local_file_iterator.increment, hnext, bind, Except.bind, pure, Except.pure, hlt,
      if_false, Option.getD_some]
    rw [ih r2 (a + r.bytes.length) n hdrop (fun x hx => hwf x (List.mem_cons_of_mem _ hx))
      (by simp only [List.length_cons] at hr; omega)]
    rfl

theorem record_offsets_length (a : Nat) (rs : List spec.record) :
    (spec.record_offsets a rs).length = rs.length := by
  induction rs generalizing a with
  | nil => rfl
  | cons r rs ih => simp only [spec.record_offsets, List.length_cons, ih]

/-- The name of each view of a concatenation of records read back. -/
theorem view_file_name_records (zip : List Nat) (rs : List spec.record) (trailer : List Nat)
    (a : Nat) (h : zip.drop a = spec.records_bytes rs ++ trailer)
    (hwf : ∀ x ∈ rs, x.well_formed) :
    List.Forall₂ (fun o r => view_file_name zip o = Except.ok r.name)
      (spec.record_offsets a rs) rs := by
  induction rs generalizing a with
  | nil => exact List.Forall₂.nil
  | cons r rs ih =>
    have h2 : zip.drop a = r.bytes ++ (spec.records_bytes rs ++ trailer) := by
      rw [h]
      simp only [spec.records_bytes, List.append_assoc]
    obtain ⟨_, _, _, _, _, hname, _, _⟩ := hwf r (List.mem_cons_self _ _)
    refine List.Forall₂.cons ?_ (ih _ (walk_drop_next zip a r _ h2)
      (fun x hx => hwf x (List.mem_cons_of_mem _ hx)))
    unfold view_file_name local_file.file_name local_file_iterator.deref span_bytes
    simp only [Option.getD_some, h2, record_file_name_length r _ hname, bind, Except.bind, pure,
      Except.pure, local_file.sizeof, record_drop_header]
    exact read_span_append_left _ _ _ rfl

/-- Claim C16. For every archive that is the concatenation of k >= 1 well-formed
local-file records (signature 0x04034B50, flag bit 3 clear, raw sizes not both
0xFFFFFFFF, each header followed by exactly its name, extra field and payload
bytes), followed by nothing or by at least four bytes that do not begin with
the signature, the walk of `local_file_iterator` from the archive start to
the end sentinel completes, yields exactly k views, at the k record start
offsets in order, and `file_name()` of the j-th view is the name of the j-th
record. -/
theorem C16_walk_yields_records (rs : List spec.record) (trailer : List Nat)
    (hk : 1 ≤ rs.length) (hwf : ∀ r ∈ rs, r.well_formed) (ht : spec.is_trailer trailer) :
    local_files (spec.records_bytes rs ++ trailer) = (spec.record_offsets 0 rs, none)
    ∧ (spec.record_offsets 0 rs).length = rs.length
    ∧ List.Forall₂
        (fun o r => view_file_name (spec.records_bytes rs ++ trailer) o = Except.ok r.name)
        (spec.record_offsets 0 rs) rs := by
  refine ⟨?_, record_offsets_length 0 rs, view_file_name_records _ rs trailer 0 rfl hwf⟩
  match rs, hk with
  | r :: rs, _ =>
    unfold local_files local_file_iterator.mk_span
    refine local_files_from_records _ r rs trailer 0 _ rfl hwf ht ?_
    have := records_bytes_length_ge (r :: rs)
    rw [List.length_append]
    simp only [List.length_cons] at this
    omega

theorem C16_walk_yields_records_witness :
    (1 ≤ records_two.length ∧ (∀ r ∈ records_two, r.well_formed)
      ∧ spec.is_trailer [80, 75, 1, 2, 0])
    ∧ local_files (spec.records_bytes records_two ++ [80, 75, 1, 2, 0])
      = (spec.record_offsets 0 records_two, none)
    ∧ (spec.record_offsets 0 records_two).length = records_two.length
    ∧ List.Forall₂
        (fun o r => view_file_name (spec.records_bytes records_two ++ [80, 75, 1, 2, 0]) o
          = Except.ok r.name)
        (spec.record_offsets 0 records_two) records_two :=
  ⟨⟨by decide, by decide, by decide⟩,
    C16_walk_yields_records records_two [80, 75, 1, 2, 0] (by decide) (by decide) (by decide)⟩


/-! ## The basic check of an archive and the byte utilities -/

/-- Claim C22. For every byte buffer `buf` of length `len`, `is_zip(buf, len)`
returns, and returns true if and only if `len >= 30` and the first four bytes,
read as a little-endian u32 (the sum of `b_i * 256^i`), equal 0x04034B50. -/
theorem C22_is_zip_iff (buf : List Nat) :
    ∃ b, is_zip buf buf.length = Except.ok b
      ∧ (b = true ↔ 30 ≤ buf.length
          ∧ buf.getD 0 0 + buf.getD 1 0 * 256 + buf.getD 2 0 * 256 ^ 2 + buf.getD 3 0 * 256 ^ 3
            = 0x04034B50) := by
  unfold is_zip
  by_cases hlen : buf.length < 30
  · refine ⟨false, ?_, ?_⟩
    · simp only [local_file.sizeof, hlen, if_true]
      rfl
    · constructor
      · intro h; cases h
      · intro h; omega
  · match buf, hlen with
    | b0 :: b1 :: b2 :: b3 :: rest, hlen =>
      have hs : local_file.signature (b0 :: b1 :: b2 :: b3 :: rest)
          = Except.ok (b0 + 256 * (b1 + 256 * (b2 + 256 * (b3 + 256 * 0)))) := by
        simp [local_file.signature, member, align, read_span, nativize_native, bind, Except.bind,
          pure, Except.pure, Functor.map, Except.map]
      simp only [local_file.sizeof, hlen, if_false, hs, bind, Except.bind, pure, Except.pure,
        local_file_header_magic, List.getD_cons_zero, List.getD_cons_succ]
      by_cases hv : b0 + 256 * (b1 + 256 * (b2 + 256 * (b3 + 256 * 0))) = 0x04034b50
      · refine ⟨true, by simp; omega, ?_⟩
        simp only [true_iff]
        exact ⟨by omega, by omega⟩
      · refine ⟨false, by simp; omega, ?_⟩
        constructor
        · intro h; cases h
        · intro h; exfalso; apply hv; omega
    | [], hlen => simp at hlen
    | [_], hlen => simp at hlen
    | [_, _], hlen => simp at hlen
    | [_, _, _], hlen => simp at hlen

/-- The bytes of a value read most significant first. -/
theorem le_bytes_snoc (w x : Nat) :
    spec.le_bytes (w + 1) x = spec.le_bytes w x ++ [(x / 256 ^ w) % 256] := by
  induction w generalizing x with
  | zero => simp [spec.le_bytes]
  | succ n ih =>
    rw [spec.le_bytes, ih (x / 256), spec.le_bytes, List.cons_append, Nat.div_div_eq_div_mul,
      Nat.pow_succ, Nat.mul_comm (256 ^ n) 256]

theorem le_bytes_lt (w x b : Nat) (h : b ∈ spec.le_bytes w x) : b < 256 := by
  induction w generalizing x with
  | zero => simp [spec.le_bytes] at h
  | succ n ih =>
    rw [spec.le_bytes, List.mem_cons] at h
    rcases h with rfl | h
    · exact Nat.mod_lt _ (by norm_num)
    · exact ih _ h

theorem foldl_bytes_lt (l : List Nat) (h : ∀ b ∈ l, b < 256) :
    l.foldl (fun acc b => acc * 256 + b) 0 < 256 ^ l.length := by
  induction l using List.reverseRecOn with
  | nil => simp
  | append_singleton l b ih =>
    rw [List.foldl_append, List.length_append, List.length_singleton, Nat.pow_succ]
    have h1 := ih (fun x hx => h x (List.mem_append_left _ hx))
    have h2 := h b (by simp)
    simp only [List.foldl_cons, List.foldl_nil]
    omega

/-- The loop of `nativize` for an ordering other than little, run over the
first `j` bytes of the input. -/
theorem nativize_loop (size x j : Nat) (hj : j ≤ size) :
    (List.range j).foldl
        (fun result k => ((result <<< 8) % 2 ^ (8 * size)) ||| ((x >>> (8 * k)) % 256)) 0
      = (spec.le_bytes j x).foldl (fun acc b => acc * 256 + b) 0 := by
  induction j with
  | zero => rfl
  | succ n ih =>
    rw [List.range_succ, List.foldl_append, ih (by omega), le_bytes_snoc, List.foldl_append]
    simp only [List.foldl_cons, List.foldl_nil]
    have hlt := foldl_bytes_lt (spec.le_bytes n x) (fun b hb => le_bytes_lt n x b hb)
    rw [le_bytes_length] at hlt
    generalize (spec.le_bytes n x).foldl (fun acc b => acc * 256 + b) 0 = r at hlt ⊢
    have e1 : r <<< 8 = 256 * r := by rw [Nat.shiftLeft_eq, Nat.mul_comm]
    have e2 : x >>> (8 * n) = x / 256 ^ n := by
      rw [Nat.shiftRight_eq_div_pow, Nat.pow_mul]
    have e3 : 2 ^ (8 * size) = 256 ^ size := by rw [Nat.pow_mul]
    have hpow : 256 ^ n * 256 ≤ 256 ^ size :=
      calc 256 ^ n * 256 = 256 ^ (n + 1) := (Nat.pow_succ 256 n).symm
        _ ≤ 256 ^ size := Nat.pow_le_pow_right (by norm_num) hj
    have hd : x / 256 ^ n % 256 < 2 ^ 8 := Nat.mod_lt _ (by norm_num)
    rw [e1, e2, e3, Nat.mod_eq_of_lt (by omega), Nat.mul_comm r 256]
    exact (Nat.mul_add_lt_is_or hd r).symm

/-- The function `nativize` for the big ordering: the bytes of the input, least
significant first, read most significant first. -/
theorem nativize_big (size x : Nat) :
    nativize endian.big size x = (spec.le_bytes size x).foldl (fun acc b => acc * 256 + b) 0 := by
  unfold nativize
  rw [if_pos (by decide)]
  exact nativize_loop size x size (Nat.le_refl _)

theorem foldl_bytes_reverse (l : List Nat) :
    l.reverse.foldl (fun acc b => acc * 256 + b) 0 = l.foldr (fun b acc => b + 256 * acc) 0 := by
  rw [List.foldl_reverse]
  induction l with
  | nil => rfl
  | cons b bs ih => simp only [List.foldr_cons, ih]; omega

theorem le_bytes_foldr (l : List Nat) (h : ∀ b ∈ l, b < 256) :
    spec.le_bytes l.length (l.foldr (fun b acc => b + 256 * acc) 0) = l := by
  induction l with
  | nil => rfl
  | cons b bs ih =>
    have hb := h b (List.mem_cons_self _ _)
    simp only [List.length_cons, List.foldr_cons, spec.le_bytes]
    rw [show (b + 256 * bs.foldr (fun b acc => b + 256 * acc) 0) % 256 = b by omega,
      show (b + 256 * bs.foldr (fun b acc => b + 256 * acc) 0) / 256
        = bs.foldr (fun b acc => b + 256 * acc) 0 by omega,
      ih (fun x hx => h x (List.mem_cons_of_mem _ hx))]

/-- The function `nativize` for the big ordering is its own inverse on values
of `size` bytes. -/
theorem nativize_big_involutive (size x : Nat) (hx : x < 256 ^ size) :
    nativize endian.big size (nativize endian.big size x) = x := by
  have hrev : ∀ b ∈ (spec.le_bytes size x).reverse, b < 256 :=
    fun b hb => le_bytes_lt size x b (List.mem_reverse.mp hb)
  have hlen : (spec.le_bytes size x).reverse.length = size := by
    rw [List.length_reverse, le_bytes_length]
  have h1 : nativize endian.big size x
      = (spec.le_bytes size x).reverse.foldr (fun b acc => b + 256 * acc) 0 := by
    rw [nativize_big, ← foldl_bytes_reverse, List.reverse_reverse]
  have h2 := le_bytes_foldr _ hrev
  rw [hlen] at h2
  rw [nativize_big, h1, h2, foldl_bytes_reverse, foldr_le_bytes, Nat.mod_eq_of_lt hx]

/-- Claim C24. For every unsigned 16-, 32- or 64-bit `x` (a type of `size` = 2, 4
or 8 bytes) and each byte ordering `o`, little or big,
`nativize<o>(nativize<o>(x)) == x`. -/
theorem C24_nativize_involutive (o : endian) (size x : Nat)
    (_hsize : size = 2 ∨ size = 4 ∨ size = 8) (hx : x < 2 ^ (8 * size)) :
    nativize o size (nativize o size x) = x := by
  cases o with
  | little => simp [nativize]
  | big =>
    apply nativize_big_involutive
    rw [show (256 : Nat) = 2 ^ 8 by norm_num, ← Nat.pow_mul]
    exact hx

theorem C24_nativize_involutive_witness :
    (((4 : Nat) = 2 ∨ (4 : Nat) = 4 ∨ (4 : Nat) = 8) ∧ 258 < 2 ^ (8 * 4))
    ∧ nativize endian.big 4 (nativize endian.big 4 258) = 258 :=
  ⟨⟨by decide, by decide⟩, C24_nativize_involutive endian.big 4 258 (by decide) (by decide)⟩

/-- The load of `size` bytes by `align` and the two orderings of `nativize`. -/
theorem nativize_align (size : Nat) (bs rest : List Nat) (hlen : bs.length = size)
    (hb : ∀ b ∈ bs, b < 256) :
    nativize endian.little size <$> align size (bs ++ rest)
      = Except.ok (bs.foldr (fun b acc => b + 256 * acc) 0)
    ∧ nativize endian.big size <$> align size (bs ++ rest)
      = Except.ok (bs.foldl (fun acc b => acc * 256 + b) 0) := by
  have ha : align size (bs ++ rest) = Except.ok (bs.foldr (fun b acc => b + 256 * acc) 0) := by
    unfold align
    rw [read_span_append_left _ _ _ hlen]
    rfl
  rw [ha]
  constructor
  · simp [Functor.map, Except.map, nativize]
  · simp only [Functor.map, Except.map]
    rw [nativize_big, ← hlen, le_bytes_foldr bs hb]

/-- Claim C23. For every width 2, 4 or 8 and every byte sequence `b0 ..`, loading
the bytes into an unsigned integer of that width by `align` (byte copy,
little-endian host) and applying `nativize<little>` gives the sum of
`b_i * 256^i`, and applying `nativize<big>` gives the byte-reversed value, the
sum of `b_i * 256^(w-1-i)`; the bytes 0x02, 0x01 give 258 and 513. -/
theorem C23_nativize_of_bytes (rest : List Nat) :
    (∀ b0 b1 : Nat, b0 < 256 → b1 < 256 →
      nativize endian.little 2 <$> align 2 (b0 :: b1 :: rest) = Except.ok (b0 + b1 * 256)
      ∧ nativize endian.big 2 <$> align 2 (b0 :: b1 :: rest) = Except.ok (b0 * 256 + b1))
    ∧ (∀ b0 b1 b2 b3 : Nat, b0 < 256 → b1 < 256 → b2 < 256 → b3 < 256 →
      nativize endian.little 4 <$> align 4 (b0 :: b1 :: b2 :: b3 :: rest)
        = Except.ok (b0 + b1 * 256 + b2 * 256 ^ 2 + b3 * 256 ^ 3)
      ∧ nativize endian.big 4 <$> align 4 (b0 :: b1 :: b2 :: b3 :: rest)
        = Except.ok (b0 * 256 ^ 3 + b1 * 256 ^ 2 + b2 * 256 + b3))
    ∧ (∀ b0 b1 b2 b3 b4 b5 b6 b7 : Nat, b0 < 256 → b1 < 256 → b2 < 256 → b3 < 256 →
        b4 < 256 → b5 < 256 → b6 < 256 → b7 < 256 →
      nativize endian.little 8 <$> align 8 (b0 :: b1 :: b2 :: b3 :: b4 :: b5 :: b6 :: b7 :: rest)
        = Except.ok (b0 + b1 * 256 + b2 * 256 ^ 2 + b3 * 256 ^ 3 + b4 * 256 ^ 4 + b5 * 256 ^ 5
            + b6 * 256 ^ 6 + b7 * 256 ^ 7)
      ∧ nativize endian.big 8 <$> align 8 (b0 :: b1 :: b2 :: b3 :: b4 :: b5 :: b6 :: b7 :: rest)
        = Except.ok (b0 * 256 ^ 7 + b1 * 256 ^ 6 + b2 * 256 ^ 5 + b3 * 256 ^ 4 + b4 * 256 ^ 3
            + b5 * 256 ^ 2 + b6 * 256 + b7))
    ∧ nativize endian.little 2 <$> align 2 [0x02, 0x01] = Except.ok 258
    ∧ nativize endian.big 2 <$> align 2 [0x02, 0x01] = Except.ok 513 := by
  refine ⟨?_, ?_, ?_, by decide, by decide⟩
  · intro b0 b1 h0 h1
    have h := nativize_align 2 [b0, b1] rest rfl (by simp [h0, h1])
    simp only [List.cons_append, List.nil_append, List.foldr_cons, List.foldr_nil,
      List.foldl_cons, List.foldl_nil] at h
    exact ⟨h.1.trans (congrArg Except.ok (by ring)), h.2.trans (congrArg Except.ok (by ring))⟩
  · intro b0 b1 b2 b3 h0 h1 h2 h3
    have h := nativize_align 4 [b0, b1, b2, b3] rest rfl (by simp [h0, h1, h2, h3])
    simp only [List.cons_append, List.nil_append, List.foldr_cons, List.foldr_nil,
      List.foldl_cons, List.foldl_nil] at h
    exact ⟨h.1.trans (congrArg Except.ok (by ring)), h.2.trans (congrArg Except.ok (by ring))⟩
  · intro b0 b1 b2 b3 b4 b5 b6 b7 h0 h1 h2 h3 h4 h5 h6 h7
    have h := nativize_align 8 [b0, b1, b2, b3, b4, b5, b6, b7] rest rfl
      (by simp [h0, h1, h2, h3, h4, h5, h6, h7])
    simp only [List.cons_append, List.nil_append, List.foldr_cons, List.foldr_nil,
      List.foldl_cons, List.foldl_nil] at h
    exact ⟨h.1.trans (congrArg Except.ok (by ring)), h.2.trans (congrArg Except.ok (by ring))⟩

/-! ## The reset of the ZipCrypto engine -/

/-- Claim C25. A reset of the ZipCrypto engine fully restores the initial state:
for every two prior key states `s` and `s2` of a decrypter, every password,
every header of at least 12 readable bytes and every check_bits, `reset`
returns, returns the same flag from `s` and from `s2` and leaves the same key
state (also when the flag is false), so a following `transform` of the same
ciphertext delivers the same bytes and leaves the same state; the flag of
`is_password_valid` does not depend on what the thread-local engines held. -/
theorem C25_reset_restores_initial_state (s s2 : decrypter) (password header : List Nat)
    (check_bits : Nat) (hlen : 12 ≤ header.length) :
    (∃ r, decrypter.reset s password header check_bits = Except.ok r)
    ∧ (∀ r r2, decrypter.reset s password header check_bits = Except.ok r →
        decrypter.reset s2 password header check_bits = Except.ok r2 →
        r.1 = r2.1 ∧ r.2 = r2.2
        ∧ ∀ (ciphertext : List Nat) (len : Nat) (delivered : List Nat),
            decrypter.transform r.2 ciphertext len collect delivered
              = decrypter.transform r2.2 ciphertext len collect delivered)
    ∧ (∀ (z : zlib) (tl tl2 : engines z) (entry pw : List Nat),
        Prod.fst <$> is_password_valid tl entry pw
          = Prod.fst <$> is_password_valid tl2 entry pw) := by
  refine ⟨?_, ?_, fun z tl tl2 entry pw => is_password_valid_flag tl tl2 entry pw⟩
  · have h10 : read_span header 10 = Except.ok (header.take 10) := by
      unfold read_span
      rw [if_pos (by omega)]
    obtain ⟨c10, hc10⟩ : ∃ c, read header 10 = Except.ok c := by
      unfold read
      rw [List.get?_eq_getElem?, List.getElem?_eq_getElem (by omega)]
      exact ⟨_, rfl⟩
    obtain ⟨c11, hc11⟩ : ∃ c, read header 11 = Except.ok c := by
      unfold read
      rw [List.get?_eq_getElem?, List.getElem?_eq_getElem (by omega)]
      exact ⟨_, rfl⟩
    unfold decrypter.reset
    simp only [h10, hc10, hc11, bind, Except.bind, pure, Except.pure]
    split_ifs <;> exact ⟨_, rfl⟩
  · intro r r2 h1 h2
    rw [reset_ignores_self s s2] at h1
    rw [h1] at h2
    cases h2
    exact ⟨rfl, rfl, fun _ _ _ => rfl⟩

theorem C25_reset_restores_initial_state_witness :
    12 ≤ [7, 6, 5, 4, 3, 2, 1, 0, 9, 8, 7, 6].length
    ∧ (∃ r, decrypter.reset ⟨⟨1, 2, 3⟩⟩ [116, 101, 115, 116]
          [7, 6, 5, 4, 3, 2, 1, 0, 9, 8, 7, 6] 4660 = Except.ok r)
    ∧ (∀ r r2, decrypter.reset ⟨⟨1, 2, 3⟩⟩ [116, 101, 115, 116]
          [7, 6, 5, 4, 3, 2, 1, 0, 9, 8, 7, 6] 4660 = Except.ok r →
        decrypter.reset ⟨⟨4, 5, 6⟩⟩ [116, 101, 115, 116]
          [7, 6, 5, 4, 3, 2, 1, 0, 9, 8, 7, 6] 4660 = Except.ok r2 →
        r.1 = r2.1 ∧ r.2 = r2.2
        ∧ ∀ (ciphertext : List Nat) (len : Nat) (delivered : List Nat),
            decrypter.transform r.2 ciphertext len collect delivered
              = decrypter.transform r2.2 ciphertext len collect delivered)
    ∧ (∀ (z : zlib) (tl tl2 : engines z) (entry pw : List Nat),
        Prod.fst <$> is_password_valid tl entry pw
          = Prod.fst <$> is_password_valid tl2 entry pw) :=
  ⟨by decide, C25_reset_restores_initial_state ⟨⟨1, 2, 3⟩⟩ ⟨⟨4, 5, 6⟩⟩ [116, 101, 115, 116]
    [7, 6, 5, 4, 3, 2, 1, 0, 9, 8, 7, 6] 4660 (by decide)⟩

/-! ## The walk: where the views are, and when it ends -/

theorem is_end_false (it : local_file_iterator)
    (h : local_file_iterator.is_end it = Except.ok false) :
    ∃ a, it.addr_ = some a ∧ a < it.end_
      ∧ local_file.signature (it.zip.drop a) = Except.ok local_file_header_magic := by
  unfold local_file_iterator.is_end at h
  obtain ⟨g, hg, h⟩ := bind_ok h
  simp only [pure, Except.pure, Except.ok.injEq, decide_eq_false_iff_not] at h
  unfold local_file_iterator.get_addr at hg
  cases ha : it.addr_ with
  | none =>
    rw [ha] at hg
    simp only [pure, Except.pure, Except.ok.injEq] at hg
    exact absurd hg.symm h
  | some a =>
    rw [ha] at hg
    simp only at hg
    by_cases hlt : a < it.end_
    · rw [if_pos hlt] at hg
      obtain ⟨v, hv, hg⟩ := bind_ok hg
      by_cases hm : v = local_file_header_magic
      · exact ⟨a, rfl, hlt, by rw [hv, hm]⟩
      · rw [if_neg hm] at hg
        simp only [pure, Except.pure, Except.ok.injEq] at hg
        exact absurd hg.symm h
    · rw [if_neg hlt] at hg
      simp only [pure, Except.pure, Except.ok.injEq] at hg
      exact absurd hg.symm h

theorem increment_ok (it next : local_file_iterator)
    (h : local_file_iterator.increment it = Except.ok next) :
    ∃ n, local_file_iterator.next_address it = Except.ok n
      ∧ next.zip = it.zip ∧ next.end_ = it.end_
      ∧ next.addr_ = if n ≥ it.end_ then none else some n := by
  unfold local_file_iterator.increment at h
  obtain ⟨n, hn, h⟩ := bind_ok h
  refine ⟨n, hn, ?_⟩
  by_cases hge : n ≥ it.end_
  · rw [if_pos hge] at h
    simp only [pure, Except.pure, Except.ok.injEq] at h
    subst h
    simp only [hge, if_true, and_self]
  · rw [if_neg hge] at h
    simp only [pure, Except.pure, Except.ok.injEq] at h
    subst h
    simp only [hge, if_false, and_self]

/-- A walk that does not hit its round bound is the same with one more round. -/
theorem local_files_from_succ (rounds : Nat) (it : local_file_iterator)
    (h : (local_files_from rounds it).2 ≠ some Failure.out_of_fuel) :
    local_files_from (rounds + 1) it = local_files_from rounds it := by
  induction rounds generalizing it with
  | zero => exact absurd rfl h
  | succ n ih =>
    rw [local_files_from]
    rw [local_files_from] at h
    conv => rhs; rw [local_files_from]
    cases he : local_file_iterator.is_end it with
    | error f => rfl
    | ok b =>
      cases b with
      | true => rfl
      | false =>
        rw [he] at h
        cases hi : local_file_iterator.increment it with
        | error f => rfl
        | ok next =>
          rw [hi] at h
          simp only at h ⊢
          rw [ih next h]

theorem local_files_from_add (rounds k : Nat) (it : local_file_iterator)
    (h : (local_files_from rounds it).2 ≠ some Failure.out_of_fuel) :
    local_files_from (rounds + k) it = local_files_from rounds it := by
  induction k with
  | zero => rfl
  | succ k ih =>
    rw [← Nat.add_assoc, local_files_from_succ _ _ (by rw [ih]; exact h), ih]

theorem walk_round_some (it next : local_file_iterator) :
    walk_round it = some next
      ↔ local_file_iterator.is_end it = Except.ok false
        ∧ local_file_iterator.increment it = Except.ok next := by
  unfold walk_round
  cases he : local_file_iterator.is_end it with
  | error f => simp
  | ok b =>
    cases b with
    | true => simp
    | false =>
      cases hi : local_file_iterator.increment it with
      | error f => simp [Except.toOption]
      | ok n => simp [Except.toOption]

/-- The walk hits its round bound exactly when none of its rounds leaves the
loop. -/
theorem local_files_from_out_of_fuel_iff (n : Nat) (it : local_file_iterator) :
    (local_files_from n it).2 = some Failure.out_of_fuel ↔ ∃ s, walk_rounds n it = some s := by
  induction n generalizing it with
  | zero => simp [local_files_from, walk_rounds]
  | succ n ih =>
    unfold local_files_from walk_rounds walk_round
    cases he : local_file_iterator.is_end it with
    | error f =>
      simp only [Option.some.injEq, Option.none_bind]
      constructor
      · intro hf; subst hf
        exact absurd he (within_bounds_is_end it)
      · rintro ⟨s, hs⟩; cases hs
    | ok b =>
      cases b with
      | true => simp
      | false =>
        cases hi : local_file_iterator.increment it with
        | error f =>
          simp only [Option.some.injEq, Except.toOption, Option.none_bind]
          constructor
          · intro hf; subst hf
            exact absurd hi (within_bounds_increment it)
          · rintro ⟨s, hs⟩; cases hs
        | ok next =>
          simp only [Except.toOption, Option.some_bind]
          exact ih next

theorem walk_rounds_add (a b : Nat) (it : local_file_iterator) :
    walk_rounds (a + b) it = (walk_rounds a it).bind (walk_rounds b) := by
  induction a generalizing it with
  | zero => simp [walk_rounds]
  | succ a ih =>
    rw [Nat.add_right_comm, walk_rounds, walk_rounds]
    cases walk_round it with
    | none => rfl
    | some next => simp only [Option.some_bind, ih]

theorem walk_rounds_prefix (a b : Nat) (it s : local_file_iterator)
    (h : walk_rounds (a + b) it = some s) : ∃ t, walk_rounds a it = some t := by
  rw [walk_rounds_add] at h
  cases ht : walk_rounds a it with
  | none => rw [ht] at h; cases h
  | some t => exact ⟨t, rfl⟩

theorem walk_rounds_zip (n : Nat) (it s : local_file_iterator)
    (h : walk_rounds n it = some s) : s.zip = it.zip ∧ s.end_ = it.end_ := by
  induction n generalizing it with
  | zero =>
    simp only [walk_rounds, Option.some.injEq] at h
    subst h
    exact ⟨rfl, rfl⟩
  | succ n ih =>
    rw [walk_rounds] at h
    cases hr : walk_round it with
    | none => rw [hr] at h; cases h
    | some next =>
      rw [hr, Option.some_bind] at h
      have hz := increment_zip it next ((walk_round_some it next).mp hr).2
      have := ih next h
      exact ⟨this.1.trans hz.1, this.2.trans hz.2⟩

/-- A position from which a round is taken lies within the span. -/
theorem walk_round_addr (it next : local_file_iterator) (h : walk_round it = some next) :
    ∃ a, it.addr_ = some a ∧ a < it.end_ := by
  obtain ⟨a, ha, hlt, _⟩ := is_end_false it ((walk_round_some it next).mp h).1
  exact ⟨a, ha, hlt⟩

/-- A walk of more rounds than the span has bytes comes back to a position it
has left before. -/
theorem walk_rounds_repeat (it : local_file_iterator)
    (h : ∃ s, walk_rounds (it.end_ + 1) it = some s) :
    ∃ i p s, 1 ≤ p ∧ i + p ≤ it.end_ ∧ walk_rounds i it = some s
      ∧ walk_rounds p s = some s := by
  obtain ⟨s, hs⟩ := h
  -- the state after k rounds, for k up to end_
  have hstate : ∀ k, k ≤ it.end_ → ∃ a, a < it.end_
      ∧ walk_rounds k it = some ⟨it.zip, some a, it.end_⟩ := by
    intro k hk
    obtain ⟨d, hd⟩ : ∃ d, it.end_ + 1 = (k + 1) + d := ⟨it.end_ - k, by omega⟩
    rw [hd] at hs
    obtain ⟨t, ht⟩ := walk_rounds_prefix (k + 1) d it s hs
    rw [walk_rounds_add] at ht
    cases hk1 : walk_rounds k it with
    | none => rw [hk1] at ht; cases ht
    | some sk =>
      rw [hk1, Option.some_bind, walk_rounds] at ht
      cases hr : walk_round sk with
      | none => rw [hr] at ht; cases ht
      | some nx =>
        obtain ⟨a, ha, hlt⟩ := walk_round_addr sk nx hr
        obtain ⟨hz, he⟩ := walk_rounds_zip k it sk hk1
        rw [he] at hlt
        refine ⟨a, hlt, ?_⟩
        congr 1
        cases sk
        simp only at ha hz he
        subst ha hz he
        rfl
  let f : Nat → Nat := fun k =>
    match walk_rounds k it with
    | some sk => sk.addr_.getD 0
    | none => 0
  have hf : ∀ k ∈ Finset.range (it.end_ + 1), f k ∈ Finset.range it.end_ := by
    intro k hk
    obtain ⟨a, hlt, hk1⟩ := hstate k (by simpa [Nat.lt_succ_iff] using hk)
    simp only [f, hk1, Option.getD_some, Finset.mem_range]
    exact hlt
  obtain ⟨i, hi, j, hj, hne, hfij⟩ :=
    Finset.exists_ne_map_eq_of_card_lt_of_maps_to (by simp) hf
  have key : ∀ i j, i < j → j ≤ it.end_ → f i = f j →
      ∃ i p s, 1 ≤ p ∧ i + p ≤ it.end_ ∧ walk_rounds i it = some s
        ∧ walk_rounds p s = some s := by
    intro i j hij hj hfij
    obtain ⟨a, _, hi1⟩ := hstate i (by omega)
    obtain ⟨b, _, hj1⟩ := hstate j hj
    simp only [f, hi1, hj1, Option.getD_some] at hfij
    subst hfij
    refine ⟨i, j - i, _, by omega, by omega, hi1, ?_⟩
    have := walk_rounds_add i (j - i) it
    rw [show i + (j - i) = j by omega, hj1, hi1, Option.some_bind] at this
    exact this.symm
  simp only [Finset.mem_range, Nat.lt_succ_iff] at hi hj
  rcases Nat.lt_or_gt_of_ne hne with hlt | hgt
  · exact key i j hlt hj hfij
  · exact key j i hgt hi hfij.symm

/-- A walk that has come back to a position goes on for any number of rounds. -/
theorem walk_rounds_cycle (p : Nat) (s : local_file_iterator) (hp : 1 ≤ p)
    (h : walk_rounds p s = some s) (m : Nat) : ∃ t, walk_rounds m s = some t := by
  induction m using Nat.strong_induction_on with
  | _ m ih =>
    by_cases hm : m < p
    · obtain ⟨d, hd⟩ : ∃ d, p = m + d := ⟨p - m, by omega⟩
      rw [hd] at h
      exact walk_rounds_prefix m d s s h
    · obtain ⟨d, hd⟩ : ∃ d, m = p + d := ⟨m - p, by omega⟩
      rw [hd, walk_rounds_add, h, Option.some_bind]
      exact ih d (by omega)

/-- A walk that uses up one round more than the span has bytes uses up any
number of rounds: the loop of the source is never left. -/
theorem walk_never_ends_from (it : local_file_iterator)
    (h : (local_files_from (it.end_ + 1) it).2 = some Failure.out_of_fuel) (rounds : Nat) :
    (local_files_from rounds it).2 = some Failure.out_of_fuel := by
  rw [local_files_from_out_of_fuel_iff] at h ⊢
  obtain ⟨i, p, s, hp, _, hi, hcyc⟩ := walk_rounds_repeat it h
  obtain ⟨t, ht⟩ := walk_rounds_cycle p s hp hcyc rounds
  have : walk_rounds (i + rounds) it = some t := by
    rw [walk_rounds_add, hi, Option.some_bind, ht]
  rw [Nat.add_comm] at this
  exact walk_rounds_prefix rounds i it t this

/-- The walk over an archive that hits the round bound of `local_files` hits
every round bound. -/
theorem walk_never_ends (zip_file : List Nat)
    (h : (local_files zip_file).2 = some Failure.out_of_fuel) (rounds : Nat) :
    (local_files_from rounds (local_file_iterator.mk_span zip_file)).2
      = some Failure.out_of_fuel :=
  walk_never_ends_from (local_file_iterator.mk_span zip_file) h rounds

/-- The round bound of `local_files` cuts no walk short: a walk that ends
within some number of rounds is the walk that `local_files` gives. -/
theorem local_files_of_ends (zip_file : List Nat) (rounds : Nat)
    (h : (local_files_from rounds (local_file_iterator.mk_span zip_file)).2
      ≠ some Failure.out_of_fuel) :
    local_files_from rounds (local_file_iterator.mk_span zip_file) = local_files zip_file := by
  have hl : (local_files zip_file).2 ≠ some Failure.out_of_fuel :=
    fun hc => h (walk_never_ends zip_file hc rounds)
  unfold local_files at hl ⊢
  rcases Nat.le_total rounds (zip_file.length + 1) with hle | hle
  · obtain ⟨k, hk⟩ : ∃ k, zip_file.length + 1 = rounds + k := ⟨_, (Nat.add_sub_cancel' hle).symm⟩
    rw [hk]
    exact (local_files_from_add rounds k _ h).symm
  · obtain ⟨k, hk⟩ : ∃ k, rounds = zip_file.length + 1 + k := ⟨_, (Nat.add_sub_cancel' hle).symm⟩
    rw [hk]
    exact local_files_from_add _ k _ hl

/-- For a span that the 64-bit address space holds, the pointer sum is the sum
modulo 2^64. -/
theorem pointer_plus_eq_mod (end_ sum : Nat) (h : end_ < 2 ^ 64) :
    local_file_iterator.pointer_plus end_ sum = sum % 2 ^ 64 := by
  unfold local_file_iterator.pointer_plus
  split_ifs with hs
  · exact (Nat.mod_eq_of_lt (by omega)).symm
  · rfl

/-! ## The round bound of the search -/

/-- The search hits its round bound exactly when the walk hits it and no
candidate is valid for an entry the walk has yielded. -/
theorem any_of_local_files_out_of_fuel_iff {z : zlib} (passwords : List (List Nat))
    (rounds : Nat) (it : local_file_iterator) (s : crack_state z) :
    any_of_local_files passwords rounds it s = Except.error Failure.out_of_fuel
      ↔ (local_files_from rounds it).2 = some Failure.out_of_fuel
        ∧ ∀ e ∈ (local_files_from rounds it).1, ∀ c ∈ passwords,
          Prod.fst <$> is_password_valid (engines.initial z) (it.zip.drop e) c
            = Except.ok false := by
  induction rounds generalizing it s with
  | zero =>
    simp only [any_of_local_files, local_files_from, throw, throwThe, MonadExceptOf.throw,
      List.not_mem_nil, false_implies, implies_true, and_self]
  | succ n ih =>
    simp only [any_of_local_files, local_files_from, bind, Except.bind]
    cases he : local_file_iterator.is_end it with
    | error f =>
      simp only [Except.error.injEq, Option.some.injEq, List.not_mem_nil, false_implies,
        implies_true, and_true]
    | ok b =>
      cases b with
      | true => simp [pure, Except.pure]
      | false =>
        simp only [Bool.false_eq_true, if_false]
        have hhead : ∀ l : List Nat × Option Failure,
            (match local_file_iterator.increment it with
              | .error f => ([it.addr_.getD 0], some f)
              | .ok next => (it.addr_.getD 0 :: (local_files_from n next).1,
                  (local_files_from n next).2)) = l → it.addr_.getD 0 ∈ l.1 := by
          intro l hl
          subst hl
          cases local_file_iterator.increment it <;> simp
        cases hp : any_of_passwords (local_file_iterator.deref it) passwords s with
        | error f =>
          simp only [Except.error.injEq]
          constructor
          · intro hf; subst hf
            exact absurd hp (within_bounds_any_of_passwords _ _ _)
          · rintro ⟨_, hall⟩
            obtain ⟨s', hs'⟩ := any_of_passwords_complete (local_file_iterator.deref it)
              passwords s (fun c hc => hall _ (hhead _ rfl) c hc)
            rw [hp] at hs'
            cases hs'
        | ok r =>
          obtain ⟨b, s1⟩ := r
          cases b with
          | true =>
            simp only [if_true, pure, Except.pure]
            refine ⟨fun h => (by cases h), ?_⟩
            rintro ⟨_, hall⟩
            exfalso
            obtain ⟨q, hq, _, hval⟩ := any_of_passwords_true _ _ _ _ hp
            have := hall _ (hhead _ rfl) q hq
            simp only [local_file_iterator.deref] at hval
            rw [hval] at this
            cases this
          | false =>
            simp only [Bool.false_eq_true, if_false]
            obtain ⟨_, hall1⟩ := any_of_passwords_false _ _ _ _ hp
            cases hi : local_file_iterator.increment it with
            | error f =>
              simp only [Except.error.injEq, Option.some.injEq, List.mem_singleton, forall_eq]
              constructor
              · intro hf; exact ⟨hf, hall1⟩
              · rintro ⟨hf, _⟩; exact hf
            | ok next =>
              simp only [List.mem_cons, forall_eq_or_imp]
              rw [ih next s1, (increment_zip it next hi).1]
              constructor
              · rintro ⟨h1, h2⟩; exact ⟨h1, hall1, h2⟩
              · rintro ⟨h1, _, h2⟩; exact ⟨h1, h2⟩

/-- Every position of a walk that uses up one round more than the span has
bytes is reached within as many rounds as the span has bytes. -/
theorem walk_rounds_early (it : local_file_iterator)
    (h : ∃ s, walk_rounds (it.end_ + 1) it = some s) (k : Nat) (sk : local_file_iterator)
    (hk : walk_rounds k it = some sk) :
    ∃ k2, k2 ≤ it.end_ ∧ walk_rounds k2 it = some sk := by
  obtain ⟨i, p, s, hp, hip, hi, hcyc⟩ := walk_rounds_repeat it h
  induction k using Nat.strong_induction_on with
  | _ k ih =>
    by_cases hle : k ≤ it.end_
    · exact ⟨k, hle, hk⟩
    · obtain ⟨d, hd⟩ : ∃ d, k = i + p + d := ⟨k - (i + p), by omega⟩
      have h1 : walk_rounds (i + p) it = walk_rounds i it := by
        rw [walk_rounds_add, hi, Option.some_bind, hcyc]
      have h2 : walk_rounds (i + d) it = some sk := by
        rw [walk_rounds_add, ← h1, ← walk_rounds_add, ← hd]
        exact hk
      exact ih (i + d) (by omega) h2

/-- Every view of the walk is the position after some number of rounds, and
does not compare equal to the end sentinel. -/
theorem local_files_from_mem (n : Nat) (it : local_file_iterator) (e : Nat)
    (h : e ∈ (local_files_from n it).1) :
    ∃ k sk, walk_rounds k it = some sk ∧ sk.addr_.getD 0 = e
      ∧ local_file_iterator.is_end sk = Except.ok false := by
  induction n generalizing it with
  | zero => simp [local_files_from] at h
  | succ n ih =>
    rw [local_files_from] at h
    cases he : local_file_iterator.is_end it with
    | error f => rw [he] at h; simp at h
    | ok b =>
      rw [he] at h
      cases b with
      | true => simp at h
      | false =>
        cases hi : local_file_iterator.increment it with
        | error f =>
          rw [hi] at h
          simp only [List.mem_singleton] at h
          exact ⟨0, it, rfl, h.symm, he⟩
        | ok next =>
          rw [hi] at h
          simp only [List.mem_cons] at h
          rcases h with h | h
          · exact ⟨0, it, rfl, h.symm, he⟩
          · obtain ⟨k, sk, hk, hsk⟩ := ih next h
            refine ⟨k + 1, sk, ?_, hsk⟩
            rw [walk_rounds, (walk_round_some it next).mpr ⟨he, hi⟩, Option.some_bind, hk]

/-- The position from which a round is taken is a view of every walk of more
rounds. -/
theorem mem_local_files_from (k : Nat) (it t : local_file_iterator)
    (h : walk_rounds (k + 1) it = some t) :
    ∃ sk, walk_rounds k it = some sk
      ∧ ∀ d, sk.addr_.getD 0 ∈ (local_files_from (k + 1 + d) it).1 := by
  induction k generalizing it with
  | zero =>
    rw [walk_rounds] at h
    cases hr : walk_round it with
    | none => rw [hr] at h; cases h
    | some next =>
      obtain ⟨he, hi⟩ := (walk_round_some it next).mp hr
      refine ⟨it, rfl, fun d => ?_⟩
      rw [Nat.zero_add, Nat.add_comm, local_files_from, he, hi]
      exact List.mem_cons_self _ _
  | succ k ih =>
    rw [walk_rounds] at h
    cases hr : walk_round it with
    | none => rw [hr] at h; cases h
    | some next =>
      rw [hr, Option.some_bind] at h
      obtain ⟨he, hi⟩ := (walk_round_some it next).mp hr
      obtain ⟨sk, hsk, hmem⟩ := ih next h
      refine ⟨sk, ?_, fun d => ?_⟩
      · rw [walk_rounds, hr, Option.some_bind, hsk]
      · rw [show k + 1 + 1 + d = (k + 1 + d) + 1 by omega, local_files_from, he, hi]
        exact List.mem_cons_of_mem _ (hmem d)

/-- A search that uses up one round more than the span has bytes uses up any
number of rounds, whatever the engines hold: the loop of the source is never
left. -/
theorem any_of_local_files_never_returns {z : zlib} (passwords : List (List Nat))
    (it : local_file_iterator) (s : crack_state z)
    (h : any_of_local_files passwords (it.end_ + 1) it s = Except.error Failure.out_of_fuel)
    (rounds : Nat) (s2 : crack_state z) :
    any_of_local_files passwords rounds it s2 = Except.error Failure.out_of_fuel := by
  rw [any_of_local_files_out_of_fuel_iff] at h ⊢
  obtain ⟨hout, hall⟩ := h
  refine ⟨walk_never_ends_from it hout rounds, ?_⟩
  intro e he c hc
  have hruns := (local_files_from_out_of_fuel_iff _ it).mp hout
  obtain ⟨k, sk, hk, hsk, _⟩ := local_files_from_mem rounds it e he
  obtain ⟨k2, hk2, hsk2⟩ := walk_rounds_early it hruns k sk hk
  obtain ⟨d, hd⟩ : ∃ d, it.end_ + 1 = (k2 + 1) + d := ⟨it.end_ - k2, by omega⟩
  obtain ⟨s3, hs3⟩ := hruns
  rw [hd] at hs3
  obtain ⟨t, ht⟩ := walk_rounds_prefix (k2 + 1) d it s3 hs3
  obtain ⟨sk3, hsk3, hmem⟩ := mem_local_files_from k2 it t ht
  rw [hsk2] at hsk3
  cases hsk3
  have := hmem d
  rw [← hd, hsk] at this
  exact hall e this c hc

/-- The round bound of `crack` cuts no search short: when `crack` hits it, the
search hits every round bound, from whatever state. -/
theorem crack_never_returns {z : zlib} (tl : engines z) (zip_file : List Nat)
    (passwords : List (List Nat))
    (h : crack tl zip_file passwords = Except.error Failure.out_of_fuel)
    (rounds : Nat) (s : crack_state z) :
    any_of_local_files passwords rounds (local_file_iterator.mk_span zip_file) s
      = Except.error Failure.out_of_fuel := by
  unfold crack at h
  cases hr : any_of_local_files passwords (zip_file.length + 1)
      (local_file_iterator.mk_span zip_file) (⟨none, tl⟩ : crack_state z) with
  | ok r => rw [hr] at h; cases h
  | error f =>
    rw [hr] at h
    cases h
    exact any_of_local_files_never_returns passwords (local_file_iterator.mk_span zip_file)
      ⟨none, tl⟩ hr rounds s

/-! ## The walk and the sizes a header gives -/

/-- The walk over the archive of 50 bytes whose compressed size wraps the
pointer, for any round bound. -/
theorem local_files_from_size_wraps (rounds : Nat) :
    local_files_from rounds (local_file_iterator.mk_span archive_zip64_size_wraps)
      = (List.replicate rounds 0, some Failure.out_of_fuel) := by
  have he : local_file_iterator.is_end (local_file_iterator.mk_span archive_zip64_size_wraps)
      = Except.ok false := by decide
  have hi : local_file_iterator.increment (local_file_iterator.mk_span archive_zip64_size_wraps)
      = Except.ok (local_file_iterator.mk_span archive_zip64_size_wraps) := by decide
  induction rounds with
  | zero => rfl
  | succ n ih =>
    rw [local_files_from, he, hi]
    simp only [ih, List.replicate_succ]
    rfl

/-- No password is valid for an entry that is not encrypted. -/
theorem is_password_valid_not_encrypted {z : zlib} (tl : engines z) (entry password : List Nat)
    (h : local_file.is_encrypted entry = Except.ok false) :
    Prod.fst <$> is_password_valid tl entry password = Except.ok false := by
  unfold is_password_valid
  simp only [h, bind, Except.bind, pure, Except.pure, Bool.false_eq_true, if_false, Functor.map,
    Except.map]

/-- Claim C30 fails on the code. The walk over archive_zip64_size_wraps, one
header of 50 bytes whose zip64 compressed size is 2^64 - 50, never ends. The
view at offset 0 carries the signature; the address that `operator++` computes
for it is the start of the archive again, because 0 + 30 + 0 + 20 + (2^64 - 50)
is 2^64 and the 64-bit pointer wraps; that address is before the end of the
span, so the iterator is left as it was and never compares equal to the end
sentinel. Whatever the round bound, the walk yields the view at offset 0 in
every round and hits the bound, and so does the search of `crack` for any
candidates. -/
theorem C30_walk_never_ends_when_the_size_wraps :
    archive_zip64_size_wraps.length = 50
    ∧ local_file.compressed_data archive_zip64_size_wraps = Except.ok (50, 2 ^ 64 - 50)
    ∧ local_file_iterator.is_end (local_file_iterator.mk_span archive_zip64_size_wraps)
      = Except.ok false
    ∧ local_file_iterator.next_address (local_file_iterator.mk_span archive_zip64_size_wraps)
      = Except.ok 0
    ∧ local_file_iterator.increment (local_file_iterator.mk_span archive_zip64_size_wraps)
      = Except.ok (local_file_iterator.mk_span archive_zip64_size_wraps)
    ∧ (∀ rounds,
        local_files_from rounds (local_file_iterator.mk_span archive_zip64_size_wraps)
          = (List.replicate rounds 0, some Failure.out_of_fuel))
    ∧ (∀ (z : zlib) (passwords : List (List Nat)) (rounds : Nat) (s : crack_state z),
        any_of_local_files passwords rounds
          (local_file_iterator.mk_span archive_zip64_size_wraps) s
          = Except.error Failure.out_of_fuel) := by
  refine ⟨by decide, by decide, by decide, by decide, by decide, local_files_from_size_wraps, ?_⟩
  intro z passwords rounds s
  rw [any_of_local_files_out_of_fuel_iff, local_files_from_size_wraps]
  refine ⟨rfl, ?_⟩
  intro e he c _
  rw [List.eq_of_mem_replicate he]
  exact is_password_valid_not_encrypted _ _ _ (by decide)

/-- Claim C21 fails on the code. The walk over the four signature bytes yields
the view at offset 0 although no 30-byte header fits in the archive, and the
increment then reads outside the archive; the walk over a single 30-byte
header whose compressed size is 100 yields the view at offset 0 and ends
although the 100 payload bytes are not in the archive. The iterator compares
the position with the end of the span and reads the signature, and nothing
else: `is_zip` tests that a header fits before it reads one. -/
theorem C21_yielded_view_does_not_fit :
    (local_files archive_signature_only = ([0], some Failure.out_of_bounds)
      ∧ archive_signature_only.length = 4 ∧ ¬ (0 + 30 ≤ archive_signature_only.length)
      ∧ local_file_iterator.is_end (local_file_iterator.mk_span archive_signature_only)
        = Except.ok false
      ∧ local_file_iterator.increment (local_file_iterator.mk_span archive_signature_only)
        = Except.error Failure.out_of_bounds
      ∧ is_zip archive_signature_only archive_signature_only.length = Except.ok false)
    ∧ (local_files archive_payload_missing = ([0], none)
      ∧ archive_payload_missing.length = 30
      ∧ local_file.file_name_length archive_payload_missing = Except.ok 0
      ∧ local_file.extra_field_length archive_payload_missing = Except.ok 0
      ∧ local_file.compressed_size archive_payload_missing = Except.ok 100
      ∧ spec.descriptor_length archive_payload_missing = Except.ok 0
      ∧ ¬ (0 + 30 + 0 + 0 + 100 + 0 ≤ archive_payload_missing.length)) := by
  decide

/-! ## The increment over a data descriptor -/

/-- Claim C29 does not hold as stated. After the record with a 32-bit data
descriptor with signature, whose payload ends at offset 33, `operator++`
computes 49 = 33 + 4 + 12, the end of the archive, not 33 + 4 + 16; after the
record with a zip64 data descriptor without signature, whose payload ends at
offset 53, it computes 73 = 53 + 20, the end of the archive, not 53 + 24. -/
theorem C29_counterexample_descriptor_sizes :
    (local_file.compressed_data archive_descriptor32 = Except.ok (31, 2)
      ∧ align 4 (archive_descriptor32.drop 33) = Except.ok 0x08074B50
      ∧ local_file.is_zip64 archive_descriptor32 = Except.ok false
      ∧ archive_descriptor32.length = 49
      ∧ local_file_iterator.next_address (local_file_iterator.mk_span archive_descriptor32)
        = Except.ok 49
      ∧ (49 : Nat) ≠ 33 + (16 + 4))
    ∧ (local_file.compressed_data archive_descriptor64 = Except.ok (51, 2)
      ∧ align 4 (archive_descriptor64.drop 53) ≠ Except.ok 0x08074B50
      ∧ local_file.is_zip64 archive_descriptor64 = Except.ok true
      ∧ archive_descriptor64.length = 73
      ∧ local_file_iterator.next_address (local_file_iterator.mk_span archive_descriptor64)
        = Except.ok 73
      ∧ (73 : Nat) ≠ 53 + 24) := by
  decide

/-- Claim C29, amended. For every local-file record with flag bit 3 set, at
offset `a` of an archive, `operator++` computes the offset of the byte
immediately after the compressed payload plus the data-descriptor length,
where that length is 12 bytes, plus 4 if the signature 0x08074B50 is found
after the payload, when the raw sizes are not both 0xFFFFFFFF, and 20 bytes,
plus 4 if the signature is found, when they are; the iterator moves there, or
becomes the null iterator when that offset is at or past the archive end. -/
theorem C29_increment_skips_descriptor (zip_file : List Nat) (a fnl efl cs m cr ur : Nat)
    (hd : local_file.has_data_descriptor (zip_file.drop a) = Except.ok true)
    (hfnl : local_file.file_name_length (zip_file.drop a) = Except.ok fnl)
    (hefl : local_file.extra_field_length (zip_file.drop a) = Except.ok efl)
    (hcs : local_file.compressed_size (zip_file.drop a) = Except.ok cs)
    (hc : local_file.raw_compressed_size (zip_file.drop a) = Except.ok cr)
    (hu : local_file.raw_uncompressed_size (zip_file.drop a) = Except.ok ur)
    (hm : align 4 ((zip_file.drop a).drop (30 + fnl + efl + cs)) = Except.ok m) :
    local_file_iterator.next_address ⟨zip_file, some a, zip_file.length⟩
      = Except.ok (a + (30 + fnl + efl + cs)
          + ((if m = 0x08074B50 then 4 else 0)
            + (if cr = 0xffffffff ∧ ur = 0xffffffff then 20 else 12)))
    ∧ local_file_iterator.increment ⟨zip_file, some a, zip_file.length⟩
      = Except.ok ⟨zip_file,
          if a + (30 + fnl + efl + cs)
              + ((if m = 0x08074B50 then 4 else 0)
                + (if cr = 0xffffffff ∧ ur = 0xffffffff then 20 else 12)) ≥ zip_file.length
          then none
          else some (a + (30 + fnl + efl + cs)
              + ((if m = 0x08074B50 then 4 else 0)
                + (if cr = 0xffffffff ∧ ur = 0xffffffff then 20 else 12))),
          zip_file.length⟩ := by
  have hv := visit_data_descriptor_eq _ fnl efl cs m cr ur hfnl hefl hcs hc hu hm
  have hdd : local_file.data_descriptor_data (zip_file.drop a)
      = Except.ok (30 + fnl + efl + cs,
          (if m = 0x08074B50 then 4 else 0)
            + (if cr = 0xffffffff ∧ ur = 0xffffffff then 20 else 12)) := by
    unfold local_file.data_descriptor_data
    simp only [hfnl, hefl, hcs, hv, bind, Except.bind, pure, Except.pure, local_file.sizeof,
      spec.descriptor_offset, sizeof_data_descriptor]
    congr 2
    split_ifs <;> omega
  have hn : local_file_iterator.next_address ⟨zip_file, some a, zip_file.length⟩
      = Except.ok (a + (30 + fnl + efl + cs)
          + ((if m = 0x08074B50 then 4 else 0)
            + (if cr = 0xffffffff ∧ ur = 0xffffffff then 20 else 12))) := by
    have hfit : a + (30 + fnl + efl + cs) ≤ zip_file.length := by
      unfold align at hm
      obtain ⟨bytes, hb, _⟩ := bind_ok hm
      have := read_span_ok hb
      rw [List.length_drop, List.length_drop] at this
      omega
    unfold local_file_iterator.next_address local_file_iterator.deref
    simp only [Option.getD_some, hd, hdd, bind, Except.bind, pure, Except.pure, if_true,
      local_file_iterator.pointer_plus, if_pos hfit]
  refine ⟨hn, ?_⟩
  unfold local_file_iterator.increment
  rw [hn]
  simp only [bind, Except.bind, pure, Except.pure]
  split_ifs <;> rfl

theorem C29_increment_skips_descriptor_witness :
    (local_file.has_data_descriptor (archive_descriptor32.drop 0) = Except.ok true
      ∧ local_file.file_name_length (archive_descriptor32.drop 0) = Except.ok 1
      ∧ local_file.extra_field_length (archive_descriptor32.drop 0) = Except.ok 0
      ∧ local_file.compressed_size (archive_descriptor32.drop 0) = Except.ok 2
      ∧ local_file.raw_compressed_size (archive_descriptor32.drop 0) = Except.ok 2
      ∧ local_file.raw_uncompressed_size (archive_descriptor32.drop 0) = Except.ok 0
      ∧ align 4 ((archive_descriptor32.drop 0).drop (30 + 1 + 0 + 2)) = Except.ok 0x08074B50)
    ∧ local_file_iterator.next_address ⟨archive_descriptor32, some 0, archive_descriptor32.length⟩
      = Except.ok (0 + (30 + 1 + 0 + 2)
          + ((if (0x08074B50 : Nat) = 0x08074B50 then 4 else 0)
            + (if (2 : Nat) = 0xffffffff ∧ (0 : Nat) = 0xffffffff then 20 else 12)))
    ∧ local_file_iterator.increment ⟨archive_descriptor32, some 0, archive_descriptor32.length⟩
      = Except.ok ⟨archive_descriptor32,
          if 0 + (30 + 1 + 0 + 2)
              + ((if (0x08074B50 : Nat) = 0x08074B50 then 4 else 0)
                + (if (2 : Nat) = 0xffffffff ∧ (0 : Nat) = 0xffffffff then 20 else 12))
              ≥ archive_descriptor32.length
          then none
          else some (0 + (30 + 1 + 0 + 2)
              + ((if (0x08074B50 : Nat) = 0x08074B50 then 4 else 0)
                + (if (2 : Nat) = 0xffffffff ∧ (0 : Nat) = 0xffffffff then 20 else 12))),
          archive_descriptor32.length⟩ :=
  ⟨⟨by decide, by decide, by decide, by decide, by decide, by decide, by decide⟩,
    C29_increment_skips_descriptor archive_descriptor32 0 1 0 2 0x08074B50 2 0 (by decide)
      (by decide) (by decide) (by decide) (by decide) (by decide) (by decide)⟩

/-! ## The increment of the brute-force iterator -/

theorem nat_digits_succ (A : Nat) (hA : 2 ≤ A) (i : Nat) :
    Nat.digits A (i + 1) = spec.carry (A - 1) (Nat.digits A i) := by
  induction i using Nat.strong_induction_on with
  | _ i ih =>
    by_cases hi : i = 0
    · subst hi
      rw [Nat.digits_zero, spec.carry, Nat.digits_def' (by omega) (by omega)]
      have h1 : 1 % A = 1 := Nat.mod_eq_of_lt (by omega)
      have h2 : 1 / A = 0 := Nat.div_eq_of_lt (by omega)
      rw [h1, h2, Nat.digits_zero]
    · rw [Nat.digits_def' (by omega) (Nat.pos_of_ne_zero hi),
        Nat.digits_def' (by omega) (Nat.succ_pos i), spec.carry]
      have hlt : i % A < A := Nat.mod_lt _ (by omega)
      by_cases hd : i % A = A - 1
      · rw [if_neg (by simpa using hd)]
        have hdvd : (i + 1) % A = 0 := by
          have := Nat.div_add_mod i A
          have h2 : i + 1 = A * (i / A + 1) := by rw [Nat.mul_add, Nat.mul_one]; omega
          rw [h2, Nat.mul_mod_right]
        have hdiv : (i + 1) / A = i / A + 1 := by
          have := Nat.div_add_mod i A
          have h2 : i + 1 = A * (i / A + 1) := by rw [Nat.mul_add, Nat.mul_one]; omega
          rw [h2, Nat.mul_div_cancel_left _ (by omega)]
        rw [hdvd, hdiv, ih (i / A) (Nat.div_lt_self (Nat.pos_of_ne_zero hi) (by omega))]
      · rw [if_pos hd]
        have hm : (i + 1) % A = i % A + 1 := by
          have := Nat.div_add_mod i A
          have h2 : i + 1 = (i % A + 1) + A * (i / A) := by omega
          rw [h2, Nat.add_mul_mod_self_left, Nat.mod_eq_of_lt (by omega)]
        have hdiv : (i + 1) / A = i / A := by
          have := Nat.div_add_mod i A
          have h2 : i + 1 = (i % A + 1) + A * (i / A) := by omega
          rw [h2, Nat.add_mul_div_left _ _ (by omega), Nat.div_eq_of_lt (by omega), Nat.zero_add]
        rw [hm, hdiv]

/-- The digits of the successor are the digits after a step with carry. -/
theorem spec_digits_succ (A : Nat) (hA : 2 ≤ A) (i : Nat) :
    spec.digits A (i + 1) = spec.carry (A - 1) (spec.digits A i) := by
  by_cases hi : i = 0
  · subst hi
    rw [spec_digits_zero, spec.carry, if_pos (by omega), spec_digits_of_pos A 1 hA (by omega),
      Nat.digits_def' (by omega) (by omega)]
    have h1 : 1 % A = 1 := Nat.mod_eq_of_lt (by omega)
    have h2 : 1 / A = 0 := Nat.div_eq_of_lt (by omega)
    rw [h1, h2, Nat.digits_zero]
  · rw [spec_digits_of_pos A (i + 1) hA (by omega),
      spec_digits_of_pos A i hA (Nat.pos_of_ne_zero hi), nat_digits_succ A hA]

/-- The array operations of `operator++` on digits `ds` followed by `tail`
compute the step with carry. -/
theorem increment_array (last : Nat) (hlast : last < 256) (ds : List Nat)
    (hds : ∀ d ∈ ds, d ≤ last) (tail : List Nat) :
    (ds.findIdx (fun c => decide (c ≠ last)) = ds.length → tail ≠ [] →
      ((List.replicate (ds.findIdx (fun c => decide (c ≠ last))) 0
          ++ (ds ++ tail).drop (ds.findIdx (fun c => decide (c ≠ last)))).set
          (ds.findIdx (fun c => decide (c ≠ last))) 1).take (ds.length + 1)
        = spec.carry last ds)
    ∧ (ds.findIdx (fun c => decide (c ≠ last)) ≠ ds.length →
      ((List.replicate (ds.findIdx (fun c => decide (c ≠ last))) 0
          ++ (ds ++ tail).drop (ds.findIdx (fun c => decide (c ≠ last)))).set
          (ds.findIdx (fun c => decide (c ≠ last)))
          (((List.replicate (ds.findIdx (fun c => decide (c ≠ last))) 0
            ++ (ds ++ tail).drop (ds.findIdx (fun c => decide (c ≠ last)))).getD
            (ds.findIdx (fun c => decide (c ≠ last))) 0 + 1) % 2 ^ 8)).take ds.length
        = spec.carry last ds) := by
  induction ds with
  | nil =>
    constructor
    · intro _ ht
      match tail, ht with
      | t :: ts, _ => simp [spec.carry]
    · intro h
      simp at h
  | cons d ds ih =>
    have hd := hds d (List.mem_cons_self _ _)
    obtain ⟨ih1, ih2⟩ := ih (fun x hx => hds x (List.mem_cons_of_mem _ hx))
    by_cases hp : d = last
    · have hf : (d :: ds).findIdx (fun c => decide (c ≠ last))
          = ds.findIdx (fun c => decide (c ≠ last)) + 1 := by
        rw [List.findIdx_cons]
        simp [hp]
      rw [hf]
      simp only [List.replicate_succ, List.cons_append, List.drop_succ_cons, List.set_cons_succ,
        List.length_cons, List.take_succ_cons, List.getD_cons_succ, spec.carry, ne_eq, hp,
        not_true_eq_false, if_false, Nat.add_right_cancel_iff]
      constructor
      · intro h ht
        rw [ih1 h ht]
      · intro h
        rw [ih2 h]
    · have hf : (d :: ds).findIdx (fun c => decide (c ≠ last)) = 0 := by
        rw [List.findIdx_cons]
        simp [hp]
      rw [hf]
      constructor
      · intro h
        simp at h
      · intro _
        have : (d + 1) % 2 ^ 8 = d + 1 := Nat.mod_eq_of_lt (by norm_num; omega)
        simp only [List.replicate_zero, List.nil_append, List.drop_zero, List.cons_append,
          List.set_cons_zero, List.getD_cons_zero, List.length_cons, List.take_succ_cons,
          List.take_left, spec.carry, ne_eq, hp, not_false_eq_true, if_true, this]

theorem carry_length_ge (last : Nat) (ds : List Nat) :
    ds.length ≤ (spec.carry last ds).length
    ∧ (ds.findIdx (fun c => decide (c ≠ last)) = ds.length →
        (spec.carry last ds).length = ds.length + 1)
    ∧ (ds.findIdx (fun c => decide (c ≠ last)) ≠ ds.length →
        (spec.carry last ds).length = ds.length)
    ∧ ds.findIdx (fun c => decide (c ≠ last)) ≤ ds.length := by
  induction ds with
  | nil => simp [spec.carry]
  | cons d ds ih =>
    obtain ⟨ih0, ih1, ih2, ih3⟩ := ih
    by_cases hp : d = last
    · have hf : (d :: ds).findIdx (fun c => decide (c ≠ last))
          = ds.findIdx (fun c => decide (c ≠ last)) + 1 := by
        rw [List.findIdx_cons]
        simp [hp]
      rw [hf]
      simp only [ne_eq] at ih1 ih2 ih3
      simp only [spec.carry, ne_eq, hp, not_true_eq_false, if_false, List.length_cons,
        Nat.add_right_cancel_iff]
      exact ⟨by omega, fun h => by rw [ih1 h], fun h => by rw [ih2 h], by omega⟩
    · have hf : (d :: ds).findIdx (fun c => decide (c ≠ last)) = 0 := by
        rw [List.findIdx_cons]
        simp [hp]
      rw [hf]
      simp [spec.carry, hp]

/-- The iterator that the constructor builds at an index below 2^128, over an
alphabet of 2 to 256 bytes. -/
theorem mk_index_eq (alphabet : List Nat) (i : Nat) (hA : 2 ≤ alphabet.length)
    (hA2 : alphabet.length ≤ 256) (hi : i < 2 ^ 128) :
    ∃ arr, brute_iterator.mk_index i alphabet
        = Except.ok ⟨i, alphabet, arr, (spec.digits alphabet.length i).length⟩
      ∧ arr.length = 128
      ∧ arr.take (spec.digits alphabet.length i).length = spec.digits alphabet.length i := by
  have hlen : (spec.digits alphabet.length i).length ≤ 128 :=
    spec_digits_length_le _ _ 128 hA (by omega)
      (lt_of_lt_of_le hi (Nat.pow_le_pow_left hA 128))
  have hmap : (spec.digits alphabet.length i).map (· % 2 ^ 8) = spec.digits alphabet.length i := by
    conv => rhs; rw [← List.map_id (spec.digits alphabet.length i)]
    apply List.map_congr_left
    intro d hd
    have := spec_digits_lt _ i hA d hd
    exact Nat.mod_eq_of_lt (by norm_num; omega)
  refine ⟨write_at (List.replicate 128 0) 0 (spec.digits alphabet.length i), ?_, ?_, ?_⟩
  · unfold brute_iterator.mk_index brute_iterator.set_index
    rw [set_index_loop_eq _ hA 128 i 0 _ hlen, hmap]
    simp only [bind, Except.bind, pure, Except.pure, Nat.zero_add]
    rw [Nat.mod_eq_of_lt (by norm_num; omega)]
  · rw [write_at_length, List.length_replicate]
  · have := take_write_at (List.replicate 128 0) 0 (spec.digits alphabet.length i)
      (by rw [List.length_replicate]; omega)
    simpa using this

theorem deref_of_digits (it : brute_iterator) (ds : List Nat)
    (h : it.indices_.take it.indices_len_ = ds) (hds : ∀ d ∈ ds, d < it.alphabet_.length) :
    brute_iterator.deref it = Except.ok (ds.map (fun d => it.alphabet_.getD d 0)) := by
  unfold brute_iterator.deref
  rw [h]
  exact mapM_ok _ _ _ (fun d hd => string_at_of_lt _ _ (hds d hd))

/-- Claim C28 does not hold as stated. Over the alphabet of 257 bytes, the
increment of `brute_iterator(256, alphabet)` has index 257 and dereferences to
the one-byte string `a`, while `brute_iterator(257, alphabet)` dereferences to
the two-byte string `aa`: the digits are `std::uint8_t`, and no digit equals
`size() - 1 = 256`. -/
theorem C28_counterexample_alphabet_257 :
    2 ≤ alphabet_257.length ∧ (256 : Nat) + 1 < 2 ^ 128
    ∧ (brute_iterator.mk_index 256 alphabet_257 >>= fun it =>
        brute_iterator.operator_increment it >>= fun it2 =>
          brute_iterator.deref it2 >>= fun s => pure (it2.index_, s))
        = Except.ok (257, [97])
    ∧ candidate alphabet_257 (256 + 1) = Except.ok [97, 97] := by
  decide!

/-- Claim C28, amended. The incremental carry in `operator++` agrees with full
redivision: for every alphabet of A bytes with 2 <= A <= 256 and every index i
with i + 1 below 2^128, `brute_iterator(i, alphabet)` is built, `operator++` on
it returns an iterator with index i + 1, and that iterator dereferences to the
same string as `brute_iterator(i + 1, alphabet)`. -/
theorem C28_increment_agrees_with_set_index (alphabet : List Nat) (i : Nat)
    (hA : 2 ≤ alphabet.length) (hA2 : alphabet.length ≤ 256) (hi : i + 1 < 2 ^ 128) :
    ∃ it it2 s, brute_iterator.mk_index i alphabet = Except.ok it
      ∧ brute_iterator.operator_increment it = Except.ok it2
      ∧ it2.index_ = i + 1
      ∧ brute_iterator.deref it2 = Except.ok s
      ∧ candidate alphabet (i + 1) = Except.ok s := by
  obtain ⟨arr, hmk, harr, htake⟩ := mk_index_eq alphabet i hA hA2 (by omega)
  have hcand := candidate_eq_of_le_256 alphabet (i + 1) hA hA2 hi
  have hsucc := spec_digits_succ alphabet.length hA i
  have hlen2 : (spec.digits alphabet.length (i + 1)).length ≤ 128 :=
    spec_digits_length_le _ _ 128 hA (by omega)
      (lt_of_lt_of_le hi (Nat.pow_le_pow_left hA 128))
  have hlt2 := spec_digits_lt alphabet.length (i + 1) hA
  have hds : ∀ d ∈ spec.digits alphabet.length i, d ≤ alphabet.length - 1 := by
    intro d hd
    have := spec_digits_lt alphabet.length i hA d hd
    omega
  have hlast : (alphabet.length + 2 ^ 64 - 1) % 2 ^ 64 = alphabet.length - 1 := by
    rw [show alphabet.length + 2 ^ 64 - 1 = (alphabet.length - 1) + 2 ^ 64 by omega,
      Nat.add_mod_right, Nat.mod_eq_of_lt (by norm_num; omega)]
  have harr2 : arr = spec.digits alphabet.length i
      ++ arr.drop (spec.digits alphabet.length i).length := by
    conv => lhs; rw [← List.take_append_drop (spec.digits alphabet.length i).length arr]
    rw [htake]
  have htl : (arr.drop (spec.digits alphabet.length i).length).length
      = 128 - (spec.digits alphabet.length i).length := by
    rw [List.length_drop, harr]
  rw [hsucc] at hcand hlen2 hlt2
  generalize spec.digits alphabet.length i = ds at *
  generalize arr.drop ds.length = tail at *
  subst harr2
  obtain ⟨hc0, hc1, hc2, hc3⟩ := carry_length_ge (alphabet.length - 1) ds
  obtain ⟨ha1, ha2⟩ := increment_array (alphabet.length - 1) (by omega) ds hds tail
  have hguard : ¬ ((ds ++ tail).length < ds.length) := by
    rw [List.length_append]; omega
  by_cases hpos : ds.findIdx (fun c => decide (c ≠ alphabet.length - 1)) = ds.length
  · have hn : ds.length + 1 ≤ 128 := by rw [← hc1 hpos]; exact hlen2
    have htail : tail ≠ [] := by
      intro h
      rw [h, List.length_nil] at htl
      omega
    refine ⟨_, ⟨(i + 1) % 2 ^ 128, alphabet,
      (List.replicate ds.length 0 ++ (ds ++ tail).drop ds.length).set ds.length 1,
      (ds.length + 1) % 2 ^ 8⟩, _, hmk, ?_, ?_, ?_, hcand⟩
    · unfold brute_iterator.operator_increment
      simp only [hguard, if_false, hlast, List.take_left, hpos, if_true, harr,
        show ds.length < 128 by omega, show ¬ (128 < ds.length) by omega]
      rfl
    · exact Nat.mod_eq_of_lt hi
    · have hmod : (ds.length + 1) % 2 ^ 8 = ds.length + 1 := Nat.mod_eq_of_lt (by norm_num; omega)
      rw [hpos] at ha1
      exact deref_of_digits _ _ (by simp only [hmod]; exact ha1 rfl htail) hlt2
  · refine ⟨_, ⟨(i + 1) % 2 ^ 128, alphabet,
      (List.replicate (ds.findIdx (fun c => decide (c ≠ alphabet.length - 1))) 0
        ++ (ds ++ tail).drop (ds.findIdx (fun c => decide (c ≠ alphabet.length - 1)))).set
        (ds.findIdx (fun c => decide (c ≠ alphabet.length - 1)))
        (((List.replicate (ds.findIdx (fun c => decide (c ≠ alphabet.length - 1))) 0
          ++ (ds ++ tail).drop (ds.findIdx (fun c => decide (c ≠ alphabet.length - 1)))).getD
          (ds.findIdx (fun c => decide (c ≠ alphabet.length - 1))) 0 + 1) % 2 ^ 8),
      ds.length⟩, _, hmk, ?_, ?_, ?_, hcand⟩
    · unfold brute_iterator.operator_increment
      simp only [hguard, if_false, hlast, List.take_left, hpos]
      rfl
    · exact Nat.mod_eq_of_lt hi
    · exact deref_of_digits _ _ (ha2 hpos) hlt2

theorem C28_increment_agrees_with_set_index_witness :
    (2 ≤ [48, 49, 50].length ∧ [48, 49, 50].length ≤ 256 ∧ 8 + 1 < 2 ^ 128)
    ∧ ∃ it it2 s, brute_iterator.mk_index 8 [48, 49, 50] = Except.ok it
      ∧ brute_iterator.operator_increment it = Except.ok it2
      ∧ it2.index_ = 8 + 1
      ∧ brute_iterator.deref it2 = Except.ok s
      ∧ candidate [48, 49, 50] (8 + 1) = Except.ok s :=
  ⟨⟨by decide, by decide, by norm_num⟩,
    C28_increment_agrees_with_set_index [48, 49, 50] 8 (by decide) (by decide) (by norm_num)⟩

/-! ## The CRC-32 step separates bytes -/

theorem crc32_bit_lt (r : Nat) (h : r < 2 ^ 32) : crc32_bit r < 2 ^ 32 := by
  unfold crc32_bit
  have hs : r >>> 1 < 2 ^ 32 := by
    rw [Nat.shiftRight_eq_div_pow]
    omega
  split_ifs
  · exact Nat.xor_lt_two_pow hs (by norm_num)
  · exact hs

/-- The step `crc32_bit` can be undone on 32-bit values. -/
theorem crc32_bit_injective (r s : Nat) (hr : r < 2 ^ 32) (hs : s < 2 ^ 32)
    (h : crc32_bit r = crc32_bit s) : r = s := by
  have key : ∀ x, x < 2 ^ 32 →
      (x % 2 = 1 → (crc32_bit x).testBit 31 = true ∧ crc32_bit x ^^^ 0xEDB88320 = x / 2)
      ∧ (¬ x % 2 = 1 → (crc32_bit x).testBit 31 = false ∧ crc32_bit x = x / 2) := by
    intro x hx
    have hx2 : x >>> 1 < 2 ^ 31 := by
      rw [Nat.shiftRight_eq_div_pow]
      omega
    have hsh : x >>> 1 = x / 2 := by rw [Nat.shiftRight_eq_div_pow]
    unfold crc32_bit
    constructor
    · intro hodd
      rw [if_pos hodd]
      constructor
      · rw [Nat.testBit_xor, Nat.testBit_lt_two_pow hx2]
        decide
      · rw [xor_xor_cancel, hsh]
    · intro heven
      rw [if_neg heven]
      exact ⟨Nat.testBit_lt_two_pow hx2, hsh⟩
  obtain ⟨r1, r2⟩ := key r hr
  obtain ⟨s1, s2⟩ := key s hs
  by_cases hro : r % 2 = 1 <;> by_cases hso : s % 2 = 1
  · have h1 := (r1 hro).2
    have h2 := (s1 hso).2
    rw [h] at h1
    omega
  · have h1 := (r1 hro).1
    have h2 := (s2 hso).1
    rw [h, h2] at h1
    cases h1
  · have h1 := (r2 hro).1
    have h2 := (s1 hso).1
    rw [h, h2] at h1
    cases h1
  · have h1 := (r2 hro).2
    have h2 := (s2 hso).2
    rw [h] at h1
    omega

theorem crc32_step_lt (r b : Nat) : crc32_step r b < 2 ^ 32 := by
  unfold crc32_step
  have h0 : (r ^^^ b) % 2 ^ 32 < 2 ^ 32 := Nat.mod_lt _ (by norm_num)
  exact crc32_bit_lt _ (crc32_bit_lt _ (crc32_bit_lt _ (crc32_bit_lt _ (crc32_bit_lt _
    (crc32_bit_lt _ (crc32_bit_lt _ (crc32_bit_lt _ h0)))))))

theorem crc32_step_injective (r a b : Nat) (h : crc32_step r a = crc32_step r b) :
    (r ^^^ a) % 2 ^ 32 = (r ^^^ b) % 2 ^ 32 := by
  unfold crc32_step at h
  have ha : (r ^^^ a) % 2 ^ 32 < 2 ^ 32 := Nat.mod_lt _ (by norm_num)
  have hb : (r ^^^ b) % 2 ^ 32 < 2 ^ 32 := Nat.mod_lt _ (by norm_num)
  generalize (r ^^^ a) % 2 ^ 32 = x at ha h ⊢
  generalize (r ^^^ b) % 2 ^ 32 = y at hb h ⊢
  have l1 := crc32_bit_lt x ha
  have l2 := crc32_bit_lt _ l1
  have l3 := crc32_bit_lt _ l2
  have l4 := crc32_bit_lt _ l3
  have l5 := crc32_bit_lt _ l4
  have l6 := crc32_bit_lt _ l5
  have l7 := crc32_bit_lt _ l6
  have m1 := crc32_bit_lt y hb
  have m2 := crc32_bit_lt _ m1
  have m3 := crc32_bit_lt _ m2
  have m4 := crc32_bit_lt _ m3
  have m5 := crc32_bit_lt _ m4
  have m6 := crc32_bit_lt _ m5
  have m7 := crc32_bit_lt _ m6
  exact crc32_bit_injective _ _ ha hb (crc32_bit_injective _ _ l1 m1
    (crc32_bit_injective _ _ l2 m2 (crc32_bit_injective _ _ l3 m3
    (crc32_bit_injective _ _ l4 m4 (crc32_bit_injective _ _ l5 m5
    (crc32_bit_injective _ _ l6 m6 (crc32_bit_injective _ _ l7 m7 h)))))))

/-- Two residuals that were updated with bytes differing in bit 0 differ, also
after the final complement. -/
theorem not32_crc32_step_ne (r k : Nat) :
    not32 (crc32_step r k) ≠ not32 (crc32_step r (1 ^^^ k)) := by
  intro h
  unfold not32 at h
  rw [Nat.mod_eq_of_lt (crc32_step_lt _ _), Nat.mod_eq_of_lt (crc32_step_lt _ _)] at h
  have h2 : crc32_step r k = crc32_step r (1 ^^^ k) := by
    have := congrArg (fun x => 0xFFFFFFFF ^^^ x) h
    simp only [← Nat.xor_assoc, Nat.xor_self, Nat.zero_xor] at this
    exact this
  have h3 := crc32_step_injective r k (1 ^^^ k) h2
  have h4 : ((r ^^^ k) % 2 ^ 32).testBit 0 = ((r ^^^ (1 ^^^ k)) % 2 ^ 32).testBit 0 := by rw [h3]
  simp only [Nat.testBit_zero, Nat.mod_mod_of_dvd _ (show 2 ∣ 2 ^ 32 by norm_num)] at h4
  have h5 : (r ^^^ k).testBit 0 = (r ^^^ (1 ^^^ k)).testBit 0 := by
    simp only [Nat.testBit_zero]
    exact h4
  rw [Nat.testBit_xor, Nat.testBit_xor, Nat.testBit_xor] at h5
  have h6 : Nat.testBit 1 0 = true := by decide
  rw [h6] at h5
  revert h5
  cases r.testBit 0 <;> cases k.testBit 0 <;> decide

/-! ## The two validators on a stored entry of more than one chunk -/

theorem record_compression_method (r : spec.record) (tail : List Nat)
    (h : r.compression_method < 2 ^ 16) :
    local_file.compression_method (r.bytes ++ tail) = Except.ok r.compression_method := by
  unfold local_file.compression_method
  simp only [spec.record.bytes, List.append_assoc]
  rw [show (8 : Nat) = 4 + (2 + (2 + 0)) from rfl]
  iterate 3 rw [member_skip_le]
  exact field_le_bytes 2 _ _ h

theorem record_file_last_mod_time (r : spec.record) (tail : List Nat)
    (h : r.last_mod_time < 2 ^ 16) :
    local_file.file_last_mod_time (r.bytes ++ tail) = Except.ok r.last_mod_time := by
  unfold local_file.file_last_mod_time
  simp only [spec.record.bytes, List.append_assoc]
  rw [show (10 : Nat) = 4 + (2 + (2 + (2 + 0))) from rfl]
  iterate 4 rw [member_skip_le]
  exact field_le_bytes 2 _ _ h

theorem record_raw_uncompressed_crc32 (r : spec.record) (tail : List Nat)
    (h : r.crc32_raw < 2 ^ 32) :
    local_file.raw_uncompressed_crc32 (r.bytes ++ tail) = Except.ok r.crc32_raw := by
  unfold local_file.raw_uncompressed_crc32
  simp only [spec.record.bytes, List.append_assoc]
  rw [show (14 : Nat) = 4 + (2 + (2 + (2 + (2 + (2 + 0))))) from rfl]
  iterate 6 rw [member_skip_le]
  exact field_le_bytes 4 _ _ h

/-- The payload loop of verify_password computes the crc of the decrypted
bytes. -/
theorem payload_loop_decrypt_from (cs : List Nat) (key : Key) (residual : Nat) :
    verify_password.payload_loop key residual cs
      = crc32_update (spec.decrypt_from key cs) residual := by
  induction cs generalizing key residual with
  | nil => rfl
  | cons c cs ih =>
    simp only [verify_password.payload_loop, spec.decrypt_from, crc32_update, List.foldl_cons,
      keystream_eq_decrypt_byte, update_eq_update_keys, verify_password.crc, List.foldl_nil]
    exact ih _ _

/-- The method `transform` with the crc receiver on one full chunk and `r` more
bytes: the second round decrypts the first `r` bytes of the ciphertext again. -/
theorem transform_crc_two_rounds (key : Key) (ciphertext : List Nat) (r : Nat)
    (hr : 0 < r) (hr2 : r ≤ 4096) (hlen : 4096 + r ≤ ciphertext.length) (residual : Nat) :
    decrypter.transform ⟨key⟩ ciphertext (4096 + r) crc32_receiver residual
      = Except.ok
          (⟨decrypter.absorb (decrypter.absorb key (ciphertext.take 4096)) (ciphertext.take r)⟩,
            crc32_update
              (spec.decrypt_from (decrypter.absorb key (ciphertext.take 4096)) (ciphertext.take r))
              (crc32_update (spec.decrypt_from key (ciphertext.take 4096)) residual)) := by
  unfold decrypter.transform
  have m1 : min (2 ^ 12) (4096 + r) = 4096 := by omega
  have m2 : min (2 ^ 12) r = r := by omega
  have f1 : 4096 + r = (4095 + r) + 1 := by omega
  have f2 : 4095 + r = (4094 + r) + 1 := by omega
  rw [f1, transform_loop_round crc32_receiver ciphertext (4095 + r) ⟨key⟩ (4095 + r + 1) residual
    (by omega) (by omega)]
  rw [← f1, m1, Nat.add_sub_cancel_left]
  simp only [crc32_receiver, pure, Except.pure, Except.bind]
  rw [f2, transform_loop_round crc32_receiver ciphertext (4094 + r) _ r _ (by omega) (by omega)]
  rw [m2, Nat.sub_self]
  simp only [crc32_receiver, pure, Except.pure, Except.bind, transform_loop_len_zero]

theorem ok_bind {α β : Type} (a : α) (f : α → Except Failure β) :
    (Except.ok a >>= f) = f a := rfl

/-- The stored case of the switch of is_password_valid. -/
theorem switch_stored {z : zlib} (dec : decrypter) (inf : inflater z) (buf : List Nat)
    (len residual : Nat) :
    is_password_valid_switch (0 % 2 ^ 8) dec inf buf len residual
      = (decrypter.transform dec (buf.drop 12) ((len + 2 ^ 64 - 12) % 2 ^ 64) crc32_receiver
          residual >>= fun t => pure (t.1, inf, t.2)) := by
  rw [is_password_valid_switch, if_pos (by decide)]

/-- The flag of is_password_valid for a stored entry that passes the check-bits
test, from what the switch leaves in the residual. -/
theorem is_password_valid_stored {z : zlib} (tl : engines z) (entry pw : List Nat)
    (off len time crc res : Nat) (k : Key) (d : decrypter) (inf : inflater z)
    (henc : local_file.is_encrypted entry = Except.ok true)
    (hcd : local_file.compressed_data entry = Except.ok (off, len))
    (htime : local_file.file_last_mod_time entry = Except.ok time)
    (hreset : decrypter.reset tl.decrypter pw (entry.drop off) (time % 2 ^ 16)
      = Except.ok (true, ⟨k⟩))
    (hm : local_file.compression_method entry = Except.ok 0)
    (hcrc : local_file.uncompressed_crc32 entry = Except.ok crc)
    (hsw : is_password_valid_switch (0 % 2 ^ 8) ⟨k⟩ (⟨z.fresh⟩ : inflater z) (entry.drop off) len
      0xffffffff = Except.ok (d, inf, res)) :
    Prod.fst <$> is_password_valid tl entry pw = Except.ok (decide (not32 res = crc)) := by
  have hinf : inflater.reset tl.inflater = Except.ok ⟨z.fresh⟩ := by
    unfold inflater.reset inflater.zlib_result
    simp only [lt_self_iff_false, if_false, bind, Except.bind, pure, Except.pure]
  unfold is_password_valid
  rw [henc, ok_bind, if_pos rfl, hcd, ok_bind, ok_bind, htime, ok_bind, hreset, ok_bind,
    if_pos rfl, hinf, ok_bind, hm, ok_bind, hsw, ok_bind, hcrc, ok_bind]
  rfl

theorem crc32_lt (buf : List Nat) : crc32 buf < 2 ^ 32 := by
  unfold crc32 not32
  exact Nat.xor_lt_two_pow (by norm_num) (Nat.mod_lt _ (by norm_num))

/-- The crc of a plaintext whose ciphertext ends in the byte 1. -/
theorem crc32_decrypt_from_snoc (key : Key) (zeros : List Nat) :
    not32 (crc32_update (spec.decrypt_from key (zeros ++ [1])) 0xFFFFFFFF)
      = not32 (crc32_step (crc32_update (spec.decrypt_from key zeros) 0xFFFFFFFF)
          (1 ^^^ spec.keystream (decrypter.absorb key zeros))) := by
  rw [decrypt_from_append]
  simp only [spec.decrypt_from, crc32_update, List.foldl_append, List.foldl_cons,
    List.foldl_nil]

/-- The residual after a second chunk that is the ciphertext byte 0 is not the
residual after the ciphertext byte 1. -/
theorem residual_reread_ne (key : Key) (zeros : List Nat) :
    decide (not32 (crc32_update (spec.decrypt_from (decrypter.absorb key zeros) [0])
        (crc32_update (spec.decrypt_from key zeros) 0xffffffff))
      = not32 (crc32_step (crc32_update (spec.decrypt_from key zeros) 0xFFFFFFFF)
          (1 ^^^ spec.keystream (decrypter.absorb key zeros)))) = false := by
  simp only [spec.decrypt_from, crc32_update, List.foldl_cons, List.foldl_nil, Nat.zero_xor]
  rw [decide_eq_false (not32_crc32_step_ne _ _)]

/-- Claim C27 fails on the code. The archive `archive_stored_4097` is one
encrypted stored entry whose payload has 12 + 4097 bytes. For the password `a`,
verify_password on the payload, with the last_mod_time and the crc of the
entry, returns true, and is_password_valid on the entry returns false: its
`transform` decrypts the first ciphertext byte again as byte 4096, because the
source never advances the ciphertext pointer between chunks. -/
theorem C27_validators_disagree_beyond_one_chunk :
    local_file.is_encrypted archive_stored_4097 = Except.ok true
    ∧ local_file.compression_method archive_stored_4097 = Except.ok 0
    ∧ local_file.compressed_data archive_stored_4097 = Except.ok (30, 12 + 4097)
    ∧ local_file.file_last_mod_time archive_stored_4097 = Except.ok 0x94AA
    ∧ local_file.uncompressed_crc32 archive_stored_4097 = Except.ok crc_stored_4097
    ∧ verify_password (archive_stored_4097.drop 30) (12 + 4097) [97] 0x94AA crc_stored_4097
      = Except.ok true
    ∧ ∀ (z : zlib) (tl : engines z),
        Prod.fst <$> is_password_valid tl archive_stored_4097 [97] = Except.ok false := by
  have hl : ciphertext_4097.length = 4097 := by
    simp only [ciphertext_4097, List.length_append, List.length_replicate, List.length_singleton]
  have hcrc_lt : crc_stored_4097 < 2 ^ 32 := crc32_lt _
  have harch : archive_stored_4097 = record_stored_4097.bytes ++ [] := by
    rw [List.append_nil]
    rfl
  have hflags := record_flags record_stored_4097 [] (by decide)
  have hmethod := record_compression_method record_stored_4097 [] (by decide)
  have htime := record_file_last_mod_time record_stored_4097 [] (by decide)
  have hrawcrc := record_raw_uncompressed_crc32 record_stored_4097 [] hcrc_lt
  have hrc := record_raw_compressed_size record_stored_4097 [] (by decide)
  have hru := record_raw_uncompressed_size record_stored_4097 [] (by decide)
  have hfnl := record_file_name_length record_stored_4097 [] (by decide)
  have hefl := record_extra_field_length record_stored_4097 [] (by decide)
  have hcs := compressed_size_of_raw _ _ _ hrc hru (by decide)
  rw [← harch] at hflags hmethod htime hrawcrc hfnl hefl hcs
  have henc : local_file.is_encrypted archive_stored_4097 = Except.ok true := by
    unfold local_file.is_encrypted
    rw [hflags]
    rfl
  have hcd : local_file.compressed_data archive_stored_4097 = Except.ok (30, 12 + 4097) := by
    unfold local_file.compressed_data
    rw [hfnl, hefl, hcs]
    rfl
  have hcrc : local_file.uncompressed_crc32 archive_stored_4097 = Except.ok crc_stored_4097 := by
    unfold local_file.uncompressed_crc32 local_file.has_data_descriptor
    rw [hrawcrc, hflags]
    rfl
  have hdrop : archive_stored_4097.drop 30
      = [0, 0, 0, 0, 0, 0, 0, 0, 0, 0] ++ 0 :: 0 :: ciphertext_4097 := by
    rw [harch, record_drop_header]
    show [] ++ ([] ++ (([0, 0, 0, 0, 0, 0, 0, 0, 0, 0] ++ 0 :: 0 :: ciphertext_4097) ++ [])) = _
    rw [List.append_nil, List.nil_append, List.nil_append]
  have t4096 : ciphertext_4097.take 4096 = List.replicate 4096 0 := by
    unfold ciphertext_4097
    rw [List.take_left' (List.length_replicate _ _)]
  have t1 : ciphertext_4097.take 1 = [0] := by
    unfold ciphertext_4097
    rfl
  have hcrcval : crc_stored_4097
      = not32 (crc32_step
          (crc32_update (spec.decrypt_from key_stored_4097 (List.replicate 4096 0)) 0xFFFFFFFF)
          (1 ^^^ spec.keystream
            (decrypter.absorb key_stored_4097 (List.replicate 4096 0)))) :=
    crc32_decrypt_from_snoc key_stored_4097 (List.replicate 4096 0)
  refine ⟨henc, hmethod, hcd, htime, hcrc, ?_, ?_⟩
  · rw [hdrop, verify_password_layout [0, 0, 0, 0, 0, 0, 0, 0, 0, 0] ciphertext_4097 0 0
      (12 + 4097) [97] 0x94AA crc_stored_4097 rfl (by rw [hl])
      ⟨326196017, 1663632818, 1687979365⟩ ⟨1741568919, 2438120302, 3132402304⟩ key_stored_4097
      (by decide!) (by decide!) (by decide!) (by decide!) (by decide!),
      payload_loop_decrypt_from]
    unfold crc_stored_4097 crc32
    rw [decide_eq_true rfl]
  · intro z tl
    have hreset : decrypter.reset tl.decrypter [97] (archive_stored_4097.drop 30) (0x94AA % 2 ^ 16)
        = Except.ok (true, ⟨key_stored_4097⟩) := by
      rw [hdrop, reset_layout _ [97] [0, 0, 0, 0, 0, 0, 0, 0, 0, 0] ciphertext_4097 0 0 _ rfl
        ⟨326196017, 1663632818, 1687979365⟩ ⟨1741568919, 2438120302, 3132402304⟩
        (by decide!) (by decide!), if_pos (by decide!), if_pos (by decide!)]
      exact congrArg (fun k => Except.ok (true, decrypter.mk k)) (by decide!)
    have hlen : (12 + 4097 + 2 ^ 64 - 12) % 2 ^ 64 = 4096 + 1 := by norm_num
    have hsw : is_password_valid_switch (0 % 2 ^ 8) ⟨key_stored_4097⟩ (⟨z.fresh⟩ : inflater z)
        (archive_stored_4097.drop 30) (12 + 4097) 0xffffffff
        = Except.ok
            (⟨decrypter.absorb (decrypter.absorb key_stored_4097 (ciphertext_4097.take 4096))
                (ciphertext_4097.take 1)⟩,
              ⟨z.fresh⟩,
              crc32_update
                (spec.decrypt_from (decrypter.absorb key_stored_4097 (ciphertext_4097.take 4096))
                  (ciphertext_4097.take 1))
                (crc32_update (spec.decrypt_from key_stored_4097 (ciphertext_4097.take 4096))
                  0xffffffff)) := by
      have hd12 : List.drop 12 ([0, 0, 0, 0, 0, 0, 0, 0, 0, 0] ++ 0 :: 0 :: ciphertext_4097)
          = ciphertext_4097 := rfl
      rw [switch_stored, hdrop, hlen, hd12,
        transform_crc_two_rounds key_stored_4097 ciphertext_4097 1 (by omega) (by omega)
          (by rw [hl]), ok_bind]
      rfl
    rw [is_password_valid_stored tl archive_stored_4097 [97] 30 (12 + 4097) 0x94AA crc_stored_4097
      _ key_stored_4097 _ _ henc hcd htime hreset hmethod hcrc hsw]
    rw [t4096, t1, hcrcval, residual_reread_ne]

/-! ## The argument check of main -/

/-- Claim C26 fails on the code. With `-z a.zip -d words -b 1:a`, both `-d` and
`-b`, the program writes the report of invalid arguments and the usage to
`std::cerr` and goes on: it opens the archive and the dictionary, runs the
search, reports the password `a` and exits with status 0. With `-z a.zip`
alone, neither `-d` nor `-b`, it reports invalid arguments, opens the archive
and dereferences the empty `brute_cfg`. With `-d words` alone, no archive, it
reports invalid arguments and hands the empty path to `::open`. The value of
`error("invalid arguments")` is computed and not returned. -/
theorem C26_invalid_arguments_are_reported_and_ignored :
    @main zlib_block_type_check environment_stored_hi "zip-cracker"
        [('z', "a.zip"), ('d', "words"), ('b', "1:a")]
      = (⟨[chunk.text "\n", chunk.text "invalid arguments", chunk.text "\nusage: ",
            chunk.text "zip-cracker",
            chunk.text
              "-z path_to_zip_file \x7b-d path_to_dictionary | -b brute_len:brute_char_regex\x7d\n"],
          [chunk.text "found password [", chunk.bytes [97], chunk.text "]\n"],
          ["a.zip", "words"]⟩, Except.ok 0)
    ∧ @main zlib_block_type_check environment_stored_hi "zip-cracker" [('z', "a.zip")]
      = (⟨[chunk.text "\n", chunk.text "invalid arguments", chunk.text "\nusage: ",
            chunk.text "zip-cracker",
            chunk.text
              "-z path_to_zip_file \x7b-d path_to_dictionary | -b brute_len:brute_char_regex\x7d\n"],
          [], ["a.zip"]⟩, Except.error Failure.out_of_bounds)
    ∧ @main zlib_block_type_check environment_stored_hi "zip-cracker" [('d', "words")]
      = (⟨[chunk.text "\n", chunk.text "invalid arguments", chunk.text "\nusage: ",
            chunk.text "zip-cracker",
            chunk.text
              "-z path_to_zip_file \x7b-d path_to_dictionary | -b brute_len:brute_char_regex\x7d\n"],
          [], [""]⟩, Except.error (Failure.runtime_error "open")) := by
  decide!

/-! ## The keystream byte -/

/-- The word `(k | 2)` narrowed to 16 bits, from bits 2 to 15 and bit 0 of `k`. -/
theorem or_two_mod (k : Nat) :
    (k ||| 2) % 2 ^ 16 = 2 * (2 * ((k / 4) % 2 ^ 14) + 1) + k % 2 := by
  have hr : k % 4 < 2 ^ 2 := Nat.mod_lt _ (by norm_num)
  have hk : k = 2 ^ 2 * (k / 4) ||| k % 4 := by
    rw [← Nat.mul_add_lt_is_or hr]
    omega
  have hr2 : (k % 4 ||| 2) = 2 + k % 2 := by
    have h4 : k % 4 = 0 ∨ k % 4 = 1 ∨ k % 4 = 2 ∨ k % 4 = 3 := by omega
    have h2 : k % 2 = k % 4 % 2 := by omega
    rw [h2]
    rcases h4 with h | h | h | h <;> rw [h] <;> rfl
  have hlt : (k % 4 ||| 2) < 2 ^ 2 := by rw [hr2]; omega
  have h1 : k ||| 2 = 2 ^ 2 * (k / 4) + (2 + k % 2) := by
    conv => lhs; rw [hk, Nat.or_assoc]
    rw [← Nat.mul_add_lt_is_or hlt, hr2]
  rw [h1]
  omega

/-- The exclusive or with 1 flips bit 0. -/
theorem xor_one_eq (m b : Nat) (hb : b < 2) : (2 * m + b) ^^^ 1 = 2 * m + (1 - b) := by
  have h0 : 2 * m ^^^ 1 = 2 * m + 1 := by
    have h := Nat.xor_bit false m true 0
    simp only [Nat.bit_val, Bool.toNat_false, Bool.toNat_true, Nat.mul_zero, Nat.zero_add,
      Nat.add_zero, Nat.xor_zero] at h
    exact h
  have hb2 : b = 0 ∨ b = 1 := by omega
  rcases hb2 with rfl | rfl
  · simpa using h0
  · rw [← h0, xor_xor_cancel]
    rfl

/-- The product `i * (i ^ 1)` for `i = (k | 2)` narrowed to 16 bits does not
depend on bit 0 of `k`. -/
theorem keystream_product (k : Nat) :
    ((k ||| 2) % 2 ^ 16) * (((k ||| 2) % 2 ^ 16) ^^^ 1)
      = (2 * (2 * ((k / 4) % 2 ^ 14) + 1)) * (2 * (2 * ((k / 4) % 2 ^ 14) + 1) + 1) := by
  rw [or_two_mod, xor_one_eq _ _ (Nat.mod_lt _ (by norm_num))]
  have hb2 : k % 2 = 0 ∨ k % 2 = 1 := by omega
  rcases hb2 with h | h <;> rw [h]
  · rfl
  · exact Nat.mul_comm _ _

/-- Two words that agree on bits 2 to 15 have the same bits 2 to 15 as a
number. -/
theorem bits_2_to_15 (k k2 : Nat)
    (h : ∀ j, j < 16 → 2 ≤ j → k.testBit j = k2.testBit j) :
    (k / 4) % 2 ^ 14 = (k2 / 4) % 2 ^ 14 := by
  apply Nat.eq_of_testBit_eq
  intro j
  have e (x : Nat) : x / 4 = x >>> 2 := by rw [Nat.shiftRight_eq_div_pow]
  rw [e, e, Nat.testBit_mod_two_pow, Nat.testBit_mod_two_pow, Nat.testBit_shiftRight,
    Nat.testBit_shiftRight]
  by_cases hj : j < 14
  · rw [h (2 + j) (by omega) (by omega)]
  · simp [hj]

/-- Claim C31. The keystream byte depends only on bits 2 to 15 of the key word
k2: for every two keys whose words k2 agree on bits 2 through 15,
`next_key_stream_byte` (and the lambda `decrypt_byte` of verify_password) gives
the same byte, and that byte equals ((i * (i XOR 1)) mod 2^16) >> 8 with
i = (k2 | 2) mod 2^16, whether the product is taken in 16-bit arithmetic, in
32-bit wrapping arithmetic or in unbounded arithmetic. -/
theorem C31_keystream_byte_depends_on_bits_2_to_15 (key key2 : Key)
    (hbits : ∀ j, j < 16 → 2 ≤ j → key.k2.testBit j = key2.k2.testBit j) :
    decrypter.next_key_stream_byte key = decrypter.next_key_stream_byte key2
    ∧ verify_password.decrypt_byte key = verify_password.decrypt_byte key2
    ∧ verify_password.decrypt_byte key = decrypter.next_key_stream_byte key
    ∧ decrypter.next_key_stream_byte key
      = ((((key.k2 ||| 2) % 2 ^ 16) * (((key.k2 ||| 2) % 2 ^ 16) ^^^ 1)) % 2 ^ 16) >>> 8
    ∧ decrypter.next_key_stream_byte key
      = (((((key.k2 ||| 2) % 2 ^ 16) * (((key.k2 ||| 2) % 2 ^ 16) ^^^ 1)) % 2 ^ 32) >>> 8) % 256
    ∧ decrypter.next_key_stream_byte key
      = ((((key.k2 ||| 2) % 2 ^ 16) * (((key.k2 ||| 2) % 2 ^ 16) ^^^ 1)) >>> 8) % 256 := by
  have hsame : decrypter.next_key_stream_byte key = decrypter.next_key_stream_byte key2 := by
    unfold decrypter.next_key_stream_byte
    simp only
    rw [keystream_product, keystream_product, bits_2_to_15 _ _ hbits]
  refine ⟨hsame, hsame, rfl, ?_, rfl, ?_⟩
  · unfold decrypter.next_key_stream_byte
    simp only
    generalize ((key.k2 ||| 2) % 2 ^ 16) * (((key.k2 ||| 2) % 2 ^ 16) ^^^ 1) = P
    simp only [Nat.shiftRight_eq_div_pow]
    omega
  · unfold decrypter.next_key_stream_byte
    simp only
    generalize ((key.k2 ||| 2) % 2 ^ 16) * (((key.k2 ||| 2) % 2 ^ 16) ^^^ 1) = P
    simp only [Nat.shiftRight_eq_div_pow]
    omega

theorem C31_keystream_byte_depends_on_bits_2_to_15_witness :
    (∀ j, j < 16 → 2 ≤ j →
      (Key.mk 1 2 0x12345678).k2.testBit j = (Key.mk 7 8 0xFFFF567B).k2.testBit j)
    ∧ decrypter.next_key_stream_byte (Key.mk 1 2 0x12345678)
      = decrypter.next_key_stream_byte (Key.mk 7 8 0xFFFF567B)
    ∧ verify_password.decrypt_byte (Key.mk 1 2 0x12345678)
      = verify_password.decrypt_byte (Key.mk 7 8 0xFFFF567B)
    ∧ verify_password.decrypt_byte (Key.mk 1 2 0x12345678)
      = decrypter.next_key_stream_byte (Key.mk 1 2 0x12345678)
    ∧ decrypter.next_key_stream_byte (Key.mk 1 2 0x12345678)
      = (((((Key.mk 1 2 0x12345678).k2 ||| 2) % 2 ^ 16)
          * ((((Key.mk 1 2 0x12345678).k2 ||| 2) % 2 ^ 16) ^^^ 1)) % 2 ^ 16) >>> 8
    ∧ decrypter.next_key_stream_byte (Key.mk 1 2 0x12345678)
      = ((((((Key.mk 1 2 0x12345678).k2 ||| 2) % 2 ^ 16)
          * ((((Key.mk 1 2 0x12345678).k2 ||| 2) % 2 ^ 16) ^^^ 1)) % 2 ^ 32) >>> 8) % 256
    ∧ decrypter.next_key_stream_byte (Key.mk 1 2 0x12345678)
      = (((((Key.mk 1 2 0x12345678).k2 ||| 2) % 2 ^ 16)
          * ((((Key.mk 1 2 0x12345678).k2 ||| 2) % 2 ^ 16) ^^^ 1)) >>> 8) % 256 :=
  ⟨by decide, C31_keystream_byte_depends_on_bits_2_to_15 (Key.mk 1 2 0x12345678)
    (Key.mk 7 8 0xFFFF567B) (by decide)⟩

/-! ## The bounds of `set_index` and of the dereference -/

/-- The index has at least one digit. -/
theorem spec_digits_length_pos (A i : Nat) : 1 ≤ (spec.digits A i).length := by
  simp [spec.digits]

/-- An index below 2^128 has at most 128 digits in a base of at least 2. -/
theorem spec_digits_length_le_128 (A i : Nat) (hA : 2 ≤ A) (hi : i < 2 ^ 128) :
    (spec.digits A i).length ≤ 128 :=
  spec_digits_length_le A i 128 hA (by omega) (lt_of_lt_of_le hi (Nat.pow_le_pow_left hA 128))

/-- Claim C32. For every alphabet of A >= 2 bytes and every index i below
2^128, the loop of `set_index(i)` over the 128 entries of the digit array
returns (no write lands at `indices_.end()`), having written m digits with
1 <= m <= 128, so that `indices_len_` holds m unwrapped; each of the m stored
digits is smaller than A, and `operator*` on the iterator returns a string of
m bytes, every read of the alphabet being at a position below its size. -/
theorem C32_set_index_stays_in_bounds (self : brute_iterator) (i : Nat)
    (hA : 2 ≤ self.alphabet_.length) (harr : self.indices_.length = 128) (hi : i < 2 ^ 128) :
    ∃ r it, brute_iterator.set_index_loop self.alphabet_.length 128 i 0 self.indices_
        = Except.ok r
      ∧ brute_iterator.set_index self i = Except.ok it
      ∧ 1 ≤ r.2 ∧ r.2 ≤ 128
      ∧ it.indices_len_ = r.2 ∧ it.indices_ = r.1 ∧ it.indices_.length = 128
      ∧ it.alphabet_ = self.alphabet_
      ∧ (∀ d ∈ it.indices_.take it.indices_len_, d < it.alphabet_.length)
      ∧ (∀ d ∈ it.indices_.take it.indices_len_,
          string_at it.alphabet_ d = Except.ok (it.alphabet_.getD d 0))
      ∧ ∃ s, brute_iterator.deref it = Except.ok s ∧ s.length = r.2 := by
  have hlen := spec_digits_length_le_128 _ i hA hi
  have hpos := spec_digits_length_pos self.alphabet_.length i
  have hloop := set_index_loop_eq _ hA 128 i 0 self.indices_ hlen
  have htake := take_write_at self.indices_ 0
    ((spec.digits self.alphabet_.length i).map (· % 2 ^ 8)) (by simp; omega)
  simp only [Nat.zero_add, List.length_map, List.take_zero, List.nil_append] at htake
  have hdig : ∀ d ∈ (spec.digits self.alphabet_.length i).map (· % 2 ^ 8),
      d < self.alphabet_.length := by
    intro x hx
    obtain ⟨d, hd, rfl⟩ := List.mem_map.mp hx
    exact lt_of_le_of_lt (Nat.mod_le _ _) (spec_digits_lt _ i hA d hd)
  have hmod : (0 + (spec.digits self.alphabet_.length i).length) % 2 ^ 8
      = 0 + (spec.digits self.alphabet_.length i).length :=
    Nat.mod_eq_of_lt (by omega)
  have hmod2 : (spec.digits self.alphabet_.length i).length % 2 ^ 8
      = (spec.digits self.alphabet_.length i).length := Nat.mod_eq_of_lt (by omega)
  refine ⟨_, { self with index_ := i, indices_ := _, indices_len_ := _ }, hloop, ?_, ?_, ?_,
    hmod, rfl, ?_, rfl, ?_, ?_, ?_⟩
  · unfold brute_iterator.set_index
    rw [hloop]
    rfl
  · simp only [Nat.zero_add]
    exact hpos
  · simp only [Nat.zero_add]
    exact hlen
  · simp only [write_at_length, harr]
  · simp only [Nat.zero_add, hmod2, htake]
    exact hdig
  · simp only [Nat.zero_add, hmod2, htake]
    exact fun d hd => string_at_of_lt _ _ (hdig d hd)
  · refine ⟨_, deref_of_digits _ _ ?_ hdig, ?_⟩
    · simp only [Nat.zero_add, hmod2, htake]
    · simp

theorem C32_set_index_stays_in_bounds_witness :
    (2 ≤ (brute_iterator.mk 0 [97, 98, 99] (List.replicate 128 0) 0).alphabet_.length
      ∧ (brute_iterator.mk 0 [97, 98, 99] (List.replicate 128 0) 0).indices_.length = 128
      ∧ 2 ^ 128 - 1 < 2 ^ 128)
    ∧ ∃ r it, brute_iterator.set_index_loop
          (brute_iterator.mk 0 [97, 98, 99] (List.replicate 128 0) 0).alphabet_.length 128
          (2 ^ 128 - 1) 0 (brute_iterator.mk 0 [97, 98, 99] (List.replicate 128 0) 0).indices_
        = Except.ok r
      ∧ brute_iterator.set_index (brute_iterator.mk 0 [97, 98, 99] (List.replicate 128 0) 0)
          (2 ^ 128 - 1) = Except.ok it
      ∧ 1 ≤ r.2 ∧ r.2 ≤ 128
      ∧ it.indices_len_ = r.2 ∧ it.indices_ = r.1 ∧ it.indices_.length = 128
      ∧ it.alphabet_ = (brute_iterator.mk 0 [97, 98, 99] (List.replicate 128 0) 0).alphabet_
      ∧ (∀ d ∈ it.indices_.take it.indices_len_, d < it.alphabet_.length)
      ∧ (∀ d ∈ it.indices_.take it.indices_len_,
          string_at it.alphabet_ d = Except.ok (it.alphabet_.getD d 0))
      ∧ ∃ s, brute_iterator.deref it = Except.ok s ∧ s.length = r.2 :=
  ⟨⟨by decide, List.length_replicate _ _, by norm_num⟩,
    C32_set_index_stays_in_bounds (brute_iterator.mk 0 [97, 98, 99] (List.replicate 128 0) 0)
      (2 ^ 128 - 1) (by decide) (List.length_replicate _ _) (by norm_num)⟩

end zip_cracker
